import Mathlib

/-!
# Simple2d: the software framebuffer of `Window.h` / `Window.cpp`

A shallow embedding of the drawing primitives, the alpha compositor and the
damage tracker of class `Window`, followed by theorems about them.

Conventions of the embedding.

* C++ `int` values are `Int`.  Signed overflow is undefined behaviour in C++,
  so signed arithmetic is exact here; casts to `unsigned`, to `size_t`, to
  `uint8_t` and the 16-bit SSE lanes are reduced modulo `2^w` explicitly.
  The error term of `writeLine` can leave the `int` range for end points inside
  it, so `writeLine` has a second model, `writeLine32`, in 32-bit
  two's-complement arithmetic; the two are proved equal where nothing overflows.
* The `float` arithmetic of `writePolygon` is a parameter `FloatOps`.
  `binary32Ops` is IEEE 754 binary32, the arithmetic of the code; `exactOps` is
  exact fractions, which binary32 equals where every intermediate value is
  representable.
* The pixel array `pixelBuffer` is a `List Nat` of 32-bit values.  Every memory
  access is checked: a read or write outside the array makes the primitive
  return `none`.
* `for` loops carry a fuel argument computed from their bounds and return
  `none` if the guard still holds when it is used up; `while (true)` in
  `writeLine` takes its fuel from the caller.
-/

namespace Simple2d

/-! ## Data model (`Window.h`) -/

/-- The struct `color { unsigned char r, g, b; }`. -/
structure color where
  r : Nat
  g : Nat
  b : Nat
deriving DecidableEq

/-- The palette entry `Red = { 255, 0, 0 }`. -/
def Red : color := ⟨255, 0, 0⟩

/-- The palette entry `White = { 255, 255, 255 }`. -/
def White : color := ⟨255, 255, 255⟩

/-- The Win32 `RECT` used for `dirtyRect`. -/
structure RECT where
  left : Int
  top : Int
  right : Int
  bottom : Int
deriving DecidableEq

/-- The members of `Window` that the rasterizer and the damage tracker touch.
`backBitmap` records whether the bitmap handle is non-null. -/
structure Window where
  pixelBuffer : List Nat
  bufferWidth : Int
  bufferHeight : Int
  backBitmap : Bool
  dirtyRect : RECT
  hasDirty : Bool
  isAllDirty : Bool
  useMarkDirty : Bool
deriving DecidableEq

/-- The textual definition `#define fastMax(a, b) (a > b) ? a : b`, for the uses
whose expansion is a whole initializer or assignment. -/
def fastMax (a b : Int) : Int := if a > b then a else b

/-- The textual definition `#define fastMin(a, b) (a < b) ? a : b`, for the uses
whose expansion is a whole initializer or assignment. -/
def fastMin (a b : Int) : Int := if a < b then a else b

/-- The cast `(unsigned)x` of an `int`. -/
def toUnsigned (x : Int) : Int := x % 2 ^ 32

/-- Conversion of an `int` to the 64-bit `size_t`. -/
def toSizeT (x : Int) : Nat := (x % 2 ^ 64).toNat

/-- The expression `(c.r) | (c.g << 8) | (c.b << 16)` stored in a `uint32_t`. -/
def packColor (c : color) : Nat := (c.r ||| (c.g <<< 8) ||| (c.b <<< 16)) % 2 ^ 32

/-! ## Checked memory -/

/-- Read `pixels[idx]`; `none` when the index is outside the array. -/
def load (pixels : List Nat) (idx : Int) : Option Nat :=
  if 0 ≤ idx then pixels[idx.toNat]? else none

/-- Write `pixels[idx] = v`; `none` when the index is outside the array. -/
def store (pixels : List Nat) (idx : Int) (v : Nat) : Option (List Nat) :=
  if 0 ≤ idx ∧ idx < pixels.length then some (pixels.set idx.toNat v) else none

/-- The four bytes of a 32-bit value, least significant first. -/
def bytesOf (p : Nat) : List Nat :=
  [p % 256, p / 256 % 256, p / 65536 % 256, p / 16777216 % 256]

/-- The 32-bit lane `k` of a 128-bit register given as 16 bytes. -/
def lane32 (v : List Nat) (k : Nat) : Nat :=
  v.getD (4 * k) 0 + 256 * v.getD (4 * k + 1) 0 + 65536 * v.getD (4 * k + 2) 0
    + 16777216 * v.getD (4 * k + 3) 0

/-- The intrinsic `_mm_set1_epi32`: a 128-bit register (16 bytes) holding four
copies of a 32-bit value. -/
def _mm_set1_epi32 (p : Nat) : List Nat :=
  bytesOf p ++ bytesOf p ++ bytesOf p ++ bytesOf p

/-- The intrinsic `_mm_loadu_si128((__m128i*)&pixels[idx])`: the 16 bytes of
four consecutive pixels. -/
def _mm_loadu_si128 (pixels : List Nat) (idx : Int) : Option (List Nat) :=
  (load pixels idx).bind fun p0 =>
  (load pixels (idx + 1)).bind fun p1 =>
  (load pixels (idx + 2)).bind fun p2 =>
  (load pixels (idx + 3)).bind fun p3 =>
  some (bytesOf p0 ++ bytesOf p1 ++ bytesOf p2 ++ bytesOf p3)

/-- The intrinsic `_mm_storeu_si128((__m128i*)&pixels[idx], v)`: four
consecutive pixels are overwritten with the four lanes of `v`. -/
def _mm_storeu_si128 (pixels : List Nat) (idx : Int) (v : List Nat) : Option (List Nat) :=
  (store pixels idx (lane32 v 0)).bind fun m1 =>
  (store m1 (idx + 1) (lane32 v 1)).bind fun m2 =>
  (store m2 (idx + 2) (lane32 v 2)).bind fun m3 =>
  store m3 (idx + 3) (lane32 v 3)

/-- The call `memcpy(&dst[dstIdx], &src[srcIdx], nbytes)` on arrays of 4-byte
pixels: `nbytes / 4` pixels are copied; `none` when the copied range leaves
either array. -/
def memcpy (dst : List Nat) (dstIdx : Int) (src : List Nat) (srcIdx : Int) (nbytes : Nat) :
    Option (List Nat) :=
  let n := nbytes / 4
  if 0 ≤ dstIdx ∧ dstIdx + n ≤ dst.length ∧ 0 ≤ srcIdx ∧ srcIdx + n ≤ src.length then
    some (dst.take dstIdx.toNat ++ (src.drop srcIdx.toNat).take n ++ dst.drop (dstIdx.toNat + n))
  else none

/-! ## Loops -/

/-- The loop `for (; i < hi; ++i) body(i)`. -/
def forLoop {σ : Type} (body : Int → σ → Option σ) (hi : Int) : Nat → Int → σ → Option σ
  | 0, i, s => if i < hi then none else some s
  | fuel + 1, i, s =>
    if i < hi then (body i s).bind fun t => forLoop body hi fuel (i + 1) t else some s

/-- The loop `for (; i + 4 <= count; i += 4) body(i)`; the final `i` is returned
for the remainder loop that follows. -/
def laneLoop {σ : Type} (body : Int → σ → Option σ) (count : Int) :
    Nat → Int → σ → Option (Int × σ)
  | 0, i, s => if i + 4 ≤ count then none else some (i, s)
  | fuel + 1, i, s =>
    if i + 4 ≤ count then (body i s).bind fun t => laneLoop body count fuel (i + 4) t
    else some (i, s)

/-- A lane loop from `i = 0` followed by the scalar remainder loop, as in
`for (; i + 4 <= count; i += 4) lane(i); for (; i < count; ++i) scalar(i);`. -/
def lanesThenScalar {σ : Type} (lane scalar : Int → σ → Option σ) (count : Int) (s : σ) :
    Option σ :=
  (laneLoop lane count count.toNat 0 s).bind fun r =>
    forLoop scalar count (count - r.1).toNat r.1 r.2

/-! ## Damage tracker -/

/-- The method `Window::markDirty`. -/
def markDirty (s : Window) (x y w h : Int) : Window :=
  if s.isAllDirty then s
  else if !s.useMarkDirty then s
  else if w ≤ 0 ∨ h ≤ 0 then s
  else
    let rLeft := x
    let rTop := y
    let rRight := x + w
    let rBottom := y + h
    if rRight ≤ 0 ∨ rBottom ≤ 0 ∨ rLeft ≥ s.bufferWidth ∨ rTop ≥ s.bufferHeight then s
    else
      let s1 : Window :=
        if !s.hasDirty then
          { s with dirtyRect := ⟨rLeft, rTop, rRight, rBottom⟩, hasDirty := true }
        else
          { s with dirtyRect :=
              ⟨if rLeft < s.dirtyRect.left then rLeft else s.dirtyRect.left,
               if rTop < s.dirtyRect.top then rTop else s.dirtyRect.top,
               if rRight > s.dirtyRect.right then rRight else s.dirtyRect.right,
               if rBottom > s.dirtyRect.bottom then rBottom else s.dirtyRect.bottom⟩ }
      { s1 with dirtyRect :=
          ⟨if s1.dirtyRect.left < 0 then 0 else s1.dirtyRect.left,
           if s1.dirtyRect.top < 0 then 0 else s1.dirtyRect.top,
           if s1.dirtyRect.right > s1.bufferWidth then s1.bufferWidth else s1.dirtyRect.right,
           if s1.dirtyRect.bottom > s1.bufferHeight then s1.bufferHeight
           else s1.dirtyRect.bottom⟩ }

/-- The inline setter `setMarkDirty`. -/
def setMarkDirty (s : Window) (set : Bool) : Window := { s with useMarkDirty := set }

/-- The method `Window::present`: the state afterwards and the rectangle handed to
`StretchDIBits` (`none` when nothing is copied). -/
def present (s : Window) : Window × Option RECT :=
  if s.useMarkDirty then
    if !s.hasDirty then (s, none)
    else
      let w := s.dirtyRect.right - s.dirtyRect.left
      let h := s.dirtyRect.bottom - s.dirtyRect.top
      ({ s with hasDirty := false, isAllDirty := false },
        if w > 0 ∧ h > 0 then some s.dirtyRect else none)
  else (s, some ⟨0, 0, s.bufferWidth, s.bufferHeight⟩)

/-! ## Primitive rasterizer -/

/-- The method `Window::writeBackground`. -/
def writeBackground (s : Window) (c : color) : Option Window :=
  let packed := packColor c
  let count : Int := toSizeT (s.bufferWidth * s.bufferHeight)
  let fill := _mm_set1_epi32 packed
  (lanesThenScalar (fun i px => _mm_storeu_si128 px i fill) (fun i px => store px i packed)
      count s.pixelBuffer).map fun px =>
    { markDirty { s with pixelBuffer := px } 0 0 s.bufferWidth s.bufferHeight with
      isAllDirty := true }

/-- The method `Window::writePoint`. -/
def writePoint (s : Window) (x y : Int) (c : color) : Option Window :=
  if toUnsigned x ≥ toUnsigned s.bufferWidth ∨ toUnsigned y ≥ toUnsigned s.bufferHeight then
    some s
  else
    (store s.pixelBuffer (y * s.bufferWidth + x) (packColor c)).map fun px =>
      markDirty { s with pixelBuffer := px } x y 1 1

/-- The loop variables of `writeLine` that change while stepping. -/
structure LineState where
  x1 : Int
  y1 : Int
  err : Int
  pixels : List Nat
deriving DecidableEq

/-- The `while (true)` loop of `Window::writeLine` in exact integers; `none` when the
fuel runs out before the `break`.  It is the loop of the code as long as `2*err`,
`err + dy` and `err + dx` stay inside the `int` range; `lineLoop32` is the loop in
32-bit arithmetic. -/
def lineLoop (bufferWidth bufferHeight x2 y2 dx dy sx sy : Int) (packed : Nat) :
    Nat → LineState → Option LineState
  | 0, _ => none
  | fuel + 1, st =>
    (if toUnsigned st.x1 < toUnsigned bufferWidth ∧ toUnsigned st.y1 < toUnsigned bufferHeight
      then store st.pixels (st.y1 * bufferWidth + st.x1) packed
      else some st.pixels).bind fun px =>
    if st.x1 = x2 ∧ st.y1 = y2 then some { st with pixels := px }
    else
      let e2 := 2 * st.err
      let a : Int × Int := if e2 ≥ dy then (st.err + dy, st.x1 + sx) else (st.err, st.x1)
      let b : Int × Int := if e2 ≤ dx then (a.1 + dx, st.y1 + sy) else (a.1, st.y1)
      lineLoop bufferWidth bufferHeight x2 y2 dx dy sx sy packed fuel ⟨a.2, b.2, b.1, px⟩

/-- The method `Window::writeLine` in exact integers, with the fuel of its
`while (true)` loop.  The parameters `x1`, `y1` are the variables the loop steps, so
the damage report after the loop reads their final values. -/
def writeLine (fuel : Nat) (s : Window) (x1 y1 x2 y2 : Int) (c : color) : Option Window :=
  let packed := packColor c
  let dx := |x2 - x1|
  let sx : Int := if x1 < x2 then 1 else -1
  let dy := -|y2 - y1|
  let sy : Int := if y1 < y2 then 1 else -1
  let err := dx + dy
  (lineLoop s.bufferWidth s.bufferHeight x2 y2 dx dy sx sy packed fuel
      ⟨x1, y1, err, s.pixelBuffer⟩).map fun st =>
    let s1 := { s with pixelBuffer := st.pixels }
    if s1.useMarkDirty then
      let left := fastMin st.x1 x2
      let top := fastMin st.y1 y2
      let right := fastMax st.x1 x2
      let bottom := fastMax st.y1 y2
      markDirty s1 left top (right - left + 1) (bottom - top + 1)
    else s1

/-- One row of the fill in `Window::writeRect`: lanes of four pixels, then the
scalar remainder, on `dst = pixels + row * bufferWidth + startX`. -/
def fillRow (base len : Int) (packed : Nat) (px : List Nat) : Option (List Nat) :=
  lanesThenScalar (fun i m => _mm_storeu_si128 m (base + i) (_mm_set1_epi32 packed))
    (fun i m => store m (base + i) packed) len px

/-- The method `Window::writeRect`. -/
def writeRect (s : Window) (x y w h : Int) (c : color) : Option Window :=
  let startX := fastMax 0 x
  let startY := fastMax 0 y
  let endX := fastMin s.bufferWidth (x + w)
  let endY := fastMin s.bufferHeight (y + h)
  if startX ≥ endX ∨ startY ≥ endY then some s
  else
    let packed := packColor c
    (forLoop (fun row px => fillRow (row * s.bufferWidth + startX) (endX - startX) packed px)
        endY (endY - startY).toNat startY s.pixelBuffer).map fun px =>
      markDirty { s with pixelBuffer := px } x y w h

/-! ## Alpha compositor -/

/-- The function `blendPixel(dst, src, alpha)`; `alpha` is a `uint8_t`. -/
def blendPixel (dst src alpha : Nat) : Nat :=
  let inv := (255 - alpha) % 2 ^ 32
  let dr := (dst &&& 0xFF) % 256
  let dg := ((dst >>> 8) &&& 0xFF) % 256
  let db := ((dst >>> 16) &&& 0xFF) % 256
  let sr := (src &&& 0xFF) % 256
  let sg := ((src >>> 8) &&& 0xFF) % 256
  let sb := ((src >>> 16) &&& 0xFF) % 256
  let r := (sr * alpha + dr * inv) % 2 ^ 32 / 255 % 256
  let g := (sg * alpha + dg * inv) % 2 ^ 32 / 255 % 256
  let b := (sb * alpha + db * inv) % 2 ^ 32 / 255 % 256
  (r ||| (g <<< 8) ||| (b <<< 16)) % 2 ^ 32

/-- The intrinsic `_mm_setzero_si128`: sixteen zero bytes. -/
def _mm_setzero_si128 : List Nat := List.replicate 16 0

/-- The intrinsic `_mm_set1_epi16`: eight copies of a 16-bit value. -/
def _mm_set1_epi16 (v : Nat) : List Nat := List.replicate 8 (v % 65536)

/-- The intrinsic `_mm_unpacklo_epi8(a, b)`: the low eight bytes of `a` and `b`
interleaved, read as eight 16-bit words (byte of `a` low, byte of `b` high). -/
def _mm_unpacklo_epi8 (a b : List Nat) : List Nat :=
  List.zipWith (fun x y => x + 256 * y) (a.take 8) (b.take 8)

/-- The intrinsic `_mm_unpackhi_epi8(a, b)`: the high eight bytes of `a` and `b`
interleaved, read as eight 16-bit words. -/
def _mm_unpackhi_epi8 (a b : List Nat) : List Nat :=
  List.zipWith (fun x y => x + 256 * y) (a.drop 8) (b.drop 8)

/-- The intrinsic `_mm_sub_epi16`: wrapping subtraction of 16-bit words. -/
def _mm_sub_epi16 (a b : List Nat) : List Nat :=
  List.zipWith (fun x y => (x + 65536 - y) % 65536) a b

/-- The intrinsic `_mm_add_epi16`: wrapping addition of 16-bit words. -/
def _mm_add_epi16 (a b : List Nat) : List Nat :=
  List.zipWith (fun x y => (x + y) % 65536) a b

/-- The intrinsic `_mm_mullo_epi16`: the low 16 bits of the products of 16-bit
words. -/
def _mm_mullo_epi16 (a b : List Nat) : List Nat :=
  List.zipWith (fun x y => x * y % 65536) a b

/-- The intrinsic `_mm_srli_epi16`: logical right shift of 16-bit words. -/
def _mm_srli_epi16 (a : List Nat) (n : Nat) : List Nat :=
  a.map fun x => x >>> n

/-- Unsigned saturation of a 16-bit word read as a signed value. -/
def saturateU8 (x : Nat) : Nat :=
  if x ≥ 32768 then 0 else if x > 255 then 255 else x

/-- The intrinsic `_mm_packus_epi16(a, b)`: the sixteen words of `a` then `b`,
each saturated to an unsigned byte. -/
def _mm_packus_epi16 (a b : List Nat) : List Nat :=
  (a ++ b).map saturateU8

/-- The function `blend4_sse2(dst, src, alpha16)`. -/
def blend4_sse2 (dst src alpha16 : List Nat) : List Nat :=
  let dstLo := _mm_unpacklo_epi8 dst _mm_setzero_si128
  let dstHi := _mm_unpackhi_epi8 dst _mm_setzero_si128
  let srcLo := _mm_unpacklo_epi8 src _mm_setzero_si128
  let srcHi := _mm_unpackhi_epi8 src _mm_setzero_si128
  let invAlpha := _mm_sub_epi16 (_mm_set1_epi16 255) alpha16
  let lo := _mm_add_epi16 (_mm_mullo_epi16 srcLo alpha16) (_mm_mullo_epi16 dstLo invAlpha)
  let hi := _mm_add_epi16 (_mm_mullo_epi16 srcHi alpha16) (_mm_mullo_epi16 dstHi invAlpha)
  let lo := _mm_srli_epi16 lo 8
  let hi := _mm_srli_epi16 hi 8
  _mm_packus_epi16 lo hi

/-- One row of the blend in `Window::writeAlphaBitmap`: `dstRow` starts at index
`dstBase` of the pixel array, `srcRow` at index `srcBase` of the source. -/
def blendRow (srcPixels : List Nat) (dstBase srcBase count : Int) (alpha : Nat)
    (px : List Nat) : Option (List Nat) :=
  let alpha16 := _mm_set1_epi16 alpha
  lanesThenScalar
    (fun i m =>
      (_mm_loadu_si128 m (dstBase + i)).bind fun d =>
      (_mm_loadu_si128 srcPixels (srcBase + i)).bind fun s =>
      _mm_storeu_si128 m (dstBase + i) (blend4_sse2 d s alpha16))
    (fun i m =>
      (load m (dstBase + i)).bind fun d =>
      (load srcPixels (srcBase + i)).bind fun s =>
      store m (dstBase + i) (blendPixel d s alpha))
    count px

/-- The method `Window::writeAlphaBitmap`; `alpha` is a `BYTE`. -/
def writeAlphaBitmap (s : Window) (srcPixels : List Nat) (srcW srcH dstX dstY : Int)
    (alpha : Nat) : Option Window :=
  if alpha = 0 then some s
  else
    let startX := fastMax 0 dstX
    let startY := fastMax 0 dstY
    let endX := fastMin s.bufferWidth (dstX + srcW)
    let endY := fastMin s.bufferHeight (dstY + srcH)
    if alpha = 255 then
      (forLoop
          (fun y px =>
            let sy := y - dstY
            memcpy px (y * s.bufferWidth + startX) srcPixels (sy * srcW + (startX - dstX))
              (toSizeT (endX - startX) * 4 % 2 ^ 64))
          endY (endY - startY).toNat startY s.pixelBuffer).map fun px =>
        { s with pixelBuffer := px }
    else
      (forLoop
          (fun y px =>
            let sy := y - dstY
            blendRow srcPixels (y * s.bufferWidth + startX) (sy * srcW + (startX - dstX))
              (endX - startX) alpha px)
          endY (endY - startY).toNat startY s.pixelBuffer).map fun px =>
        markDirty { s with pixelBuffer := px } dstX dstY srcW srcH

/-! ## Specification vocabulary -/

/-- The framebuffer invariant of the data model: non-negative `int` dimensions
whose product is an `int`, and a pixel array of exactly `width * height`
entries. -/
def Window.wf (s : Window) : Prop :=
  0 ≤ s.bufferWidth ∧ 0 ≤ s.bufferHeight ∧ s.bufferWidth < 2 ^ 31 ∧ s.bufferHeight < 2 ^ 31 ∧
    s.bufferWidth * s.bufferHeight < 2 ^ 31 ∧
    (s.pixelBuffer.length : Int) = s.bufferWidth * s.bufferHeight

/-- The values of a C++ `int`. -/
def isInt (x : Int) : Prop := -2 ^ 31 ≤ x ∧ x < 2 ^ 31

/-- The red channel `p & 0xFF` of a packed pixel. -/
def chanR (p : Nat) : Nat := p &&& 0xFF

/-- The green channel `(p >> 8) & 0xFF` of a packed pixel. -/
def chanG (p : Nat) : Nat := (p >>> 8) &&& 0xFF

/-- The blue channel `(p >> 16) & 0xFF` of a packed pixel. -/
def chanB (p : Nat) : Nat := (p >>> 16) &&& 0xFF

/-- The memory relation "exactly the indices in `[lo, hi)` hold `v`, all others
are as in `m`". -/
def FilledRange (m t : List Nat) (lo hi : Int) (v : Nat) : Prop :=
  t.length = m.length ∧ ∀ j, load t j = if lo ≤ j ∧ j < hi then some v else load m j

/-- A window state with a `w` by `h` back buffer of zero pixels, the initial (empty)
damage state, and damage tracking switched to `track`. -/
def freshWindow (w h : Nat) (track : Bool) : Window :=
  ⟨List.replicate (w * h) 0, w, h, true, ⟨0, 0, 0, 0⟩, false, false, track⟩

/-- The memory relation "the indices in `[lo, hi)` hold `f j old`, where `old` is
the value read before, and all others are as in `m`". -/
def RowUpdate (m t : List Nat) (lo hi : Int) (f : Int → Nat → Nat) : Prop :=
  t.length = m.length ∧
    ∀ j, load t j = if lo ≤ j ∧ j < hi then (load m j).map (f j) else load m j

/-- A report `markDirty(x, y, w, h)`. -/
structure Report where
  x : Int
  y : Int
  w : Int
  h : Int
deriving DecidableEq

/-- A sequence of `markDirty` calls, in order. -/
def reportAll (s : Window) (rs : List Report) : Window :=
  rs.foldl (fun t r => markDirty t r.x r.y r.w r.h) s

/-- A report is non-empty and intersects the buffer `[0,W) x [0,H)`. -/
def Report.hits (W H : Int) (r : Report) : Prop :=
  (0 < r.w ∧ 0 < r.h) ∧ (0 < r.x + r.w ∧ 0 < r.y + r.h) ∧ (r.x < W ∧ r.y < H)

/-- The rectangle `{x, y, x+w, y+h}` of a report. -/
def Report.rect (r : Report) : RECT := ⟨r.x, r.y, r.x + r.w, r.y + r.h⟩

/-- The rectangle `b` is the bounding box of the reported rectangles: it contains
each of them, and each of its four sides is the side of one of them. -/
def IsBoundingBox (b : RECT) (rs : List Report) : Prop :=
  (∀ r ∈ rs, b.left ≤ r.x ∧ b.top ≤ r.y ∧ r.x + r.w ≤ b.right ∧ r.y + r.h ≤ b.bottom) ∧
    (∃ r ∈ rs, b.left = r.x) ∧ (∃ r ∈ rs, b.top = r.y) ∧
    (∃ r ∈ rs, b.right = r.x + r.w) ∧ (∃ r ∈ rs, b.bottom = r.y + r.h)

/-- A rectangle clamped to the buffer `[0,W) x [0,H)`: left and top raised to 0,
right and bottom lowered to the buffer dimensions. -/
def clampToBuffer (W H : Int) (b : RECT) : RECT :=
  ⟨max 0 b.left, max 0 b.top, min W b.right, min H b.bottom⟩

/-- The bounding box of a rectangle and a report. -/
def rectUnion (b : RECT) (r : Report) : RECT :=
  ⟨min b.left r.x, min b.top r.y, max b.right (r.x + r.w), max b.bottom (r.y + r.h)⟩

/-- The state `s` with the rectangle `b`, clamped to the buffer, tracked as dirty. -/
def tracked (s : Window) (b : RECT) : Window :=
  { s with dirtyRect := clampToBuffer s.bufferWidth s.bufferHeight b, hasDirty := true }

/-- The byte that `blend4_sse2` computes in one byte position from the byte `d` of
`dst`, the byte `s` of `src` and the 16-bit lanes `alpha % 65536` of `alpha16`:
unpack with zero, multiply-accumulate in 16 bits, shift right by 8, pack with
unsigned saturation. -/
def laneByte (d s alpha : Nat) : Nat :=
  saturateU8 ((((s + 256 * 0) * (alpha % 65536) % 65536 +
    (d + 256 * 0) * ((255 % 65536 + 65536 - alpha % 65536) % 65536) % 65536) % 65536) >>> 8)

/-- The 32-bit lane that `blend4_sse2` computes from the pixel `d` of `dst` and the
pixel `s` of `src`: all four bytes are blended. -/
def lanePixel (d s alpha : Nat) : Nat :=
  laneByte (d % 256) (s % 256) alpha
    + 256 * laneByte (d / 256 % 256) (s / 256 % 256) alpha
    + 65536 * laneByte (d / 65536 % 256) (s / 65536 % 256) alpha
    + 16777216 * laneByte (d / 16777216 % 256) (s / 16777216 % 256) alpha

/-- Each of the red, green and blue channels of `new` lies between (inclusive) the
corresponding channels of `src` and `old`. -/
def channelsBetween (new src old : Nat) : Prop :=
  (min (chanR src) (chanR old) ≤ chanR new ∧ chanR new ≤ max (chanR src) (chanR old)) ∧
  (min (chanG src) (chanG old) ≤ chanG new ∧ chanG new ≤ max (chanG src) (chanG old)) ∧
  (min (chanB src) (chanB old) ≤ chanB new ∧ chanB new ≤ max (chanB src) (chanB old))

/-- Each of the red, green and blue channels of `new` is at most the larger of the
corresponding channels of `src` and `old`, and at most one below the smaller. -/
def channelsBetweenUpToOne (new src old : Nat) : Prop :=
  (min (chanR src) (chanR old) ≤ chanR new + 1 ∧ chanR new ≤ max (chanR src) (chanR old)) ∧
  (min (chanG src) (chanG old) ≤ chanG new + 1 ∧ chanG new ≤ max (chanG src) (chanG old)) ∧
  (min (chanB src) (chanB old) ≤ chanB new + 1 ∧ chanB new ≤ max (chanB src) (chanB old))

/-- The pixel that the blend loops of `writeAlphaBitmap` store at offset `i` of a
row of `count` pixels: the lane value for the offsets below `4 * (count / 4)`, the
scalar value of `blendPixel` for the remainder. -/
def rowBlend (count i : Int) (old sv alpha : Nat) : Nat :=
  if i < 4 * (count / 4) then lanePixel old sv alpha else blendPixel old sv alpha

/-! ## Polygon, glyph and ellipse primitives, resize -/

/-- The Win32 `POINT` (two `LONG` coordinates). -/
structure POINT where
  x : Int
  y : Int
deriving DecidableEq

/-- The `float` operations that `writePolygon` uses, over a carrier `F`: conversion
from an integer, division, multiplication, addition and the conversion `int(..)`.
The theorems that quantify over `FloatOps` hold for every floating-point
semantics. -/
structure FloatOps (F : Type) where
  ofInt : Int → F
  div : F → F → F
  mul : F → F → F
  add : F → F → F
  toInt : F → Int

/-- An exact fraction `num / den` of integers, not normalised. -/
structure Frac where
  num : Int
  den : Int
deriving DecidableEq

/-- The integer `n` as a fraction. -/
def Frac.ofInt (n : Int) : Frac := ⟨n, 1⟩

/-- Exact sum of fractions. -/
def Frac.add (a b : Frac) : Frac := ⟨a.num * b.den + b.num * a.den, a.den * b.den⟩

/-- Exact product of fractions. -/
def Frac.mul (a b : Frac) : Frac := ⟨a.num * b.num, a.den * b.den⟩

/-- Exact quotient of fractions. -/
def Frac.div (a b : Frac) : Frac := ⟨a.num * b.den, a.den * b.num⟩

/-- The conversion `int(..)` of an exact value: truncation toward zero. -/
def Frac.toInt (q : Frac) : Int := Int.tdiv q.num q.den

/-- The C function `round` on an exact value: to the nearest integer, halves away
from zero. -/
def Frac.round (q : Frac) : Int :=
  let n := if q.den < 0 then -q.num else q.num
  let d := |q.den|
  if 0 ≤ n then (2 * n + d) / (2 * d) else -((2 * -n + d) / (2 * d))

/-- Exact arithmetic, with `int(..)` truncating toward zero.  It agrees with every
binary floating-point format on operands and results that the format represents
exactly; `binary32Ops` is the arithmetic of the code. -/
def exactOps : FloatOps Frac where
  ofInt := Frac.ofInt
  div := Frac.div
  mul := Frac.mul
  add := Frac.add
  toInt := Frac.toInt

/-- The struct `Edge { int yMin, yMax, x; float invSlope; }`. -/
structure Edge (F : Type) where
  yMin : Int
  yMax : Int
  x : Int
  invSlope : F

/-- The constant `INT_MAX`. -/
def INT_MAX : Int := 2 ^ 31 - 1

/-- The constant `INT_MIN`. -/
def INT_MIN : Int := -2 ^ 31

/-- The edge-table loop of `writePolygon`: one edge per vertex `i` and its successor
`(i+1) % size`, horizontal edges skipped, the lower-`y` end first. -/
def buildEdges {F : Type} (ops : FloatOps F) (pts : List POINT) : List (Edge F) :=
  (List.range pts.length).filterMap fun i =>
    let p1 := pts.getD i ⟨0, 0⟩
    let p2 := pts.getD ((i + 1) % pts.length) ⟨0, 0⟩
    if p1.y = p2.y then none
    else
      let q1 := if p1.y > p2.y then p2 else p1
      let q2 := if p1.y > p2.y then p1 else p2
      some ⟨q1.y, q2.y, q1.x, ops.div (ops.ofInt (q2.x - q1.x)) (ops.ofInt (q2.y - q1.y))⟩

/-- The intersections of scanline `y` with the edges,
`int(e.x + (y - e.yMin) * e.invSlope)` for the edges with `yMin <= y < yMax`,
sorted ascending by `std::sort`. -/
def scanIntersections {F : Type} (ops : FloatOps F) (edges : List (Edge F)) (y : Int) :
    List Int :=
  (edges.filterMap fun e =>
    if y ≥ e.yMin ∧ y < e.yMax then
      some (ops.toInt (ops.add (ops.ofInt e.x) (ops.mul (ops.ofInt (y - e.yMin)) e.invSlope)))
    else none).insertionSort (· ≤ ·)

/-- The loop `for (int x = xL; x <= xR; ++x) pixels[y * bufferWidth + x] = packed`. -/
def fillSpan (bufferWidth y xL xR : Int) (packed : Nat) (px : List Nat) : Option (List Nat) :=
  forLoop (fun x m => store m (y * bufferWidth + x) packed) (xR + 1) (xR + 1 - xL).toNat xL px

/-- The loop `for (size_t i = 0; i+1 < xInts.size(); i += 2)` of `writePolygon`:
successive pairs of intersections are filled, clipped to the buffer columns, on
the rows inside the buffer. -/
def fillPairs (bufferWidth bufferHeight y : Int) (packed : Nat) :
    List Int → List Nat → Option (List Nat)
  | a :: b :: rest, px =>
    let xL := fastMax 0 a
    let xR := fastMin (bufferWidth - 1) b
    (if y ≥ 0 ∧ y < bufferHeight then fillSpan bufferWidth y xL xR packed px else some px).bind
      fun m => fillPairs bufferWidth bufferHeight y packed rest m
  | _, px => some px

/-- The method `Window::writePolygon`, over the float operations `ops`. -/
def writePolygon {F : Type} (ops : FloatOps F) (s : Window) (pts : List POINT) (c : color) :
    Option Window :=
  if pts.length < 3 then some s
  else
    let packed := packColor c
    let edges := buildEdges ops pts
    let yMin := edges.foldl (fun a e => fastMin a e.yMin) INT_MAX
    let yMax := edges.foldl (fun a e => fastMax a e.yMax) INT_MIN
    (forLoop
        (fun y px =>
          fillPairs s.bufferWidth s.bufferHeight y packed (scanIntersections ops edges y) px)
        yMax (yMax - yMin).toNat yMin s.pixelBuffer).map fun px =>
      let p0 := pts.getD 0 ⟨0, 0⟩
      let minX := (pts.drop 1).foldl (fun a p => fastMin a p.x) p0.x
      let maxX := (pts.drop 1).foldl (fun a p => fastMax a p.x) p0.x
      let minY := (pts.drop 1).foldl (fun a p => fastMin a p.y) p0.y
      let maxY := (pts.drop 1).foldl (fun a p => fastMax a p.y) p0.y
      markDirty { s with pixelBuffer := px } minX minY (maxX - minX + 1) (maxY - minY + 1)

/-- The read `font8x8_basic[ch][row]` converted to `uint8_t`; `none` outside the
table.  The table `font8x8_basic[128][8]` is a parameter. -/
def glyphRow (font : List (List Nat)) (ch row : Nat) : Option Nat :=
  (font[ch]?).bind fun g => (g[row]?).map fun b => b % 256

/-- The method `Window::writeChar`, over the glyph table `font`; `ch` is a
`WCHAR`. -/
def writeChar (font : List (List Nat)) (s : Window) (x y : Int) (ch : Nat) (c : color) :
    Option Window :=
  if ch > 127 then some s
  else
    let packed := packColor c
    (forLoop
        (fun row buf =>
          (glyphRow font ch row.toNat).bind fun bits =>
            forLoop
              (fun col m =>
                if bits &&& (1 <<< col.toNat) ≠ 0 then
                  let px := x + col
                  let py := y + row
                  if toUnsigned px < toUnsigned s.bufferWidth ∧
                      toUnsigned py < toUnsigned s.bufferHeight then
                    store m (py * s.bufferWidth + px) packed
                  else some m
                else some m)
              8 8 0 buf)
        8 8 0 s.pixelBuffer).map fun buf =>
      markDirty { s with pixelBuffer := buf } x y 8 8

/-- The method `Window::writeText`; `text` holds the characters before the
terminating zero. -/
def writeText (font : List (List Nat)) (s : Window) (x y : Int) (text : List Nat) (c : color) :
    Option Window :=
  match text with
  | [] => some s
  | ch :: rest => (writeChar font s x y ch c).bind fun t => writeText font t (x + 8) y rest c

/-- The method `Window::writeSquare`. -/
def writeSquare (s : Window) (x y scale : Int) (c : color) : Option Window :=
  writeRect s x y scale scale c

/-- The method `Window::writeCircle`, over its floating-point rasterization `draw`
(the span fill of step 1 and the antialiased edge of step 2, which only touch the
pixel array); the damage report after it is integer arithmetic. -/
def writeCircle (draw : List Nat → Option (List Nat)) (s : Window) (cx cy radius : Int) :
    Option Window :=
  (draw s.pixelBuffer).map fun px =>
    markDirty { s with pixelBuffer := px } (cx - radius) (cy - radius) (radius * 2) (radius * 2)

/-- The result of a primitive whose loops may not terminate: it returns, or it
accesses index `idx` outside the pixel array, or the fuel of a loop runs out. -/
inductive Outcome (α : Type) where
  | done (a : α) : Outcome α
  | fault (idx : Int) : Outcome α
  | outOfFuel : Outcome α
deriving DecidableEq

/-- Write `pixels[idx] = v`, reporting the index when it is outside the array. -/
def storeOr (pixels : List Nat) (idx : Int) (v : Nat) : Outcome (List Nat) :=
  match store pixels idx v with
  | some m => Outcome.done m
  | none => Outcome.fault idx

/-- The span loop of `writeEllipse`,
`for (int xx = fastMax(0, xL); xx <= fastMin(bufferWidth-1, xR); ++xx)` with its two
stores.  The textual `fastMin` makes the loop test
`(xx <= (bufferWidth-1 < xR)) ? bufferWidth-1 : xR`, a value that is read as a
truth value. -/
def ellipseSpan (bufferWidth cy y xR : Int) (packed : Nat) :
    Nat → Int → List Nat → Outcome (List Nat)
  | 0, xx, px =>
    if (if xx ≤ (if bufferWidth - 1 < xR then 1 else 0) then bufferWidth - 1 else xR) ≠ 0
    then Outcome.outOfFuel else Outcome.done px
  | fuel + 1, xx, px =>
    if (if xx ≤ (if bufferWidth - 1 < xR then 1 else 0) then bufferWidth - 1 else xR) ≠ 0 then
      match storeOr px ((cy + y) * bufferWidth + xx) packed with
      | Outcome.done m1 =>
        match storeOr m1 ((cy - y) * bufferWidth + xx) packed with
        | Outcome.done m2 => ellipseSpan bufferWidth cy y xR packed fuel (xx + 1) m2
        | Outcome.fault i => Outcome.fault i
        | Outcome.outOfFuel => Outcome.outOfFuel
      | Outcome.fault i => Outcome.fault i
      | Outcome.outOfFuel => Outcome.outOfFuel
    else Outcome.done px

/-- The "draw horizontal spans" block that both regions of `writeEllipse` run at
`(x, y)`. -/
def ellipseRows (fuel : Nat) (bufferWidth bufferHeight cx cy x y : Int) (packed : Nat)
    (px : List Nat) : Outcome (List Nat) :=
  let xL := cx - x
  let xR := cx + x
  if y ≥ 0 ∧ y < bufferHeight then
    if xL < bufferWidth ∧ xR ≥ 0 then
      ellipseSpan bufferWidth cy y xR packed fuel (fastMax 0 xL) px
    else Outcome.done px
  else Outcome.done px

/-- The loop variables of `writeEllipse`. -/
structure EllipseState where
  x : Int
  y : Int
  px : Int
  py : Int
  p : Int
  pixels : List Nat
deriving DecidableEq

/-- The loop `while (px < py)` (region 1) of `writeEllipse`. -/
def ellipseRegion1 (fuel : Nat) (bufferWidth bufferHeight cx cy ry2 twoRx2 twoRy2 : Int)
    (packed : Nat) : Nat → EllipseState → Outcome EllipseState
  | 0, st => if st.px < st.py then Outcome.outOfFuel else Outcome.done st
  | n + 1, st =>
    if st.px < st.py then
      match ellipseRows fuel bufferWidth bufferHeight cx cy st.x st.y packed st.pixels with
      | Outcome.done m =>
        let x := st.x + 1
        let px := st.px + twoRy2
        if st.p < 0 then
          ellipseRegion1 fuel bufferWidth bufferHeight cx cy ry2 twoRx2 twoRy2 packed n
            ⟨x, st.y, px, st.py, st.p + (ry2 + px), m⟩
        else
          let y := st.y - 1
          let py := st.py - twoRx2
          ellipseRegion1 fuel bufferWidth bufferHeight cx cy ry2 twoRx2 twoRy2 packed n
            ⟨x, y, px, py, st.p + (ry2 + px - py), m⟩
      | Outcome.fault i => Outcome.fault i
      | Outcome.outOfFuel => Outcome.outOfFuel
    else Outcome.done st

/-- The loop `while (y >= 0)` (region 2) of `writeEllipse`. -/
def ellipseRegion2 (fuel : Nat) (bufferWidth bufferHeight cx cy rx2 twoRx2 twoRy2 : Int)
    (packed : Nat) : Nat → EllipseState → Outcome EllipseState
  | 0, st => if st.y ≥ 0 then Outcome.outOfFuel else Outcome.done st
  | n + 1, st =>
    if st.y ≥ 0 then
      match ellipseRows fuel bufferWidth bufferHeight cx cy st.x st.y packed st.pixels with
      | Outcome.done m =>
        let y := st.y - 1
        let py := st.py - twoRx2
        if st.p > 0 then
          ellipseRegion2 fuel bufferWidth bufferHeight cx cy rx2 twoRx2 twoRy2 packed n
            ⟨st.x, y, st.px, py, st.p + (rx2 - py), m⟩
        else
          let x := st.x + 1
          let px := st.px + twoRy2
          ellipseRegion2 fuel bufferWidth bufferHeight cx cy rx2 twoRx2 twoRy2 packed n
            ⟨x, y, px, py, st.p + (rx2 - py + px), m⟩
      | Outcome.fault i => Outcome.fault i
      | Outcome.outOfFuel => Outcome.outOfFuel
    else Outcome.done st

/-- The method `Window::writeEllipse`; every loop gets the fuel `fuel`.  The two
`round(..)` arguments are `double` expressions, taken exactly. -/
def writeEllipse (fuel : Nat) (s : Window) (cx cy rx ry : Int) (c : color) : Outcome Window :=
  let packed := packColor c
  let rx2 := rx * rx
  let ry2 := ry * ry
  let twoRx2 := 2 * rx2
  let twoRy2 := 2 * ry2
  let p1 := Frac.round
    (Frac.add (Frac.ofInt (ry2 - rx2 * ry)) (Frac.mul ⟨1, 4⟩ (Frac.ofInt rx2)))
  match ellipseRegion1 fuel s.bufferWidth s.bufferHeight cx cy ry2 twoRx2 twoRy2 packed fuel
      ⟨0, ry, 0, twoRx2 * ry, p1, s.pixelBuffer⟩ with
  | Outcome.done st1 =>
    let xh := Frac.add (Frac.ofInt st1.x) ⟨1, 2⟩
    let p2 := Frac.round
      (Frac.add
        (Frac.add (Frac.mul (Frac.mul (Frac.ofInt ry2) xh) xh)
          (Frac.ofInt (rx2 * (st1.y - 1) * (st1.y - 1))))
        (Frac.ofInt (-(rx2 * ry2))))
    match ellipseRegion2 fuel s.bufferWidth s.bufferHeight cx cy rx2 twoRx2 twoRy2 packed fuel
        { st1 with p := p2 } with
    | Outcome.done st2 =>
      Outcome.done (markDirty { s with pixelBuffer := st2.pixels } st2.x st2.y rx ry)
    | Outcome.fault i => Outcome.fault i
    | Outcome.outOfFuel => Outcome.outOfFuel
  | Outcome.fault i => Outcome.fault i
  | Outcome.outOfFuel => Outcome.outOfFuel

/-- The method `Window::createBackBuffer`.  `alloc` is what `CreateDIBSection`
returns: the new pixel array, or `none` when the allocation fails (null bitmap
handle and null `pixelBuffer`). -/
def createBackBuffer (s : Window) (width height : Int) (alloc : Option (List Nat)) : Window :=
  if width = s.bufferWidth ∧ height = s.bufferHeight ∧ s.backBitmap = true then s
  else
    { s with pixelBuffer := alloc.getD [], backBitmap := alloc.isSome,
             bufferWidth := width, bufferHeight := height }

/-- The triangle `(0,0), (10,0), (5,10)`. -/
def triangle : List POINT := [⟨0, 0⟩, ⟨10, 0⟩, ⟨5, 10⟩]

/-! ## Specification vocabulary for painted pixel sets and damage -/

/-- The memory relation "of the pixels of the buffer `[0,W) x [0,H)`, exactly those
satisfying `P` hold `v`, and all others are as in `m`". -/
def Painted (W H : Int) (m t : List Nat) (P : Int → Int → Prop) (v : Nat) : Prop :=
  t.length = m.length ∧
    ∀ px py, 0 ≤ px → px < W → 0 ≤ py → py < H →
      (P px py → load t (py * W + px) = some v) ∧
      (¬ P px py → load t (py * W + px) = load m (py * W + px))

/-- The columns covered by the pairs `[x0,x1], [x2,x3], ..` of a list of
intersections, each clipped to the buffer columns `[0, W)`. -/
def inSpans (W : Int) : List Int → Int → Prop
  | a :: b :: rest, px => (max 0 a ≤ px ∧ px ≤ min (W - 1) b) ∨ inSpans W rest px
  | _, _ => False

/-- The first scanline of `writePolygon`: the least `yMin` of the edges. -/
def polygonYMin {F : Type} (ops : FloatOps F) (pts : List POINT) : Int :=
  (buildEdges ops pts).foldl (fun a e => fastMin a e.yMin) INT_MAX

/-- The scanline after the last one of `writePolygon`: the greatest `yMax` of the
edges. -/
def polygonYMax {F : Type} (ops : FloatOps F) (pts : List POINT) : Int :=
  (buildEdges ops pts).foldl (fun a e => fastMax a e.yMax) INT_MIN

/-- The pixel `(px, py)` lies on a scanline of the polygon, between a pair of its
sorted intersections. -/
def polygonCovers {F : Type} (ops : FloatOps F) (pts : List POINT) (W px py : Int) : Prop :=
  (polygonYMin ops pts ≤ py ∧ py < polygonYMax ops pts) ∧
    inSpans W (scanIntersections ops (buildEdges ops pts) py) px

/-- The damage state of `t` is the damage state of `s`. -/
def sameDamage (s t : Window) : Prop :=
  t.dirtyRect = s.dirtyRect ∧ t.hasDirty = s.hasDirty ∧ t.isAllDirty = s.isAllDirty

/-- The effect of a draw call other than `writeBackground` on the state: new pixel
contents, and at most one `markDirty` report. -/
def Draws (s t : Window) : Prop :=
  ∃ px, t = { s with pixelBuffer := px } ∨
    ∃ x y w h, t = markDirty { s with pixelBuffer := px } x y w h

/-- The tracked rectangle is a non-empty rectangle inside the buffer. -/
def dirtyRectClamped (s : Window) : Prop :=
  (0 ≤ s.dirtyRect.left ∧ s.dirtyRect.left < s.dirtyRect.right ∧
      s.dirtyRect.right ≤ s.bufferWidth) ∧
    (0 ≤ s.dirtyRect.top ∧ s.dirtyRect.top < s.dirtyRect.bottom ∧
      s.dirtyRect.bottom ≤ s.bufferHeight)

/-- One successful draw call other than `writeBackground`, from state `s` to
state `t`. -/
inductive DrawCall : Window → Window → Prop
  | writePoint {s t : Window} (x y : Int) (c : color) :
      writePoint s x y c = some t → DrawCall s t
  | writeLine {s t : Window} (fuel : Nat) (x1 y1 x2 y2 : Int) (c : color) :
      writeLine fuel s x1 y1 x2 y2 c = some t → DrawCall s t
  | writeSquare {s t : Window} (x y scale : Int) (c : color) :
      writeSquare s x y scale c = some t → DrawCall s t
  | writeRect {s t : Window} (x y w h : Int) (c : color) :
      writeRect s x y w h c = some t → DrawCall s t
  | writePolygon {s t : Window} {F : Type} (ops : FloatOps F) (pts : List POINT) (c : color) :
      writePolygon ops s pts c = some t → DrawCall s t
  | writeCircle {s t : Window} (draw : List Nat → Option (List Nat)) (cx cy radius : Int) :
      writeCircle draw s cx cy radius = some t → DrawCall s t
  | writeEllipse {s t : Window} (fuel : Nat) (cx cy rx ry : Int) (c : color) :
      writeEllipse fuel s cx cy rx ry c = Outcome.done t → DrawCall s t
  | writeChar {s t : Window} (font : List (List Nat)) (x y : Int) (ch : Nat) (c : color) :
      writeChar font s x y ch c = some t → DrawCall s t
  | writeText {s t : Window} (font : List (List Nat)) (x y : Int) (text : List Nat)
      (c : color) : writeText font s x y text c = some t → DrawCall s t
  | writeAlphaBitmap {s t : Window} (src : List Nat) (srcW srcH dstX dstY : Int) (alpha : Nat) :
      writeAlphaBitmap s src srcW srcH dstX dstY alpha = some t → DrawCall s t

/-- The states reachable on a buffer of fixed dimensions `W x H` from the initial
state (tracking disabled, nothing dirty) by draw calls, `markDirty` reports,
`setMarkDirty` toggles and `present` calls. -/
inductive Reachable (W H : Int) : Window → Prop
  | init (px : List Nat) (bitmap : Bool) :
      Reachable W H ⟨px, W, H, bitmap, ⟨0, 0, 0, 0⟩, false, false, false⟩
  | setMarkDirty {s : Window} (set : Bool) : Reachable W H s → Reachable W H (setMarkDirty s set)
  | markDirty {s : Window} (x y w h : Int) :
      Reachable W H s → Reachable W H (markDirty s x y w h)
  | present {s : Window} : Reachable W H s → Reachable W H (present s).1
  | writeBackground {s t : Window} (c : color) :
      Reachable W H s → writeBackground s c = some t → Reachable W H t
  | draw {s t : Window} : Reachable W H s → DrawCall s t → Reachable W H t

/-- The glyph table has the shape of `font8x8_basic[128][8]`. -/
def fontOk (font : List (List Nat)) : Prop :=
  font.length = 128 ∧ ∀ g ∈ font, g.length = 8

/-- The pixel `(px, py)` is `(x + col, y + row)` for a set bit `col` of row byte
`row` of glyph `ch`, with `0 <= row, col < 8`. -/
def glyphCovers (font : List (List Nat)) (ch : Nat) (x y px py : Int) : Prop :=
  (0 ≤ px - x ∧ px - x < 8) ∧ (0 ≤ py - y ∧ py - y < 8) ∧
    ∃ bits, glyphRow font ch (py - y).toNat = some bits ∧ bits.testBit (px - x).toNat = true

/-- The pixels the code fills for `triangle`: on each row `0 <= py < 10` the
inclusive span from `py / 2` to `10 - (py + 1) / 2`. -/
def triangleSpan (px py : Int) : Prop :=
  (0 ≤ py ∧ py < 10) ∧ py / 2 ≤ px ∧ px ≤ 10 - (py + 1) / 2

instance (px py : Int) : Decidable (triangleSpan px py) := by
  unfold triangleSpan
  infer_instance

/-- The number of pixels of `triangleSpan` in the columns `0..10` of the rows
`0..9`. -/
def triangleSpanCount : Nat :=
  ((List.range 10).map fun py =>
    ((List.range 11).filter fun px => decide (triangleSpan px py)).length).sum

/-- The loop of `writePolygon` that computes `minX`, the least `x` of the vertices. -/
def vertexMinX (pts : List POINT) : Int :=
  (pts.drop 1).foldl (fun a p => fastMin a p.x) (pts.getD 0 ⟨0, 0⟩).x

/-- The loop of `writePolygon` that computes `maxX`, the greatest `x` of the
vertices. -/
def vertexMaxX (pts : List POINT) : Int :=
  (pts.drop 1).foldl (fun a p => fastMax a p.x) (pts.getD 0 ⟨0, 0⟩).x

/-- The loop of `writePolygon` that computes `minY`, the least `y` of the vertices. -/
def vertexMinY (pts : List POINT) : Int :=
  (pts.drop 1).foldl (fun a p => fastMin a p.y) (pts.getD 0 ⟨0, 0⟩).y

/-- The loop of `writePolygon` that computes `maxY`, the greatest `y` of the
vertices. -/
def vertexMaxY (pts : List POINT) : Int :=
  (pts.drop 1).foldl (fun a p => fastMax a p.y) (pts.getD 0 ⟨0, 0⟩).y

/-- The positions `(x1, y1)` at the top of each round of the `while (true)` loop of
`Window::writeLine`, in order: the control flow of `lineLoop` without the pixel
writes; `none` when the fuel runs out before the `break`. -/
def linePositions (x2 y2 dx dy sx sy : Int) :
    Nat → Int → Int → Int → Option (List (Int × Int))
  | 0, _, _, _ => none
  | fuel + 1, x1, y1, err =>
    if x1 = x2 ∧ y1 = y2 then some [(x1, y1)]
    else
      let e2 := 2 * err
      let a : Int × Int := if e2 ≥ dy then (err + dy, x1 + sx) else (err, x1)
      let b : Int × Int := if e2 ≤ dx then (a.1 + dx, y1 + sy) else (a.1, y1)
      (linePositions x2 y2 dx dy sx sy fuel a.2 b.2 b.1).map fun rest => (x1, y1) :: rest

/-- The positions stepped by `writeLine(x1, y1, x2, y2, c)`, with the initial values
of `dx`, `sx`, `dy`, `sy` and `err` that `writeLine` computes. -/
def linePath (fuel : Nat) (x1 y1 x2 y2 : Int) : Option (List (Int × Int)) :=
  linePositions x2 y2 |x2 - x1| (-|y2 - y1|) (if x1 < x2 then 1 else -1)
    (if y1 < y2 then 1 else -1) fuel x1 y1 (|x2 - x1| + -|y2 - y1|)

/-- A step from `p` to `q` moves by at most one pixel in each axis. -/
def unitStep (p q : Int × Int) : Prop := |q.1 - p.1| ≤ 1 ∧ |q.2 - p.2| ≤ 1

/-- The list `path` is a stepped path of `n` steps from `(x, y)` to `(x2, y2)` inside
the bounding box of `(x1, y1)` and `(x2, y2)`: it has `n + 1` positions, starts at
`(x, y)`, ends at `(x2, y2)`, each step is a `unitStep`, and every position lies in
the box. -/
def SteppedPath (x1 y1 x2 y2 : Int) (n : Nat) (x y : Int) (path : List (Int × Int)) : Prop :=
  path.length = n + 1 ∧ path.head? = some (x, y) ∧ path.getLast? = some (x2, y2) ∧
    List.Chain' unitStep path ∧
    ∀ p ∈ path, (min x1 x2 ≤ p.1 ∧ p.1 ≤ max x1 x2) ∧ (min y1 y2 ≤ p.2 ∧ p.2 ≤ max y1 y2)

/-- Each of the red, green and blue channels of `lane` is equal to or one less than
the corresponding channel of `scalar`. -/
def agreeUpToOne (lane scalar : Nat) : Prop :=
  (chanR lane ≤ chanR scalar ∧ chanR scalar ≤ chanR lane + 1) ∧
  (chanG lane ≤ chanG scalar ∧ chanG scalar ≤ chanG lane + 1) ∧
  (chanB lane ≤ chanB scalar ∧ chanB scalar ≤ chanB lane + 1)

/-- The value of a 32-bit `int` computation whose exact result is `x`: the
two's-complement value congruent to `x` modulo `2^32`. -/
def wrapInt (x : Int) : Int := (x + 2 ^ 31) % 2 ^ 32 - 2 ^ 31

/-- The `while (true)` loop of `Window::writeLine` with the 32-bit `int` arithmetic
of its variables `err`, `e2`, `x1`, `y1`: every product and sum is reduced to the
two's-complement range; `none` when the fuel runs out before the `break`. -/
def lineLoop32 (bufferWidth bufferHeight x2 y2 dx dy sx sy : Int) (packed : Nat) :
    Nat → LineState → Option LineState
  | 0, _ => none
  | fuel + 1, st =>
    (if toUnsigned st.x1 < toUnsigned bufferWidth ∧ toUnsigned st.y1 < toUnsigned bufferHeight
      then store st.pixels (st.y1 * bufferWidth + st.x1) packed
      else some st.pixels).bind fun px =>
    if st.x1 = x2 ∧ st.y1 = y2 then some { st with pixels := px }
    else
      let e2 := wrapInt (2 * st.err)
      let a : Int × Int :=
        if e2 ≥ dy then (wrapInt (st.err + dy), wrapInt (st.x1 + sx)) else (st.err, st.x1)
      let b : Int × Int :=
        if e2 ≤ dx then (wrapInt (a.1 + dx), wrapInt (st.y1 + sy)) else (a.1, st.y1)
      lineLoop32 bufferWidth bufferHeight x2 y2 dx dy sx sy packed fuel ⟨a.2, b.2, b.1, px⟩

/-- The method `Window::writeLine` with 32-bit `int` arithmetic throughout, and the
fuel of its `while (true)` loop. -/
def writeLine32 (fuel : Nat) (s : Window) (x1 y1 x2 y2 : Int) (c : color) : Option Window :=
  let packed := packColor c
  let dx := wrapInt |wrapInt (x2 - x1)|
  let sx : Int := if x1 < x2 then 1 else -1
  let dy := wrapInt (-wrapInt |wrapInt (y2 - y1)|)
  let sy : Int := if y1 < y2 then 1 else -1
  let err := wrapInt (dx + dy)
  (lineLoop32 s.bufferWidth s.bufferHeight x2 y2 dx dy sx sy packed fuel
      ⟨x1, y1, err, s.pixelBuffer⟩).map fun st =>
    let s1 := { s with pixelBuffer := st.pixels }
    if s1.useMarkDirty then
      let left := fastMin st.x1 x2
      let top := fastMin st.y1 y2
      let right := fastMax st.x1 x2
      let bottom := fastMax st.y1 y2
      markDirty s1 left top (wrapInt (wrapInt (right - left) + 1))
        (wrapInt (wrapInt (bottom - top) + 1))
    else s1

/-- The positions `(x1, y1)` at the top of each round of the loop of `lineLoop32`, in
order: its control flow without the pixel writes; `none` when the fuel runs out
before the `break`. -/
def linePositions32 (x2 y2 dx dy sx sy : Int) :
    Nat → Int → Int → Int → Option (List (Int × Int))
  | 0, _, _, _ => none
  | fuel + 1, x1, y1, err =>
    if x1 = x2 ∧ y1 = y2 then some [(x1, y1)]
    else
      let e2 := wrapInt (2 * err)
      let a : Int × Int := if e2 ≥ dy then (wrapInt (err + dy), wrapInt (x1 + sx)) else (err, x1)
      let b : Int × Int := if e2 ≤ dx then (wrapInt (a.1 + dx), wrapInt (y1 + sy)) else (a.1, y1)
      (linePositions32 x2 y2 dx dy sx sy fuel a.2 b.2 b.1).map fun rest => (x1, y1) :: rest

/-- The positions stepped by `writeLine32(x1, y1, x2, y2, c)`, with the initial values
of `dx`, `sx`, `dy`, `sy` and `err` that it computes. -/
def linePath32 (fuel : Nat) (x1 y1 x2 y2 : Int) : Option (List (Int × Int)) :=
  linePositions32 x2 y2 (wrapInt |wrapInt (x2 - x1)|) (wrapInt (-wrapInt |wrapInt (y2 - y1)|))
    (if x1 < x2 then 1 else -1) (if y1 < y2 then 1 else -1) fuel x1 y1
    (wrapInt (wrapInt |wrapInt (x2 - x1)| + wrapInt (-wrapInt |wrapInt (y2 - y1)|)))

/-- The invariant of the loop of `writeLine` at the top of a round, in terms of the
numbers `a`, `b` of steps taken so far in `x` and in `y`, with `dx = |x2-x1|` and
`DY = |y2-y1|`: the position and the error term are determined by `a` and `b`, and
`2*err` lies in `[-DY, 3*dx - 2*DY]` when `DY <= dx` and in `[2*dx - 3*DY, dx]`
otherwise. -/
def LineInv (x1 y1 dx DY sx sy x y err : Int) : Prop :=
  ∃ a b : Int, (0 ≤ a ∧ a ≤ dx) ∧ (0 ≤ b ∧ b ≤ DY) ∧
    x = x1 + sx * a ∧ y = y1 + sy * b ∧ err = dx * (b + 1) - DY * (a + 1) ∧
    ((DY ≤ dx ∧ -DY ≤ 2 * err ∧ 2 * err ≤ 3 * dx - 2 * DY) ∨
      (dx < DY ∧ 2 * err ≤ dx ∧ 2 * dx - 3 * DY ≤ 2 * err))

/-- The quotient `x / y` rounded to the nearest integer, ties to the even one. -/
def rne (x y : Nat) : Nat :=
  let fl := x / y
  let r := x % y
  if 2 * r < y then fl else if y < 2 * r then fl + 1 else if fl % 2 = 0 then fl else fl + 1

/-- The binary logarithm of `n` rounded down, by halving at most `fuel` times. -/
def log2Fuel : Nat → Nat → Nat
  | 0, _ => 0
  | fuel + 1, n => if 2 ≤ n then log2Fuel fuel (n / 2) + 1 else 0

/-- The binary logarithm of `n` rounded down (0 for `n = 0`). -/
def ilog2 (n : Nat) : Nat := log2Fuel n n

/-- The positive fraction `a / d` rounded to the nearest value with a 24-bit
significand, ties to even, as numerator and denominator: with
`2^e <= a/d < 2^(e+1)` the result is the multiple of `2^(e-23)` nearest to `a/d`. -/
def roundMag (a d : Nat) : Nat × Nat :=
  if d ≤ a then
    let e := ilog2 (a / d)
    if e ≤ 23 then (rne (a * 2 ^ (23 - e)) d, 2 ^ (23 - e))
    else (rne a (d * 2 ^ (e - 23)) * 2 ^ (e - 23), 1)
  else
    let p := ilog2 ((d - 1) / a) + 1
    (rne (a * 2 ^ (23 + p)) d, 2 ^ (23 + p))

/-- The fraction `q` rounded to the nearest value with a 24-bit significand, ties to
even: the rounding of IEEE 754 binary32 (`float`) on the values whose result is zero
or a normal number; the exponent is not bounded.  A fraction with `den = 0` (a
division by zero) gives 0. -/
def round32 (q : Frac) : Frac :=
  let a := q.num.natAbs
  let d := q.den.natAbs
  if a = 0 ∨ d = 0 then ⟨0, 1⟩
  else
    let sgn : Int := if decide (q.num < 0) = decide (q.den < 0) then 1 else -1
    ⟨sgn * ((roundMag a d).1 : Int), ((roundMag a d).2 : Int)⟩

/-- The `float` arithmetic of `writePolygon` as IEEE 754 binary32 with
round-to-nearest-even: the conversion from `int`, the division, the multiplication
and the addition are each rounded on their own with `round32`, and `int(..)`
truncates toward zero.  The values that `writePolygon` computes are quotients,
products and sums of `int` values, zero or of magnitude between `2^-55` and `2^65`,
so none of them overflows or is subnormal. -/
def binary32Ops : FloatOps Frac where
  ofInt n := round32 (Frac.ofInt n)
  div a b := round32 (Frac.div a b)
  mul a b := round32 (Frac.mul a b)
  add a b := round32 (Frac.add a b)
  toInt := Frac.toInt

theorem load_of_lt (m : List Nat) (j : Int) (h0 : 0 ≤ j) (h1 : j < m.length) :
    ∃ v, load m j = some v := by
  have h : j.toNat < m.length := by omega
  exact ⟨m[j.toNat], by simp [load, h0, List.getElem?_eq_getElem h]⟩

theorem load_eq_none (m : List Nat) (j : Int) (h : j < 0 ∨ (m.length : Int) ≤ j) :
    load m j = none := by
  unfold load
  split
  · have : m.length ≤ j.toNat := by omega
    exact List.getElem?_eq_none this
  · rfl

theorem store_spec (m : List Nat) (idx : Int) (v : Nat) (h0 : 0 ≤ idx) (h1 : idx < m.length) :
    ∃ t, store m idx v = some t ∧ t.length = m.length ∧
      ∀ j, load t j = if j = idx then some v else load m j := by
  refine ⟨m.set idx.toNat v, by simp [store, h0, h1], by simp, ?_⟩
  intro j
  unfold load
  by_cases hj : 0 ≤ j
  · simp only [hj, if_true]
    rw [List.getElem?_set]
    have hlt : idx.toNat < m.length := by omega
    by_cases e : j = idx
    · subst e; simp [hlt]
    · have : idx.toNat ≠ j.toNat := by omega
      simp [this, e]
  · have : j ≠ idx := by omega
    simp [hj, this]

theorem forLoop_inv {σ : Type} (body : Int → σ → Option σ) (hi : Int) (Inv : Int → σ → Prop)
    (hstep : ∀ k t, k < hi → Inv k t → ∃ u, body k t = some u ∧ Inv (k + 1) u) :
    ∀ (fuel : Nat) (i : Int) (s : σ), hi - i ≤ fuel → Inv i s →
      ∃ u, forLoop body hi fuel i s = some u ∧ Inv (max i hi) u := by
  intro fuel
  induction fuel with
  | zero =>
    intro i s hf hI
    have h : ¬ i < hi := by omega
    refine ⟨s, by simp [forLoop, h], ?_⟩
    have : max i hi = i := by omega
    rw [this]; exact hI
  | succ n ih =>
    intro i s hf hI
    by_cases h : i < hi
    · obtain ⟨u, hu, hIu⟩ := hstep i s h hI
      obtain ⟨v, hv, hIv⟩ := ih (i + 1) u (by omega) hIu
      refine ⟨v, by simp [forLoop, h, hu, hv], ?_⟩
      have : max i hi = max (i + 1) hi := by omega
      rw [this]; exact hIv
    · refine ⟨s, by simp [forLoop, h], ?_⟩
      have : max i hi = i := by omega
      rw [this]; exact hI

theorem laneLoop_inv {σ : Type} (body : Int → σ → Option σ) (count : Int)
    (Inv : Int → σ → Prop)
    (hstep : ∀ k t, k + 4 ≤ count → Inv k t → ∃ u, body k t = some u ∧ Inv (k + 4) u) :
    ∀ (fuel : Nat) (i : Int) (s : σ), count - i ≤ fuel → Inv i s →
      ∃ k u, laneLoop body count fuel i s = some (k, u) ∧ Inv k u ∧ count < k + 4 := by
  intro fuel
  induction fuel with
  | zero =>
    intro i s hf hI
    have h : ¬ i + 4 ≤ count := by omega
    exact ⟨i, s, by simp [laneLoop, h], hI, by omega⟩
  | succ n ih =>
    intro i s hf hI
    by_cases h : i + 4 ≤ count
    · obtain ⟨u, hu, hIu⟩ := hstep i s h hI
      obtain ⟨k, v, hv, hIv, hk⟩ := ih (i + 4) u (by omega) hIu
      exact ⟨k, v, by simp [laneLoop, h, hu, hv], hIv, hk⟩
    · exact ⟨i, s, by simp [laneLoop, h], hI, by omega⟩

/-- A lane loop followed by its remainder loop establishes `Inv (max 0 count)` when
the lane body advances the invariant by four and the scalar body by one.  The lane
body only runs at multiples of four, the scalar body only from `4 * (count / 4)`
on. -/
theorem lanesThenScalar_inv {σ : Type} (lane scalar : Int → σ → Option σ) (count : Int)
    (Inv : Int → σ → Prop) (s : σ) (h0 : Inv 0 s)
    (hlane : ∀ k t, 0 ≤ k → k % 4 = 0 → k + 4 ≤ count → Inv k t →
      ∃ u, lane k t = some u ∧ Inv (k + 4) u)
    (hscalar : ∀ k t, 0 ≤ k → 4 * (count / 4) ≤ k → k < count → Inv k t →
      ∃ u, scalar k t = some u ∧ Inv (k + 1) u) :
    ∃ u, lanesThenScalar lane scalar count s = some u ∧ Inv (max 0 count) u := by
  obtain ⟨k, t, hk, ⟨hk0, hk4, hkc, hIk⟩, hex⟩ :=
    laneLoop_inv lane count (fun k t => 0 ≤ k ∧ k % 4 = 0 ∧ k ≤ max 0 count ∧ Inv k t)
      (fun k t hkc ⟨hk0, hk4, _, hI⟩ => by
        obtain ⟨u, hu, hIu⟩ := hlane k t hk0 hk4 hkc hI
        exact ⟨u, hu, by omega, by omega, by omega, hIu⟩)
      count.toNat 0 s (by omega) ⟨le_refl 0, by omega, by omega, h0⟩
  obtain ⟨u, hu, hku, _, hIu⟩ :=
    forLoop_inv scalar count (fun k t => 0 ≤ k ∧ 4 * (count / 4) ≤ k ∧ Inv k t)
      (fun k t hkc ⟨hk0, hk4, hI⟩ => by
        obtain ⟨u, hu, hIu⟩ := hscalar k t hk0 hk4 hkc hI
        exact ⟨u, hu, by omega, by omega, hIu⟩)
      (count - k).toNat k t (by omega) ⟨hk0, by omega, hIk⟩
  refine ⟨u, by simp [lanesThenScalar, hk, hu], ?_⟩
  have : max k count = max 0 count := by omega
  rw [← this]; exact hIu

theorem storeu_spec (m : List Nat) (idx : Int) (v : List Nat) (h0 : 0 ≤ idx)
    (h1 : idx + 4 ≤ m.length) :
    ∃ t, _mm_storeu_si128 m idx v = some t ∧ t.length = m.length ∧
      ∀ j, load t j =
        if idx ≤ j ∧ j < idx + 4 then some (lane32 v (j - idx).toNat) else load m j := by
  obtain ⟨m1, e1, l1, g1⟩ := store_spec m idx (lane32 v 0) h0 (by omega)
  obtain ⟨m2, e2, l2, g2⟩ := store_spec m1 (idx + 1) (lane32 v 1) (by omega) (by omega)
  obtain ⟨m3, e3, l3, g3⟩ := store_spec m2 (idx + 2) (lane32 v 2) (by omega) (by omega)
  obtain ⟨m4, e4, l4, g4⟩ := store_spec m3 (idx + 3) (lane32 v 3) (by omega) (by omega)
  refine ⟨m4, by simp [_mm_storeu_si128, e1, e2, e3, e4], by omega, ?_⟩
  intro j
  rw [g4, g3, g2, g1]
  by_cases c3 : j = idx + 3
  · subst c3; simp
  by_cases c2 : j = idx + 2
  · subst c2; simp
  by_cases c1 : j = idx + 1
  · subst c1; simp
  by_cases c0 : j = idx
  · subst c0; simp
  have : ¬ (idx ≤ j ∧ j < idx + 4) := by omega
  simp [c0, c1, c2, c3, this]

theorem lane32_set1 (p k : Nat) (hp : p < 2 ^ 32) (hk : k < 4) :
    lane32 (_mm_set1_epi32 p) k = p := by
  have h : k = 0 ∨ k = 1 ∨ k = 2 ∨ k = 3 := by omega
  rcases h with h | h | h | h <;> subst h <;>
    simp [lane32, _mm_set1_epi32, bytesOf] <;> omega

theorem packColor_lt (c : color) : packColor c < 2 ^ 32 :=
  Nat.mod_lt _ (by norm_num)

theorem fillRow_spec (m : List Nat) (base len : Int) (packed : Nat) (hp : packed < 2 ^ 32)
    (h0 : 0 ≤ base) (h1 : base + len ≤ m.length) :
    ∃ t, fillRow base len packed m = some t ∧ FilledRange m t base (base + len) packed := by
  obtain ⟨t, ht, hl, hI⟩ :=
    lanesThenScalar_inv
      (fun i m => _mm_storeu_si128 m (base + i) (_mm_set1_epi32 packed))
      (fun i m => store m (base + i) packed) len
      (fun k t => FilledRange m t base (base + k) packed) m
      ⟨rfl, fun j => by
        have : ¬ (base ≤ j ∧ j < base + 0) := by omega
        rw [if_neg this]⟩
      (fun k t hk0 _ hk ⟨hl, hI⟩ => by
        obtain ⟨u, hu, hul, hg⟩ :=
          storeu_spec t (base + k) (_mm_set1_epi32 packed) (by omega) (by omega)
        refine ⟨u, hu, by omega, fun j => ?_⟩
        rw [hg, hI]
        by_cases c : base + k ≤ j ∧ j < base + k + 4
        · have c2 : base ≤ j ∧ j < base + (k + 4) := by omega
          rw [if_pos c, if_pos c2, lane32_set1 _ _ hp (by omega)]
        · rw [if_neg c]
          by_cases c1 : base ≤ j ∧ j < base + k
          · have c2 : base ≤ j ∧ j < base + (k + 4) := by omega
            rw [if_pos c1, if_pos c2]
          · have c2 : ¬ (base ≤ j ∧ j < base + (k + 4)) := by omega
            rw [if_neg c1, if_neg c2])
      (fun k t hk0 _ hk ⟨hl, hI⟩ => by
        obtain ⟨u, hu, hul, hg⟩ := store_spec t (base + k) packed (by omega) (by omega)
        refine ⟨u, hu, by omega, fun j => ?_⟩
        rw [hg, hI]
        by_cases c : j = base + k
        · have c2 : base ≤ j ∧ j < base + (k + 1) := by omega
          rw [if_pos c, if_pos c2]
        · rw [if_neg c]
          by_cases c1 : base ≤ j ∧ j < base + k
          · have c2 : base ≤ j ∧ j < base + (k + 1) := by omega
            rw [if_pos c1, if_pos c2]
          · have c2 : ¬ (base ≤ j ∧ j < base + (k + 1)) := by omega
            rw [if_neg c1, if_neg c2])
  refine ⟨t, ht, hl, fun j => ?_⟩
  rw [hI]
  by_cases c : base ≤ j ∧ j < base + len
  · have c2 : base ≤ j ∧ j < base + max 0 len := by omega
    rw [if_pos c, if_pos c2]
  · have c2 : ¬ (base ≤ j ∧ j < base + max 0 len) := by omega
    rw [if_neg c, if_neg c2]

/-! ## Frame lemmas for `markDirty` -/

theorem markDirty_frame (s : Window) (x y w h : Int) :
    (markDirty s x y w h).pixelBuffer = s.pixelBuffer ∧
    (markDirty s x y w h).bufferWidth = s.bufferWidth ∧
    (markDirty s x y w h).bufferHeight = s.bufferHeight ∧
    (markDirty s x y w h).backBitmap = s.backBitmap ∧
    (markDirty s x y w h).isAllDirty = s.isAllDirty ∧
    (markDirty s x y w h).useMarkDirty = s.useMarkDirty := by
  unfold markDirty
  by_cases h1 : s.isAllDirty = true
  · simp [h1]
  by_cases h2 : s.useMarkDirty = true
  · by_cases h3 : w ≤ 0 ∨ h ≤ 0
    · simp [h1, h2, h3]
    · by_cases h4 : x + w ≤ 0 ∨ y + h ≤ 0 ∨ x ≥ s.bufferWidth ∨ y ≥ s.bufferHeight
      · simp [h1, h2, h3, h4]
      · by_cases h5 : s.hasDirty = true <;> simp [h1, h2, h3, h4, h5]
  · simp [h1, h2]

theorem freshWindow_wf (w h : Nat) (track : Bool) (hw : w < 2 ^ 31) (hh : h < 2 ^ 31)
    (hwh : w * h < 2 ^ 31) : (freshWindow w h track).wf := by
  have e1 : (freshWindow w h track).bufferWidth = (w : Int) := rfl
  have e2 : (freshWindow w h track).bufferHeight = (h : Int) := rfl
  have e3 : (freshWindow w h track).pixelBuffer.length = w * h := by
    simp [freshWindow]
  have e4 : ((w * h : Nat) : Int) = (w : Int) * (h : Int) := by push_cast; rfl
  unfold Window.wf
  rw [e1, e2, e3]
  omega

/-! ## C1: `writeBackground` -/

theorem toSizeT_of_nonneg (x : Int) (h0 : 0 ≤ x) (h1 : x < 2 ^ 31) : (toSizeT x : Int) = x := by
  unfold toSizeT
  omega

/-- C1. On a buffer satisfying the framebuffer invariant (width, height >= 0,
array of width*height pixels), `writeBackground c` returns, every pixel of the
array then holds the packed value of `c` (the indices written by the 4-pixel
lane loop and those written by the scalar remainder loop alike), the dimensions
are unchanged, and the damage state is full (`isAllDirty` is true). -/
theorem C1_writeBackground_fills_and_marks_full (s : Window) (c : color) (hwf : s.wf) :
    ∃ t, writeBackground s c = some t ∧
      t.pixelBuffer = List.replicate (s.bufferWidth * s.bufferHeight).toNat (packColor c) ∧
      (∀ px py, 0 ≤ px → px < s.bufferWidth → 0 ≤ py → py < s.bufferHeight →
        load t.pixelBuffer (py * s.bufferWidth + px) = some (packColor c)) ∧
      t.bufferWidth = s.bufferWidth ∧ t.bufferHeight = s.bufferHeight ∧
      t.isAllDirty = true := by
  obtain ⟨hw, hh, _, _, hsz, hlen⟩ := hwf
  have hnn : 0 ≤ s.bufferWidth * s.bufferHeight := Int.mul_nonneg hw hh
  have hcount : (toSizeT (s.bufferWidth * s.bufferHeight) : Int) = s.pixelBuffer.length := by
    rw [toSizeT_of_nonneg _ hnn hsz, hlen]
  obtain ⟨m, hm, hl, hI⟩ :=
    fillRow_spec s.pixelBuffer 0 (toSizeT (s.bufferWidth * s.bufferHeight)) (packColor c)
      (packColor_lt c) (le_refl 0) (by omega)
  have hrun : lanesThenScalar (fun i px => _mm_storeu_si128 px i (_mm_set1_epi32 (packColor c)))
      (fun i px => store px i (packColor c))
      (toSizeT (s.bufferWidth * s.bufferHeight)) s.pixelBuffer = some m := by
    simpa [fillRow] using hm
  have hall : ∀ j : Int, 0 ≤ j → j < s.pixelBuffer.length →
      load m j = some (packColor c) := by
    intro j h0 h1
    rw [hI, if_pos (by omega)]
  have hfr := markDirty_frame { s with pixelBuffer := m } 0 0 s.bufferWidth s.bufferHeight
  refine ⟨_, by simp only [writeBackground, hrun, Option.map_some']; rfl, ?_, ?_, ?_, ?_, rfl⟩
  · show (markDirty _ _ _ _ _).pixelBuffer = _
    rw [hfr.1]
    apply List.ext_getElem?
    intro n
    have hn : (s.bufferWidth * s.bufferHeight).toNat = s.pixelBuffer.length := by omega
    rw [hn, List.getElem?_replicate]
    by_cases c1 : n < s.pixelBuffer.length
    · have := hall n (by omega) (by omega)
      simp only [load, Int.toNat_ofNat] at this
      simpa [c1] using this
    · rw [if_neg c1]
      exact List.getElem?_eq_none (by show m.length ≤ n; omega)
  · intro px py hx0 hx1 hy0 hy1
    show load (markDirty _ _ _ _ _).pixelBuffer _ = _
    rw [hfr.1]
    apply hall
    · have := Int.mul_nonneg hy0 hw
      omega
    · have h1 : (py + 1) * s.bufferWidth ≤ s.bufferHeight * s.bufferWidth :=
        Int.mul_le_mul_of_nonneg_right (by omega) hw
      rw [hlen, Int.mul_comm s.bufferWidth s.bufferHeight]
      have : (py + 1) * s.bufferWidth = py * s.bufferWidth + s.bufferWidth := by ring
      omega
  · exact hfr.2.1
  · exact hfr.2.2.1

/-- C1 at a 3x2 tracked buffer: six pixels, four written by the lane loop and two
by the remainder loop. -/
theorem C1_writeBackground_witness :
    ∃ t, writeBackground (freshWindow 3 2 true) Red = some t ∧
      t.pixelBuffer = List.replicate
        ((freshWindow 3 2 true).bufferWidth * (freshWindow 3 2 true).bufferHeight).toNat
        (packColor Red) ∧
      (∀ px py, 0 ≤ px → px < (freshWindow 3 2 true).bufferWidth → 0 ≤ py →
        py < (freshWindow 3 2 true).bufferHeight →
        load t.pixelBuffer (py * (freshWindow 3 2 true).bufferWidth + px)
          = some (packColor Red)) ∧
      t.bufferWidth = (freshWindow 3 2 true).bufferWidth ∧
      t.bufferHeight = (freshWindow 3 2 true).bufferHeight ∧
      t.isAllDirty = true :=
  C1_writeBackground_fills_and_marks_full (freshWindow 3 2 true) Red (by
    unfold Window.wf; decide)

/-! ## C2: `writePoint` -/

theorem unsigned_ge_iff (x n : Int) (hx : isInt x) (h0 : 0 ≤ n) (h1 : n < 2 ^ 31) :
    toUnsigned x ≥ toUnsigned n ↔ ¬ (0 ≤ x ∧ x < n) := by
  unfold isInt at hx
  unfold toUnsigned
  omega

theorem index_bounds (W H px py : Int) (hx0 : 0 ≤ px) (hx1 : px < W) (hy0 : 0 ≤ py)
    (hy1 : py < H) : 0 ≤ py * W + px ∧ py * W + px < W * H := by
  have hW : 0 ≤ W := by omega
  have h0 := Int.mul_nonneg hy0 hW
  have h1 : (py + 1) * W ≤ H * W := Int.mul_le_mul_of_nonneg_right (by omega) hW
  have h2 : (py + 1) * W = py * W + W := by ring
  have h3 : H * W = W * H := Int.mul_comm H W
  omega

/-- C2. On a buffer satisfying the framebuffer invariant and for `int`
coordinates: when `0 <= x < width` and `0 <= y < height`, `writePoint x y c`
returns, the pixel at index `y*width+x` (an index inside the array) holds the
packed value of `c`, and every other index reads as before; when `(x,y)` is
outside, `writePoint` returns the state it was given, so the pixels and the
damage state are unchanged. -/
theorem C2_writePoint_sets_one_pixel_or_nothing (s : Window) (x y : Int) (c : color)
    (hwf : s.wf) (hx : isInt x) (hy : isInt y) :
    ((0 ≤ x ∧ x < s.bufferWidth) ∧ (0 ≤ y ∧ y < s.bufferHeight) →
      ∃ t, writePoint s x y c = some t ∧
        0 ≤ y * s.bufferWidth + x ∧ y * s.bufferWidth + x < s.pixelBuffer.length ∧
        t.pixelBuffer.length = s.pixelBuffer.length ∧
        load t.pixelBuffer (y * s.bufferWidth + x) = some (packColor c) ∧
        ∀ j, j ≠ y * s.bufferWidth + x → load t.pixelBuffer j = load s.pixelBuffer j) ∧
    (¬ ((0 ≤ x ∧ x < s.bufferWidth) ∧ (0 ≤ y ∧ y < s.bufferHeight)) →
      writePoint s x y c = some s) := by
  obtain ⟨hw, hh, hw1, hh1, _, hlen⟩ := hwf
  have ux := unsigned_ge_iff x s.bufferWidth hx hw hw1
  have uy := unsigned_ge_iff y s.bufferHeight hy hh hh1
  constructor
  · rintro ⟨hxb, hyb⟩
    have hb := index_bounds s.bufferWidth s.bufferHeight x y hxb.1 hxb.2 hyb.1 hyb.2
    obtain ⟨m, hm, hl, hg⟩ :=
      store_spec s.pixelBuffer (y * s.bufferWidth + x) (packColor c) hb.1 (by omega)
    have hcond : ¬ (toUnsigned x ≥ toUnsigned s.bufferWidth ∨
        toUnsigned y ≥ toUnsigned s.bufferHeight) := by
      rw [ux, uy]; tauto
    have hfr := markDirty_frame { s with pixelBuffer := m } x y 1 1
    refine ⟨markDirty { s with pixelBuffer := m } x y 1 1,
      by simp only [writePoint, if_neg hcond, hm, Option.map_some'], hb.1, by omega, ?_, ?_, ?_⟩
    · rw [hfr.1]; exact hl
    · rw [hfr.1]; show load m _ = _
      rw [hg, if_pos rfl]
    · intro j hj
      rw [hfr.1]; show load m _ = _
      rw [hg, if_neg hj]
  · intro hout
    have hcond : toUnsigned x ≥ toUnsigned s.bufferWidth ∨
        toUnsigned y ≥ toUnsigned s.bufferHeight := by
      rw [ux, uy]; tauto
    simp only [writePoint, if_pos hcond]

/-- C2 at the point (1,2) of a 4x4 buffer. -/
theorem C2_writePoint_witness :
    ((0 ≤ (1 : Int) ∧ (1 : Int) < (freshWindow 4 4 true).bufferWidth) ∧
        (0 ≤ (2 : Int) ∧ (2 : Int) < (freshWindow 4 4 true).bufferHeight) →
      ∃ t, writePoint (freshWindow 4 4 true) 1 2 Red = some t ∧
        0 ≤ 2 * (freshWindow 4 4 true).bufferWidth + 1 ∧
        2 * (freshWindow 4 4 true).bufferWidth + 1 < (freshWindow 4 4 true).pixelBuffer.length ∧
        t.pixelBuffer.length = (freshWindow 4 4 true).pixelBuffer.length ∧
        load t.pixelBuffer (2 * (freshWindow 4 4 true).bufferWidth + 1) = some (packColor Red) ∧
        ∀ j, j ≠ 2 * (freshWindow 4 4 true).bufferWidth + 1 →
          load t.pixelBuffer j = load (freshWindow 4 4 true).pixelBuffer j) ∧
    (¬ ((0 ≤ (1 : Int) ∧ (1 : Int) < (freshWindow 4 4 true).bufferWidth) ∧
        (0 ≤ (2 : Int) ∧ (2 : Int) < (freshWindow 4 4 true).bufferHeight)) →
      writePoint (freshWindow 4 4 true) 1 2 Red = some (freshWindow 4 4 true)) :=
  C2_writePoint_sets_one_pixel_or_nothing (freshWindow 4 4 true) 1 2 Red
    (by unfold Window.wf; decide) (by unfold isInt; decide) (by unfold isInt; decide)

/-! ## Row-by-row updates of a clipped rectangle -/

theorem row_index_iff (W r py px a b : Int) (hx0 : 0 ≤ px) (hx1 : px < W) (ha : 0 ≤ a)
    (hb : b ≤ W) :
    (r * W + a ≤ py * W + px ∧ py * W + px < r * W + b) ↔ (py = r ∧ a ≤ px ∧ px < b) := by
  have hW : 0 ≤ W := by omega
  constructor
  · rintro ⟨h1, h2⟩
    rcases lt_trichotomy py r with hlt | heq | hgt
    · have h3 : (py + 1) * W ≤ r * W := Int.mul_le_mul_of_nonneg_right (by omega) hW
      have h4 : (py + 1) * W = py * W + W := by ring
      omega
    · subst heq; omega
    · have h3 : (r + 1) * W ≤ py * W := Int.mul_le_mul_of_nonneg_right (by omega) hW
      have h4 : (r + 1) * W = r * W + W := by ring
      omega
  · rintro ⟨rfl, h1, h2⟩
    omega

/-- The row loop of the clipped primitives: if the operation on row `r` updates
exactly the indices `[r*W+startX, r*W+endX)` by `F`, the loop over the rows
`[startY, endY)` updates exactly the pixels of the clipped rectangle by `F`. -/
theorem rows_inv (W H : Int) (m : List Nat) (hlen : (m.length : Int) = W * H)
    (startX endX startY endY : Int) (hsx : 0 ≤ startX) (hex : endX ≤ W) (hsy : 0 ≤ startY)
    (hey : endY ≤ H) (rowOp : Int → List Nat → Option (List Nat)) (F : Int → Int → Nat → Nat)
    (hrow : ∀ r u, startY ≤ r → r < endY → u.length = m.length →
      0 ≤ r * W + startX → r * W + endX ≤ u.length →
      ∃ t, rowOp r u = some t ∧
        RowUpdate u t (r * W + startX) (r * W + endX) (fun j old => F (j - r * W) r old)) :
    ∃ t, forLoop rowOp endY (endY - startY).toNat startY m = some t ∧
      t.length = m.length ∧
      ∀ px py, 0 ≤ px → px < W → 0 ≤ py → py < H →
        load t (py * W + px) =
          if (startX ≤ px ∧ px < endX) ∧ (startY ≤ py ∧ py < endY)
          then (load m (py * W + px)).map (F px py) else load m (py * W + px) := by
  obtain ⟨t, ht, _, hl, hI⟩ :=
    forLoop_inv rowOp endY
      (fun row u => startY ≤ row ∧ u.length = m.length ∧
        ∀ px py, 0 ≤ px → px < W → 0 ≤ py → py < H →
          load u (py * W + px) =
            if (startX ≤ px ∧ px < endX) ∧ (startY ≤ py ∧ py < row)
            then (load m (py * W + px)).map (F px py) else load m (py * W + px))
      (fun r u hr ⟨hr0, hul, hI⟩ => by
        have hW : 0 ≤ W := by
          by_contra hneg
          have h0 : 0 < H := by omega
          have : W * H < 0 := Int.mul_neg_of_neg_of_pos (by omega) h0
          omega
        have h1 : (r + 1) * W ≤ H * W := Int.mul_le_mul_of_nonneg_right (by omega) hW
        have h2 : (r + 1) * W = r * W + W := by ring
        have h3 : H * W = W * H := Int.mul_comm H W
        have h4 : 0 ≤ r * W := Int.mul_nonneg (by omega) hW
        obtain ⟨t, ht, htl, hg⟩ := hrow r u hr0 hr hul (by omega) (by omega)
        refine ⟨t, ht, by omega, by omega, ?_⟩
        intro px py hx0 hx1 hy0 hy1
        rw [hg, hI px py hx0 hx1 hy0 hy1]
        have key := row_index_iff W r py px startX endX hx0 hx1 hsx hex
        by_cases c : r * W + startX ≤ py * W + px ∧ py * W + px < r * W + endX
        · obtain ⟨e, ha, hb⟩ := key.1 c
          subst e
          have c1 : ¬ ((startX ≤ px ∧ px < endX) ∧ (startY ≤ py ∧ py < py)) := by omega
          have c2 : (startX ≤ px ∧ px < endX) ∧ (startY ≤ py ∧ py < py + 1) := by omega
          rw [if_pos c, if_neg c1, if_pos c2]
          simp
        · rw [if_neg c]
          have hne : ¬ (py = r ∧ startX ≤ px ∧ px < endX) := fun h => c (key.2 h)
          by_cases c1 : (startX ≤ px ∧ px < endX) ∧ (startY ≤ py ∧ py < r)
          · have c2 : (startX ≤ px ∧ px < endX) ∧ (startY ≤ py ∧ py < r + 1) := by omega
            rw [if_pos c1, if_pos c2]
          · have c2 : ¬ ((startX ≤ px ∧ px < endX) ∧ (startY ≤ py ∧ py < r + 1)) := by omega
            rw [if_neg c1, if_neg c2])
      (endY - startY).toNat startY m (by omega)
      ⟨le_refl _, rfl, fun px py _ _ _ _ => by
        have : ¬ ((startX ≤ px ∧ px < endX) ∧ (startY ≤ py ∧ py < startY)) := by omega
        rw [if_neg this]⟩
  refine ⟨t, ht, hl, ?_⟩
  intro px py hx0 hx1 hy0 hy1
  rw [hI px py hx0 hx1 hy0 hy1]
  by_cases c : (startX ≤ px ∧ px < endX) ∧ (startY ≤ py ∧ py < endY)
  · have c2 : (startX ≤ px ∧ px < endX) ∧ (startY ≤ py ∧ py < max startY endY) := by omega
    rw [if_pos c, if_pos c2]
  · have c2 : ¬ ((startX ≤ px ∧ px < endX) ∧ (startY ≤ py ∧ py < max startY endY)) := by omega
    rw [if_neg c, if_neg c2]

/-! ## C3: `writeRect` -/

theorem fastMax_eq (a b : Int) : fastMax a b = max a b := by
  unfold fastMax
  split <;> omega

theorem fastMin_eq (a b : Int) : fastMin a b = min a b := by
  unfold fastMin
  split <;> omega

theorem FilledRange.toRowUpdate {m t : List Nat} {lo hi : Int} {v : Nat}
    (h : FilledRange m t lo hi v) (h0 : 0 ≤ lo) (h1 : hi ≤ m.length) (F : Int → Nat → Nat)
    (hF : ∀ j old, F j old = v) : RowUpdate m t lo hi F := by
  refine ⟨h.1, fun j => ?_⟩
  rw [h.2]
  by_cases c : lo ≤ j ∧ j < hi
  · obtain ⟨old, ho⟩ := load_of_lt m j (by omega) (by omega)
    rw [if_pos c, if_pos c, ho, Option.map_some', hF]
  · rw [if_neg c, if_neg c]

theorem writeRect_spec (s : Window) (x y w h : Int) (c : color) (hwf : s.wf) :
    ∃ t, writeRect s x y w h c = some t ∧
      t.pixelBuffer.length = s.pixelBuffer.length ∧
      t.bufferWidth = s.bufferWidth ∧ t.bufferHeight = s.bufferHeight ∧
      ∀ px py, 0 ≤ px → px < s.bufferWidth → 0 ≤ py → py < s.bufferHeight →
        load t.pixelBuffer (py * s.bufferWidth + px) =
          if (max 0 x ≤ px ∧ px < min s.bufferWidth (x + w)) ∧
             (max 0 y ≤ py ∧ py < min s.bufferHeight (y + h))
          then some (packColor c) else load s.pixelBuffer (py * s.bufferWidth + px) := by
  obtain ⟨hw, hh, _, _, _, hlen⟩ := hwf
  by_cases g : fastMax 0 x ≥ fastMin s.bufferWidth (x + w) ∨
      fastMax 0 y ≥ fastMin s.bufferHeight (y + h)
  · refine ⟨s, by simp only [writeRect, if_pos g], rfl, rfl, rfl, ?_⟩
    intro px py _ _ _ _
    rw [fastMax_eq, fastMin_eq, fastMax_eq, fastMin_eq] at g
    rw [if_neg (by omega)]
  · obtain ⟨m, hm, hl, hI⟩ :=
      rows_inv s.bufferWidth s.bufferHeight s.pixelBuffer hlen
        (fastMax 0 x) (fastMin s.bufferWidth (x + w)) (fastMax 0 y)
        (fastMin s.bufferHeight (y + h))
        (by rw [fastMax_eq]; omega) (by rw [fastMin_eq]; omega)
        (by rw [fastMax_eq]; omega) (by rw [fastMin_eq]; omega)
        (fun row px => fillRow (row * s.bufferWidth + fastMax 0 x)
          (fastMin s.bufferWidth (x + w) - fastMax 0 x) (packColor c) px)
        (fun _ _ _ => packColor c)
        (fun r u _ _ _ hb0 hb1 => by
          obtain ⟨t, ht, hf⟩ :=
            fillRow_spec u (r * s.bufferWidth + fastMax 0 x)
              (fastMin s.bufferWidth (x + w) - fastMax 0 x) (packColor c) (packColor_lt c)
              hb0 (by omega)
          have e : r * s.bufferWidth + fastMax 0 x +
              (fastMin s.bufferWidth (x + w) - fastMax 0 x) =
              r * s.bufferWidth + fastMin s.bufferWidth (x + w) := by ring
          rw [e] at hf
          exact ⟨t, ht, hf.toRowUpdate hb0 hb1 _ (fun _ _ => rfl)⟩)
    have hfr := markDirty_frame { s with pixelBuffer := m } x y w h
    refine ⟨markDirty { s with pixelBuffer := m } x y w h,
      by simp only [writeRect, if_neg g, hm, Option.map_some'], ?_, hfr.2.1, hfr.2.2.1, ?_⟩
    · rw [hfr.1]; exact hl
    · intro px py hx0 hx1 hy0 hy1
      rw [hfr.1]; show load m _ = _
      rw [hI px py hx0 hx1 hy0 hy1, fastMax_eq, fastMin_eq, fastMax_eq, fastMin_eq]
      have hb := index_bounds s.bufferWidth s.bufferHeight px py hx0 hx1 hy0 hy1
      obtain ⟨old, ho⟩ := load_of_lt s.pixelBuffer (py * s.bufferWidth + px) hb.1 (by omega)
      rw [ho, Option.map_some']

/-- C3. On a buffer satisfying the framebuffer invariant, for all `x, y, w, h`
(exact integer arithmetic, so `x+w` and `y+h` do not overflow) and every color,
`writeRect` returns and a pixel `(px,py)` of the buffer holds the packed color
when `max(0,x) <= px < min(width,x+w)` and `max(0,y) <= py < min(height,y+h)`,
and its previous value otherwise; in particular after `writeRect(0,0,10,10,Red)`
on a 20x20 buffer no pixel outside `[0,10)x[0,10)` has changed. -/
theorem C3_writeRect_fills_exactly_the_clipped_rectangle (s : Window) (x y w h : Int)
    (c : color) (hwf : s.wf) :
    (∃ t, writeRect s x y w h c = some t ∧
      t.pixelBuffer.length = s.pixelBuffer.length ∧
      ∀ px py, 0 ≤ px → px < s.bufferWidth → 0 ≤ py → py < s.bufferHeight →
        load t.pixelBuffer (py * s.bufferWidth + px) =
          if (max 0 x ≤ px ∧ px < min s.bufferWidth (x + w)) ∧
             (max 0 y ≤ py ∧ py < min s.bufferHeight (y + h))
          then some (packColor c) else load s.pixelBuffer (py * s.bufferWidth + px)) ∧
    (s.bufferWidth = 20 → s.bufferHeight = 20 →
      ∃ t, writeRect s 0 0 10 10 Red = some t ∧
        ∀ px py, 0 ≤ px → px < 20 → 0 ≤ py → py < 20 → ¬ (px < 10 ∧ py < 10) →
          load t.pixelBuffer (py * 20 + px) = load s.pixelBuffer (py * 20 + px)) := by
  constructor
  · obtain ⟨t, ht, hl, _, _, hI⟩ := writeRect_spec s x y w h c hwf
    exact ⟨t, ht, hl, hI⟩
  · intro e1 e2
    obtain ⟨t, ht, _, _, _, hI⟩ := writeRect_spec s 0 0 10 10 Red hwf
    refine ⟨t, ht, ?_⟩
    intro px py hx0 hx1 hy0 hy1 hout
    have := hI px py hx0 (by omega) hy0 (by omega)
    rw [e1, e2] at this
    rw [this, if_neg (by omega)]

/-- C3 at `writeRect(0,0,10,10,Red)` on a fresh 20x20 buffer. -/
theorem C3_writeRect_witness :
    (∃ t, writeRect (freshWindow 20 20 true) 0 0 10 10 Red = some t ∧
      t.pixelBuffer.length = (freshWindow 20 20 true).pixelBuffer.length ∧
      ∀ px py, 0 ≤ px → px < (freshWindow 20 20 true).bufferWidth → 0 ≤ py →
        py < (freshWindow 20 20 true).bufferHeight →
        load t.pixelBuffer (py * (freshWindow 20 20 true).bufferWidth + px) =
          if (max 0 0 ≤ px ∧ px < min (freshWindow 20 20 true).bufferWidth (0 + 10)) ∧
             (max 0 0 ≤ py ∧ py < min (freshWindow 20 20 true).bufferHeight (0 + 10))
          then some (packColor Red)
          else load (freshWindow 20 20 true).pixelBuffer
            (py * (freshWindow 20 20 true).bufferWidth + px)) ∧
    ((freshWindow 20 20 true).bufferWidth = 20 → (freshWindow 20 20 true).bufferHeight = 20 →
      ∃ t, writeRect (freshWindow 20 20 true) 0 0 10 10 Red = some t ∧
        ∀ px py, 0 ≤ px → px < 20 → 0 ≤ py → py < 20 → ¬ (px < 10 ∧ py < 10) →
          load t.pixelBuffer (py * 20 + px)
            = load (freshWindow 20 20 true).pixelBuffer (py * 20 + px)) :=
  C3_writeRect_fills_exactly_the_clipped_rectangle (freshWindow 20 20 true) 0 0 10 10 Red
    (freshWindow_wf 20 20 true (by decide) (by decide) (by decide))

/-! ## C4: the damage report of `writeLine` -/

theorem lineLoop_exit (W H x2 y2 dx dy sx sy : Int) (packed : Nat) :
    ∀ (fuel : Nat) (st out : LineState),
      lineLoop W H x2 y2 dx dy sx sy packed fuel st = some out → out.x1 = x2 ∧ out.y1 = y2 := by
  intro fuel
  induction fuel with
  | zero => intro st out h; simp [lineLoop] at h
  | succ n ih =>
    intro st out h
    rw [lineLoop] at h
    obtain ⟨px, _, h2⟩ := Option.bind_eq_some.1 h
    by_cases c : st.x1 = x2 ∧ st.y1 = y2
    · rw [if_pos c] at h2
      cases h2
      exact c
    · rw [if_neg c] at h2
      exact ih _ out h2

/-- Whenever `writeLine` returns with tracking enabled, its damage report is the
one of `markDirty(x2, y2, 1, 1)`: the 1x1 cell of the end point. -/
theorem writeLine_reports_end_point (fuel : Nat) (s t : Window) (x1 y1 x2 y2 : Int) (c : color)
    (hT : s.useMarkDirty = true) (h : writeLine fuel s x1 y1 x2 y2 c = some t) :
    t = markDirty { s with pixelBuffer := t.pixelBuffer } x2 y2 1 1 := by
  obtain ⟨pb, W, H, bb, dr, hd, ad, um⟩ := s
  simp only at hT
  subst hT
  unfold writeLine at h
  obtain ⟨st, hst, e⟩ := Option.map_eq_some'.1 h
  obtain ⟨ex, ey⟩ := lineLoop_exit _ _ _ _ _ _ _ _ _ _ _ _ hst
  simp only [if_true, ex, ey, fastMin_eq, fastMax_eq, min_self, max_self, sub_self,
    zero_add] at e
  have hfr := markDirty_frame ⟨st.pixels, W, H, bb, dr, hd, ad, true⟩ x2 y2 1 1
  rw [← e, hfr.1]

/-- C4 (evaluation of the code). With tracking enabled and the damage state empty,
`writeLine(0,0,5,3,Red)` on a 10x10 buffer returns with the tracked rectangle
`{5,3,6,4}`, the 1x1 cell of the end point, and not the bounding box `{0,0,6,4}`
of the two end points: the loop has stepped `x1, y1` onto `x2, y2` before the
bounding box is taken. -/
theorem C4_writeLine_reports_only_the_end_point :
    (writeLine 6 (freshWindow 10 10 true) 0 0 5 3 Red).map
        (fun t => (t.hasDirty, t.isAllDirty, t.dirtyRect))
      = some (true, false, (⟨5, 3, 6, 4⟩ : RECT)) ∧
    (⟨5, 3, 6, 4⟩ : RECT) ≠ ⟨min 0 5, min 0 3, max 0 5 + 1, max 0 3 + 1⟩ := by
  decide

/-! ## C5: the damage union law -/

theorem markDirty_first (s : Window) (r : Report) (hT : s.useMarkDirty = true)
    (hE : s.hasDirty = false) (hA : s.isAllDirty = false)
    (hr : r.hits s.bufferWidth s.bufferHeight) :
    markDirty s r.x r.y r.w r.h = tracked s r.rect := by
  obtain ⟨⟨h1, h2⟩, ⟨h3, h4⟩, h5, h6⟩ := hr
  have c1 : ¬ (r.w ≤ 0 ∨ r.h ≤ 0) := by omega
  have c2 : ¬ (r.x + r.w ≤ 0 ∨ r.y + r.h ≤ 0 ∨ r.x ≥ s.bufferWidth ∨ r.y ≥ s.bufferHeight) := by
    omega
  simp only [markDirty, hA, hT, hE, c1, c2, tracked, clampToBuffer, Report.rect]
  simp only [Bool.false_eq_true, if_false, Bool.not_true, Bool.not_false, if_true]
  congr 2 <;> split <;> omega

theorem markDirty_tracked (s : Window) (b : RECT) (r : Report) (hT : s.useMarkDirty = true)
    (hA : s.isAllDirty = false) (hr : r.hits s.bufferWidth s.bufferHeight) :
    markDirty (tracked s b) r.x r.y r.w r.h = tracked s (rectUnion b r) := by
  obtain ⟨⟨h1, h2⟩, ⟨h3, h4⟩, h5, h6⟩ := hr
  have c1 : ¬ (r.w ≤ 0 ∨ r.h ≤ 0) := by omega
  have c2 : ¬ (r.x + r.w ≤ 0 ∨ r.y + r.h ≤ 0 ∨ r.x ≥ s.bufferWidth ∨ r.y ≥ s.bufferHeight) := by
    omega
  simp only [markDirty, hA, hT, c1, c2, tracked, clampToBuffer, rectUnion]
  simp only [Bool.false_eq_true, if_false, Bool.not_true, Bool.not_false, if_true]
  congr 2 <;> split_ifs <;> omega

theorem reportAll_tracked (s : Window) (hT : s.useMarkDirty = true) (hA : s.isAllDirty = false)
    (rs : List Report) : ∀ b : RECT, (∀ r ∈ rs, r.hits s.bufferWidth s.bufferHeight) →
      reportAll (tracked s b) rs = tracked s (rs.foldl rectUnion b) := by
  induction rs with
  | nil => intro b _; rfl
  | cons r rs ih =>
    intro b h
    have hr := h r (List.mem_cons_self r rs)
    show reportAll (markDirty (tracked s b) r.x r.y r.w r.h) rs = _
    rw [markDirty_tracked s b r hT hA hr]
    exact ih (rectUnion b r) (fun q hq => h q (List.mem_cons_of_mem r hq))

theorem isBoundingBox_single (r : Report) : IsBoundingBox r.rect [r] := by
  refine ⟨fun q hq => ?_, ⟨r, by simp, rfl⟩, ⟨r, by simp, rfl⟩, ⟨r, by simp, rfl⟩,
    ⟨r, by simp, rfl⟩⟩
  rw [List.mem_singleton] at hq
  subst hq
  simp [Report.rect]

theorem isBoundingBox_snoc (b : RECT) (l : List Report) (r : Report) (h : IsBoundingBox b l) :
    IsBoundingBox (rectUnion b r) (l ++ [r]) := by
  obtain ⟨hall, ⟨ql, hql, el⟩, ⟨qt, hqt, et⟩, ⟨qr, hqr, er⟩, ⟨qb, hqb, eb⟩⟩ := h
  have hmem : ∀ q, q ∈ l → q ∈ l ++ [r] := fun q hq => List.mem_append_left _ hq
  have hr : r ∈ l ++ [r] := List.mem_append_right _ (List.mem_singleton_self r)
  refine ⟨fun q hq => ?_, ?_, ?_, ?_, ?_⟩
  · simp only [rectUnion]
    rcases List.mem_append.1 hq with hq | hq
    · have := hall q hq
      omega
    · rw [List.mem_singleton] at hq
      subst hq
      omega
  · by_cases c : b.left ≤ r.x
    · exact ⟨ql, hmem _ hql, by simp only [rectUnion]; omega⟩
    · exact ⟨r, hr, by simp only [rectUnion]; omega⟩
  · by_cases c : b.top ≤ r.y
    · exact ⟨qt, hmem _ hqt, by simp only [rectUnion]; omega⟩
    · exact ⟨r, hr, by simp only [rectUnion]; omega⟩
  · by_cases c : r.x + r.w ≤ b.right
    · exact ⟨qr, hmem _ hqr, by simp only [rectUnion]; omega⟩
    · exact ⟨r, hr, by simp only [rectUnion]; omega⟩
  · by_cases c : r.y + r.h ≤ b.bottom
    · exact ⟨qb, hmem _ hqb, by simp only [rectUnion]; omega⟩
    · exact ⟨r, hr, by simp only [rectUnion]; omega⟩

theorem isBoundingBox_foldl (rs : List Report) :
    ∀ (b : RECT) (l : List Report), IsBoundingBox b l →
      IsBoundingBox (rs.foldl rectUnion b) (l ++ rs) := by
  induction rs with
  | nil => intro b l h; simpa using h
  | cons r rs ih =>
    intro b l h
    have := ih (rectUnion b r) (l ++ [r]) (isBoundingBox_snoc b l r h)
    simpa using this

theorem isBoundingBox_unique (b c : RECT) (rs : List Report) (hb : IsBoundingBox b rs)
    (hc : IsBoundingBox c rs) : b = c := by
  obtain ⟨hall, ⟨ql, hql, el⟩, ⟨qt, hqt, et⟩, ⟨qr, hqr, er⟩, ⟨qb, hqb, eb⟩⟩ := hb
  obtain ⟨hall2, ⟨pl, hpl, fl⟩, ⟨pt, hpt, ft⟩, ⟨pr, hpr, fr⟩, ⟨pb, hpb, fb⟩⟩ := hc
  have a1 := hall pl hpl
  have a2 := hall pt hpt
  have a3 := hall pr hpr
  have a4 := hall pb hpb
  have b1 := hall2 ql hql
  have b2 := hall2 qt hqt
  have b3 := hall2 qr hqr
  have b4 := hall2 qb hqb
  cases b
  cases c
  simp only [RECT.mk.injEq] at *
  omega

theorem isBoundingBox_perm (b : RECT) (rs rs2 : List Report) (hp : rs2.Perm rs)
    (hb : IsBoundingBox b rs2) : IsBoundingBox b rs := by
  obtain ⟨hall, ⟨ql, hql, el⟩, ⟨qt, hqt, et⟩, ⟨qr, hqr, er⟩, ⟨qb, hqb, eb⟩⟩ := hb
  exact ⟨fun q hq => hall q (hp.mem_iff.2 hq), ⟨ql, hp.mem_iff.1 hql, el⟩,
    ⟨qt, hp.mem_iff.1 hqt, et⟩, ⟨qr, hp.mem_iff.1 hqr, er⟩, ⟨qb, hp.mem_iff.1 hqb, eb⟩⟩

/-- From the empty damage state with tracking enabled, a non-empty sequence of
reports that hit the buffer leaves the state tracking the clamped bounding box. -/
theorem reportAll_from_empty (s : Window) (hT : s.useMarkDirty = true)
    (hE : s.hasDirty = false) (hA : s.isAllDirty = false) (rs : List Report) (hne : rs ≠ [])
    (hr : ∀ r ∈ rs, r.hits s.bufferWidth s.bufferHeight) :
    ∃ b, IsBoundingBox b rs ∧ reportAll s rs = tracked s b := by
  cases rs with
  | nil => exact absurd rfl hne
  | cons r rs =>
    refine ⟨rs.foldl rectUnion r.rect, ?_, ?_⟩
    · simpa using isBoundingBox_foldl rs r.rect [r] (isBoundingBox_single r)
    · show reportAll (markDirty s r.x r.y r.w r.h) rs = _
      rw [markDirty_first s r hT hE hA (hr r (List.mem_cons_self r rs))]
      exact reportAll_tracked s hT hA rs r.rect (fun q hq => hr q (List.mem_cons_of_mem r hq))

/-- C5. Damage union law. With tracking enabled and the damage state empty, any
non-empty sequence of reports `markDirty(x,y,w,h)` that are non-empty and hit the
buffer leaves `hasDirty` true and a tracked rectangle that is exactly the
bounding box of all the reported rectangles clamped to the buffer, and any
reordering of the reports gives the same state; in particular `markDirty(0,0,5,5)`
then `markDirty(10,10,5,5)` on a buffer of at least 15x15 tracks exactly
`{0,0,15,15}`. -/
theorem C5_damage_union_is_clamped_bounding_box (s : Window) (hT : s.useMarkDirty = true)
    (hE : s.hasDirty = false) (hA : s.isAllDirty = false) :
    (∀ rs : List Report, rs ≠ [] → (∀ r ∈ rs, r.hits s.bufferWidth s.bufferHeight) →
      (reportAll s rs).hasDirty = true ∧ (reportAll s rs).isAllDirty = false ∧
      (∃ b, IsBoundingBox b rs ∧
        (reportAll s rs).dirtyRect = clampToBuffer s.bufferWidth s.bufferHeight b) ∧
      ∀ rs2 : List Report, rs2.Perm rs → reportAll s rs2 = reportAll s rs) ∧
    (15 ≤ s.bufferWidth → 15 ≤ s.bufferHeight →
      (markDirty (markDirty s 0 0 5 5) 10 10 5 5).hasDirty = true ∧
      (markDirty (markDirty s 0 0 5 5) 10 10 5 5).dirtyRect = ⟨0, 0, 15, 15⟩) := by
  constructor
  · intro rs hne hr
    obtain ⟨b, hb, e⟩ := reportAll_from_empty s hT hE hA rs hne hr
    refine ⟨by rw [e]; rfl, by rw [e]; exact hA, ⟨b, hb, by rw [e]; rfl⟩, ?_⟩
    intro rs2 hp
    have hne2 : rs2 ≠ [] := by
      intro h0
      subst h0
      exact hne (List.Perm.nil_eq hp).symm
    obtain ⟨c, hc, e2⟩ := reportAll_from_empty s hT hE hA rs2 hne2
      (fun q hq => hr q (hp.mem_iff.1 hq))
    rw [e, e2, isBoundingBox_unique c b rs (isBoundingBox_perm c rs rs2 hp hc) hb]
  · intro hw hh
    have h1 : (⟨0, 0, 5, 5⟩ : Report).hits s.bufferWidth s.bufferHeight := by
      simp only [Report.hits]; omega
    have h2 : (⟨10, 10, 5, 5⟩ : Report).hits s.bufferWidth s.bufferHeight := by
      simp only [Report.hits]; omega
    have e1 := markDirty_first s ⟨0, 0, 5, 5⟩ hT hE hA h1
    have e2 := markDirty_tracked s (⟨0, 0, 5, 5⟩ : Report).rect ⟨10, 10, 5, 5⟩ hT hA h2
    simp only at e1 e2
    rw [e1, e2]
    refine ⟨rfl, ?_⟩
    simp only [tracked, clampToBuffer, rectUnion, Report.rect, RECT.mk.injEq]
    omega

/-- C5 on a fresh tracked 20x20 buffer. -/
theorem C5_damage_union_witness :
    (∀ rs : List Report, rs ≠ [] →
      (∀ r ∈ rs, r.hits (freshWindow 20 20 true).bufferWidth
        (freshWindow 20 20 true).bufferHeight) →
      (reportAll (freshWindow 20 20 true) rs).hasDirty = true ∧
      (reportAll (freshWindow 20 20 true) rs).isAllDirty = false ∧
      (∃ b, IsBoundingBox b rs ∧
        (reportAll (freshWindow 20 20 true) rs).dirtyRect =
          clampToBuffer (freshWindow 20 20 true).bufferWidth
            (freshWindow 20 20 true).bufferHeight b) ∧
      ∀ rs2 : List Report, rs2.Perm rs →
        reportAll (freshWindow 20 20 true) rs2 = reportAll (freshWindow 20 20 true) rs) ∧
    (15 ≤ (freshWindow 20 20 true).bufferWidth → 15 ≤ (freshWindow 20 20 true).bufferHeight →
      (markDirty (markDirty (freshWindow 20 20 true) 0 0 5 5) 10 10 5 5).hasDirty = true ∧
      (markDirty (markDirty (freshWindow 20 20 true) 0 0 5 5) 10 10 5 5).dirtyRect
        = ⟨0, 0, 15, 15⟩) :=
  C5_damage_union_is_clamped_bounding_box (freshWindow 20 20 true) rfl rfl rfl

/-! ## C6: `present` -/

theorem present_without_damage (s : Window) (hT : s.useMarkDirty = true)
    (hE : s.hasDirty = false) : present s = (s, none) := by
  simp [present, hT, hE]

theorem present_resets_tracked_damage (s : Window) (hT : s.useMarkDirty = true)
    (hD : s.hasDirty = true) :
    (present s).1.hasDirty = false ∧ (present s).1.isAllDirty = false := by
  simp [present, hT, hD]

/-- C6 (evaluation of the code). From the initial state (tracking disabled) a
`writeBackground` followed by `setMarkDirty(true)` gives a state with tracking
enabled in which `present` returns early: nothing is copied and `isAllDirty` is
still true afterwards, so the tracker is not back to empty. -/
theorem C6_present_keeps_full_flag_when_nothing_tracked :
    ∃ s1, writeBackground (freshWindow 4 4 false) Red = some s1 ∧
      (setMarkDirty s1 true).useMarkDirty = true ∧
      (setMarkDirty s1 true).hasDirty = false ∧
      (present (setMarkDirty s1 true)).1.isAllDirty = true ∧
      (present (setMarkDirty s1 true)).2 = none ∧
      markDirty (present (setMarkDirty s1 true)).1 0 0 2 2 = (present (setMarkDirty s1 true)).1 :=
  ⟨{ freshWindow 4 4 false with
      pixelBuffer := List.replicate 16 (packColor Red), isAllDirty := true },
    by decide, by decide, by decide, by decide, by decide, by decide⟩

/-! ## C7: the `alpha == 255` copy path -/

theorem memcpy_spec (dst src : List Nat) (d sI : Int) (n : Nat) (hd0 : 0 ≤ d)
    (hd1 : d + n ≤ dst.length) (hs0 : 0 ≤ sI) (hs1 : sI + n ≤ src.length) :
    ∃ t, memcpy dst d src sI (4 * n) = some t ∧ t.length = dst.length ∧
      ∀ j, load t j = if d ≤ j ∧ j < d + n then load src (sI + (j - d)) else load dst j := by
  have hn : 4 * n / 4 = n := by omega
  have hlen1 : (dst.take d.toNat).length = d.toNat := by
    rw [List.length_take]; omega
  have hlen2 : ((src.drop sI.toNat).take n).length = n := by
    rw [List.length_take, List.length_drop]; omega
  refine ⟨dst.take d.toNat ++ ((src.drop sI.toNat).take n ++ dst.drop (d.toNat + n)), ?_, ?_, ?_⟩
  · simp only [memcpy, hn, List.append_assoc]
    rw [if_pos ⟨hd0, hd1, hs0, hs1⟩]
  · rw [List.length_append, List.length_append, hlen1, hlen2, List.length_drop]
    omega
  · intro j
    unfold load
    by_cases hj : 0 ≤ j
    · simp only [if_pos hj]
      by_cases c1 : j < d
      · have c : ¬ (d ≤ j ∧ j < d + n) := by omega
        have h1 : j.toNat < (dst.take d.toNat).length := by rw [hlen1]; omega
        rw [if_neg c, List.getElem?_append_left h1]
        exact List.getElem?_take_of_lt (show j.toNat < d.toNat by omega)
      · have h1 : (dst.take d.toNat).length ≤ j.toNat := by rw [hlen1]; omega
        rw [List.getElem?_append_right h1, hlen1]
        by_cases c2 : j < d + n
        · have c : d ≤ j ∧ j < d + n := by omega
          have h2 : j.toNat - d.toNat < ((src.drop sI.toNat).take n).length := by
            rw [hlen2]; omega
          have h3 : 0 ≤ sI + (j - d) := by omega
          rw [if_pos c, if_pos h3, List.getElem?_append_left h2,
            List.getElem?_take_of_lt (by omega), List.getElem?_drop]
          congr 1
          omega
        · have c : ¬ (d ≤ j ∧ j < d + n) := by omega
          have h2 : ((src.drop sI.toNat).take n).length ≤ j.toNat - d.toNat := by
            rw [hlen2]; omega
          rw [if_neg c, List.getElem?_append_right h2, hlen2, List.getElem?_drop]
          congr 1
          omega
    · have c : ¬ (d ≤ j ∧ j < d + n) := by omega
      rw [if_neg hj, if_neg c, if_neg hj]

theorem copy_length (a : Int) (h0 : 0 ≤ a) (h1 : a < 2 ^ 31) :
    toSizeT a * 4 % 2 ^ 64 = 4 * a.toNat := by
  unfold toSizeT
  omega

theorem writeAlphaBitmap_copy_spec (s : Window) (src : List Nat) (srcW srcH dstX dstY : Int)
    (hwf : s.wf) (hsrc : (src.length : Int) = srcW * srcH)
    (hne : max 0 dstX < min s.bufferWidth (dstX + srcW) ∧
      max 0 dstY < min s.bufferHeight (dstY + srcH)) :
    ∃ t, writeAlphaBitmap s src srcW srcH dstX dstY 255 = some t ∧
      t = { s with pixelBuffer := t.pixelBuffer } ∧
      t.pixelBuffer.length = s.pixelBuffer.length ∧
      ∀ px py, 0 ≤ px → px < s.bufferWidth → 0 ≤ py → py < s.bufferHeight →
        load t.pixelBuffer (py * s.bufferWidth + px) =
          if (max 0 dstX ≤ px ∧ px < min s.bufferWidth (dstX + srcW)) ∧
             (max 0 dstY ≤ py ∧ py < min s.bufferHeight (dstY + srcH))
          then load src ((py - dstY) * srcW + (px - dstX))
          else load s.pixelBuffer (py * s.bufferWidth + px) := by
  obtain ⟨hw, hh, hw1, _, _, hlen⟩ := hwf
  have hsW : 0 ≤ srcW := by omega
  have srcIdx : ∀ px py, dstX ≤ px → px < dstX + srcW → dstY ≤ py → py < dstY + srcH →
      0 ≤ (py - dstY) * srcW + (px - dstX) ∧
      (py - dstY) * srcW + (px - dstX) < src.length := by
    intro px py h1 h2 h3 h4
    have := index_bounds srcW srcH (px - dstX) (py - dstY) (by omega) (by omega) (by omega)
      (by omega)
    omega
  obtain ⟨m, hm, hl, hI⟩ :=
    rows_inv s.bufferWidth s.bufferHeight s.pixelBuffer hlen
      (max 0 dstX) (min s.bufferWidth (dstX + srcW)) (max 0 dstY)
      (min s.bufferHeight (dstY + srcH)) (by omega) (by omega) (by omega) (by omega)
      (fun y px => memcpy px (y * s.bufferWidth + max 0 dstX) src
        ((y - dstY) * srcW + (max 0 dstX - dstX))
        (toSizeT (min s.bufferWidth (dstX + srcW) - max 0 dstX) * 4 % 2 ^ 64))
      (fun px py _ => (load src ((py - dstY) * srcW + (px - dstX))).getD 0)
      (fun r u hr0 hr1 hul hb0 hb1 => by
        rw [copy_length _ (by omega) (by omega)]
        have hs := srcIdx (max 0 dstX) r (by omega) (by omega) (by omega) (by omega)
        have hs2 := srcIdx (min s.bufferWidth (dstX + srcW) - 1) r (by omega) (by omega)
          (by omega) (by omega)
        obtain ⟨t, ht, htl, hg⟩ :=
          memcpy_spec u src (r * s.bufferWidth + max 0 dstX)
            ((r - dstY) * srcW + (max 0 dstX - dstX))
            (min s.bufferWidth (dstX + srcW) - max 0 dstX).toNat hb0 (by omega) hs.1 (by omega)
        refine ⟨t, ht, htl, fun j => ?_⟩
        rw [hg]
        have e : r * s.bufferWidth + max 0 dstX +
            ((min s.bufferWidth (dstX + srcW) - max 0 dstX).toNat : Int) =
            r * s.bufferWidth + min s.bufferWidth (dstX + srcW) := by omega
        rw [e]
        by_cases c : r * s.bufferWidth + max 0 dstX ≤ j ∧
            j < r * s.bufferWidth + min s.bufferWidth (dstX + srcW)
        · rw [if_pos c, if_pos c]
          obtain ⟨old, ho⟩ := load_of_lt u j (by omega) (by omega)
          have hs3 := srcIdx (j - r * s.bufferWidth) r (by omega) (by omega) (by omega)
            (by omega)
          obtain ⟨v, hv⟩ := load_of_lt src _ hs3.1 hs3.2
          have e2 : (r - dstY) * srcW + (max 0 dstX - dstX) +
              (j - (r * s.bufferWidth + max 0 dstX)) =
              (r - dstY) * srcW + (j - r * s.bufferWidth - dstX) := by ring
          rw [ho, e2, hv]
          simp only [Option.map_some', hv, Option.getD_some]
        · rw [if_neg c, if_neg c])
  refine ⟨{ s with pixelBuffer := m }, ?_, rfl, hl, ?_⟩
  · have h255 : (255 : Nat) ≠ 0 := by decide
    simp only [writeAlphaBitmap, if_neg h255, if_true, fastMax_eq, fastMin_eq]
    rw [hm]
    rfl
  · intro px py hx0 hx1 hy0 hy1
    show load m _ = _
    rw [hI px py hx0 hx1 hy0 hy1]
    by_cases c : (max 0 dstX ≤ px ∧ px < min s.bufferWidth (dstX + srcW)) ∧
        (max 0 dstY ≤ py ∧ py < min s.bufferHeight (dstY + srcH))
    · rw [if_pos c, if_pos c]
      have hb := index_bounds s.bufferWidth s.bufferHeight px py hx0 hx1 hy0 hy1
      obtain ⟨old, ho⟩ := load_of_lt s.pixelBuffer _ hb.1 (by omega)
      have hs3 := srcIdx px py (by omega) (by omega) (by omega) (by omega)
      obtain ⟨v, hv⟩ := load_of_lt src _ hs3.1 hs3.2
      rw [ho, hv]
      simp only [Option.map_some', hv, Option.getD_some]
    · rw [if_neg c, if_neg c]

/-- C7. For `alpha = 255`, on a buffer satisfying the framebuffer invariant and a
source array of `srcW*srcH` pixels whose placed rectangle
`{dstX, dstY, dstX+srcW, dstY+srcH}` has a non-empty intersection with the
buffer, `writeAlphaBitmap` returns; every buffer pixel `(px,py)` inside the
placed rectangle then holds exactly the source pixel `(px-dstX, py-dstY)`, every
buffer pixel outside it reads as before, and nothing but the pixel array is
changed. -/
theorem C7_alpha255_blit_copies_the_overlap (s : Window) (src : List Nat)
    (srcW srcH dstX dstY : Int) (hwf : s.wf) (hsrc : (src.length : Int) = srcW * srcH)
    (hne : max 0 dstX < min s.bufferWidth (dstX + srcW) ∧
      max 0 dstY < min s.bufferHeight (dstY + srcH)) :
    ∃ t, writeAlphaBitmap s src srcW srcH dstX dstY 255 = some t ∧
      t = { s with pixelBuffer := t.pixelBuffer } ∧
      t.pixelBuffer.length = s.pixelBuffer.length ∧
      ∀ px py, 0 ≤ px → px < s.bufferWidth → 0 ≤ py → py < s.bufferHeight →
        ((dstX ≤ px ∧ px < dstX + srcW) ∧ (dstY ≤ py ∧ py < dstY + srcH) →
          ∃ v, load src ((py - dstY) * srcW + (px - dstX)) = some v ∧
            load t.pixelBuffer (py * s.bufferWidth + px) = some v) ∧
        (¬ ((dstX ≤ px ∧ px < dstX + srcW) ∧ (dstY ≤ py ∧ py < dstY + srcH)) →
          load t.pixelBuffer (py * s.bufferWidth + px) =
            load s.pixelBuffer (py * s.bufferWidth + px)) := by
  obtain ⟨t, ht, hE, hl, hI⟩ := writeAlphaBitmap_copy_spec s src srcW srcH dstX dstY hwf hsrc hne
  refine ⟨t, ht, hE, hl, ?_⟩
  intro px py hx0 hx1 hy0 hy1
  have h := hI px py hx0 hx1 hy0 hy1
  constructor
  · intro hin
    rw [if_pos (by omega)] at h
    have hb := index_bounds srcW srcH (px - dstX) (py - dstY) (by omega) (by omega) (by omega)
      (by omega)
    obtain ⟨v, hv⟩ := load_of_lt src _ hb.1 (by omega)
    exact ⟨v, hv, by rw [h, hv]⟩
  · intro hout
    rw [if_neg (by omega)] at h
    exact h

/-- C7 for a 3x2 source placed at `(-1,3)` on a 4x4 buffer: clipped at the left
and at the bottom. -/
theorem C7_alpha255_blit_witness :
    ∃ t, writeAlphaBitmap (freshWindow 4 4 true) [1, 2, 3, 4, 5, 6] 3 2 (-1) 3 255 = some t ∧
      t = { freshWindow 4 4 true with pixelBuffer := t.pixelBuffer } ∧
      t.pixelBuffer.length = (freshWindow 4 4 true).pixelBuffer.length ∧
      ∀ px py, 0 ≤ px → px < (freshWindow 4 4 true).bufferWidth → 0 ≤ py →
        py < (freshWindow 4 4 true).bufferHeight →
        ((-1 ≤ px ∧ px < -1 + 3) ∧ (3 ≤ py ∧ py < 3 + 2) →
          ∃ v, load [1, 2, 3, 4, 5, 6] ((py - 3) * 3 + (px - -1)) = some v ∧
            load t.pixelBuffer (py * (freshWindow 4 4 true).bufferWidth + px) = some v) ∧
        (¬ ((-1 ≤ px ∧ px < -1 + 3) ∧ (3 ≤ py ∧ py < 3 + 2)) →
          load t.pixelBuffer (py * (freshWindow 4 4 true).bufferWidth + px) =
            load (freshWindow 4 4 true).pixelBuffer
              (py * (freshWindow 4 4 true).bufferWidth + px)) :=
  C7_alpha255_blit_copies_the_overlap (freshWindow 4 4 true) [1, 2, 3, 4, 5, 6] 3 2 (-1) 3
    (freshWindow_wf 4 4 true (by decide) (by decide) (by decide)) (by decide) (by decide)

/-! ## C8: channel bounds of the blend -/

theorem chanR_eq (p : Nat) : chanR p = p % 256 :=
  Nat.and_pow_two_sub_one_eq_mod p 8

theorem chanG_eq (p : Nat) : chanG p = p / 256 % 256 := by
  unfold chanG
  rw [Nat.shiftRight_eq_div_pow]
  exact Nat.and_pow_two_sub_one_eq_mod _ 8

theorem chanB_eq (p : Nat) : chanB p = p / 65536 % 256 := by
  unfold chanB
  rw [Nat.shiftRight_eq_div_pow]
  exact Nat.and_pow_two_sub_one_eq_mod _ 8

theorem pack_eq_add (r g b : Nat) (hr : r < 256) (hg : g < 256) :
    r ||| (g <<< 8) ||| (b <<< 16) = r + 256 * g + 65536 * b := by
  have e1 : r ||| (g <<< 8) = 256 * g + r := by
    rw [Nat.shiftLeft_eq, Nat.or_comm, Nat.mul_comm]
    exact (Nat.mul_add_lt_is_or (show r < 2 ^ 8 by omega) g).symm
  have e2 : (256 * g + r) ||| (b <<< 16) = 65536 * b + (256 * g + r) := by
    rw [Nat.shiftLeft_eq, Nat.or_comm, Nat.mul_comm]
    exact (Nat.mul_add_lt_is_or (show 256 * g + r < 2 ^ 16 by omega) b).symm
  rw [e1, e2]
  omega

theorem convex_bounds (s d a b : Nat) (hab : a + b = 255) :
    min s d * 255 ≤ s * a + d * b ∧ s * a + d * b ≤ max s d * 255 := by
  have e1 : min s d * 255 = min s d * a + min s d * b := by rw [← hab, Nat.mul_add]
  have e2 : max s d * 255 = max s d * a + max s d * b := by rw [← hab, Nat.mul_add]
  have h1 : min s d * a ≤ s * a := Nat.mul_le_mul_right a (Nat.min_le_left s d)
  have h2 : min s d * b ≤ d * b := Nat.mul_le_mul_right b (Nat.min_le_right s d)
  have h3 : s * a ≤ max s d * a := Nat.mul_le_mul_right a (Nat.le_max_left s d)
  have h4 : d * b ≤ max s d * b := Nat.mul_le_mul_right b (Nat.le_max_right s d)
  omega

/-- The scalar blend of one channel: `(s*alpha + d*(255-alpha)) / 255` lies between
`s` and `d`. -/
theorem scalar_channel (s d alpha : Nat) (hs : s < 256) (hd : d < 256) (ha : alpha ≤ 255) :
    (s * alpha + d * ((255 - alpha) % 2 ^ 32)) % 2 ^ 32 / 255 % 256
      = (s * alpha + d * (255 - alpha)) / 255 ∧
    min s d ≤ (s * alpha + d * (255 - alpha)) / 255 ∧
    (s * alpha + d * (255 - alpha)) / 255 ≤ max s d := by
  have hb := convex_bounds s d alpha (255 - alpha) (by omega)
  have e : (255 - alpha) % 2 ^ 32 = 255 - alpha := by omega
  rw [e]
  generalize s * alpha + d * (255 - alpha) = x at hb ⊢
  have hM : max s d ≤ 255 := by omega
  omega

/-- The lane blend of one byte: `(s*alpha + d*(255-alpha)) >> 8` is at most the
larger of `s` and `d` and at most one below the smaller. -/
theorem lane_channel (s d alpha : Nat) (hs : s < 256) (hd : d < 256) (ha : alpha ≤ 255) :
    laneByte d s alpha = (s * alpha + d * (255 - alpha)) / 256 ∧
    laneByte d s alpha < 256 ∧
    min s d ≤ laneByte d s alpha + 1 ∧ laneByte d s alpha ≤ max s d := by
  have hb := convex_bounds s d alpha (255 - alpha) (by omega)
  have e1 : alpha % 65536 = alpha := by omega
  have e2 : (255 % 65536 + 65536 - alpha) % 65536 = 255 - alpha := by omega
  have e : laneByte d s alpha = (s * alpha + d * (255 - alpha)) / 256 := by
    unfold laneByte saturateU8
    rw [e1, e2, Nat.shiftRight_eq_div_pow]
    simp only [Nat.mul_zero, Nat.add_zero]
    have h1 : s * alpha ≤ 255 * 255 := Nat.mul_le_mul (by omega) ha
    have h2 : d * (255 - alpha) ≤ 255 * 255 := Nat.mul_le_mul (by omega) (by omega)
    generalize s * alpha = x at hb h1 ⊢
    generalize d * (255 - alpha) = y at hb h2 ⊢
    have hM : max s d ≤ 255 := by omega
    split
    · omega
    · split <;> omega
  rw [e]
  refine ⟨rfl, ?_, ?_, ?_⟩ <;>
  · generalize s * alpha + d * (255 - alpha) = x at hb ⊢
    have hM : max s d ≤ 255 := by omega
    omega

theorem blend4_bytes (d s : List Nat) (alpha : Nat) (hd : d.length = 16) (hs : s.length = 16) :
    blend4_sse2 d s (_mm_set1_epi16 alpha)
      = List.zipWith (fun x y => laneByte x y alpha) d s := by
  match d, s, hd, hs with
  | [d0, d1, d2, d3, d4, d5, d6, d7, d8, d9, d10, d11, d12, d13, d14, d15],
    [s0, s1, s2, s3, s4, s5, s6, s7, s8, s9, s10, s11, s12, s13, s14, s15], _, _ => rfl

theorem blend4_lanes (d0 d1 d2 d3 s0 s1 s2 s3 alpha : Nat) :
    lane32 (blend4_sse2 (bytesOf d0 ++ bytesOf d1 ++ bytesOf d2 ++ bytesOf d3)
        (bytesOf s0 ++ bytesOf s1 ++ bytesOf s2 ++ bytesOf s3) (_mm_set1_epi16 alpha)) 0
      = lanePixel d0 s0 alpha ∧
    lane32 (blend4_sse2 (bytesOf d0 ++ bytesOf d1 ++ bytesOf d2 ++ bytesOf d3)
        (bytesOf s0 ++ bytesOf s1 ++ bytesOf s2 ++ bytesOf s3) (_mm_set1_epi16 alpha)) 1
      = lanePixel d1 s1 alpha ∧
    lane32 (blend4_sse2 (bytesOf d0 ++ bytesOf d1 ++ bytesOf d2 ++ bytesOf d3)
        (bytesOf s0 ++ bytesOf s1 ++ bytesOf s2 ++ bytesOf s3) (_mm_set1_epi16 alpha)) 2
      = lanePixel d2 s2 alpha ∧
    lane32 (blend4_sse2 (bytesOf d0 ++ bytesOf d1 ++ bytesOf d2 ++ bytesOf d3)
        (bytesOf s0 ++ bytesOf s1 ++ bytesOf s2 ++ bytesOf s3) (_mm_set1_epi16 alpha)) 3
      = lanePixel d3 s3 alpha := by
  rw [blend4_bytes (bytesOf d0 ++ bytesOf d1 ++ bytesOf d2 ++ bytesOf d3)
    (bytesOf s0 ++ bytesOf s1 ++ bytesOf s2 ++ bytesOf s3) alpha rfl rfl]
  exact ⟨rfl, rfl, rfl, rfl⟩

theorem loadu_spec (m : List Nat) (idx : Int) (h0 : 0 ≤ idx) (h1 : idx + 4 ≤ m.length) :
    ∃ p0 p1 p2 p3, load m idx = some p0 ∧ load m (idx + 1) = some p1 ∧
      load m (idx + 2) = some p2 ∧ load m (idx + 3) = some p3 ∧
      _mm_loadu_si128 m idx = some (bytesOf p0 ++ bytesOf p1 ++ bytesOf p2 ++ bytesOf p3) := by
  obtain ⟨p0, e0⟩ := load_of_lt m idx (by omega) (by omega)
  obtain ⟨p1, e1⟩ := load_of_lt m (idx + 1) (by omega) (by omega)
  obtain ⟨p2, e2⟩ := load_of_lt m (idx + 2) (by omega) (by omega)
  obtain ⟨p3, e3⟩ := load_of_lt m (idx + 3) (by omega) (by omega)
  exact ⟨p0, p1, p2, p3, e0, e1, e2, e3, by simp [_mm_loadu_si128, e0, e1, e2, e3]⟩

theorem blendRow_spec (u src : List Nat) (dstBase srcBase count : Int) (alpha : Nat)
    (hb : 0 < count → (0 ≤ dstBase ∧ dstBase + count ≤ u.length) ∧
      (0 ≤ srcBase ∧ srcBase + count ≤ src.length)) :
    ∃ t, blendRow src dstBase srcBase count alpha u = some t ∧
      RowUpdate u t dstBase (dstBase + count) (fun j old =>
        rowBlend count (j - dstBase) old ((load src (srcBase + (j - dstBase))).getD 0) alpha) := by
  obtain ⟨t, ht, hl, hI⟩ :=
    lanesThenScalar_inv
      (fun i m =>
        (_mm_loadu_si128 m (dstBase + i)).bind fun d =>
        (_mm_loadu_si128 src (srcBase + i)).bind fun s =>
        _mm_storeu_si128 m (dstBase + i) (blend4_sse2 d s (_mm_set1_epi16 alpha)))
      (fun i m =>
        (load m (dstBase + i)).bind fun d =>
        (load src (srcBase + i)).bind fun s =>
        store m (dstBase + i) (blendPixel d s alpha))
      count
      (fun k t => RowUpdate u t dstBase (dstBase + k) (fun j old =>
        rowBlend count (j - dstBase) old ((load src (srcBase + (j - dstBase))).getD 0) alpha)) u
      ⟨rfl, fun j => by
        have : ¬ (dstBase ≤ j ∧ j < dstBase + 0) := by omega
        rw [if_neg this]⟩
      (fun k t hk0 hk4 hk ⟨hl, hI⟩ => by
        obtain ⟨⟨hd0, hd1⟩, hs0, hs1⟩ := hb (by omega)
        obtain ⟨p0, p1, p2, p3, e0, e1, e2, e3, eL⟩ :=
          loadu_spec t (dstBase + k) (by omega) (by omega)
        obtain ⟨q0, q1, q2, q3, f0, f1, f2, f3, fL⟩ :=
          loadu_spec src (srcBase + k) (by omega) (by omega)
        obtain ⟨t2, ht2, hl2, hg⟩ :=
          storeu_spec t (dstBase + k)
            (blend4_sse2 (bytesOf p0 ++ bytesOf p1 ++ bytesOf p2 ++ bytesOf p3)
              (bytesOf q0 ++ bytesOf q1 ++ bytesOf q2 ++ bytesOf q3) (_mm_set1_epi16 alpha))
            (by omega) (by omega)
        obtain ⟨b0, b1, b2, b3⟩ := blend4_lanes p0 p1 p2 p3 q0 q1 q2 q3 alpha
        refine ⟨t2, by simp only [eL, fL, Option.some_bind, ht2], by omega, fun j => ?_⟩
        rw [hg]
        have hlane : ∀ i : Int, 0 ≤ i → i < 4 → ∀ p q : Nat, load t (dstBase + k + i) = some p →
            load src (srcBase + k + i) = some q →
            (load u (dstBase + k + i)).map (fun old => rowBlend count (dstBase + k + i - dstBase)
              old ((load src (srcBase + (dstBase + k + i - dstBase))).getD 0) alpha)
              = some (lanePixel p q alpha) := by
          intro i hi0 hi1 p q hp hq
          have hu := hI (dstBase + k + i)
          rw [if_neg (by omega), hp] at hu
          have e : srcBase + (dstBase + k + i - dstBase) = srcBase + k + i := by omega
          rw [← hu, e, hq]
          simp only [Option.map_some', Option.getD_some, rowBlend]
          rw [if_pos (by omega)]
        by_cases c : dstBase + k ≤ j ∧ j < dstBase + k + 4
        · have c2 : dstBase ≤ j ∧ j < dstBase + (k + 4) := by omega
          rw [if_pos c, if_pos c2]
          have hj : j = dstBase + k + 0 ∨ j = dstBase + k + 1 ∨ j = dstBase + k + 2 ∨
              j = dstBase + k + 3 := by omega
          rcases hj with hj | hj | hj | hj <;> subst hj
          · rw [hlane 0 (by omega) (by omega) p0 q0 (by simpa using e0) (by simpa using f0)]
            have : (dstBase + k + 0 - (dstBase + k)).toNat = 0 := by omega
            rw [this, b0]
          · rw [hlane 1 (by omega) (by omega) p1 q1 e1 f1]
            have : (dstBase + k + 1 - (dstBase + k)).toNat = 1 := by omega
            rw [this, b1]
          · rw [hlane 2 (by omega) (by omega) p2 q2 e2 f2]
            have : (dstBase + k + 2 - (dstBase + k)).toNat = 2 := by omega
            rw [this, b2]
          · rw [hlane 3 (by omega) (by omega) p3 q3 e3 f3]
            have : (dstBase + k + 3 - (dstBase + k)).toNat = 3 := by omega
            rw [this, b3]
        · rw [if_neg c, hI]
          by_cases c1 : dstBase ≤ j ∧ j < dstBase + k
          · have c2 : dstBase ≤ j ∧ j < dstBase + (k + 4) := by omega
            rw [if_pos c1, if_pos c2]
          · have c2 : ¬ (dstBase ≤ j ∧ j < dstBase + (k + 4)) := by omega
            rw [if_neg c1, if_neg c2])
      (fun k t hk0 hk4 hk ⟨hl, hI⟩ => by
        obtain ⟨⟨hd0, hd1⟩, hs0, hs1⟩ := hb (by omega)
        obtain ⟨p, hp⟩ := load_of_lt t (dstBase + k) (by omega) (by omega)
        obtain ⟨q, hq⟩ := load_of_lt src (srcBase + k) (by omega) (by omega)
        obtain ⟨t2, ht2, hl2, hg⟩ :=
          store_spec t (dstBase + k) (blendPixel p q alpha) (by omega) (by omega)
        refine ⟨t2, by simp only [hp, hq, Option.some_bind, ht2], by omega, fun j => ?_⟩
        rw [hg]
        by_cases c : j = dstBase + k
        · subst c
          have c2 : dstBase ≤ dstBase + k ∧ dstBase + k < dstBase + (k + 1) := by omega
          have hu := hI (dstBase + k)
          rw [if_neg (by omega), hp] at hu
          have e : srcBase + (dstBase + k - dstBase) = srcBase + k := by omega
          rw [if_pos rfl, if_pos c2, ← hu]
          simp only [Option.map_some']
          rw [e, hq]
          simp only [Option.getD_some, rowBlend]
          rw [if_neg (by omega)]
        · rw [if_neg c, hI]
          by_cases c1 : dstBase ≤ j ∧ j < dstBase + k
          · have c2 : dstBase ≤ j ∧ j < dstBase + (k + 1) := by omega
            rw [if_pos c1, if_pos c2]
          · have c2 : ¬ (dstBase ≤ j ∧ j < dstBase + (k + 1)) := by omega
            rw [if_neg c1, if_neg c2])
  refine ⟨t, ht, hl, fun j => ?_⟩
  rw [hI]
  by_cases c : dstBase ≤ j ∧ j < dstBase + count
  · have c2 : dstBase ≤ j ∧ j < dstBase + max 0 count := by omega
    rw [if_pos c, if_pos c2]
  · have c2 : ¬ (dstBase ≤ j ∧ j < dstBase + max 0 count) := by omega
    rw [if_neg c, if_neg c2]

theorem writeAlphaBitmap_blend_spec (s : Window) (src : List Nat) (srcW srcH dstX dstY : Int)
    (alpha : Nat) (hwf : s.wf) (hsrc : (src.length : Int) = srcW * srcH) (ha0 : alpha ≠ 0)
    (ha1 : alpha ≠ 255) :
    ∃ m, writeAlphaBitmap s src srcW srcH dstX dstY alpha
        = some (markDirty { s with pixelBuffer := m } dstX dstY srcW srcH) ∧
      m.length = s.pixelBuffer.length ∧
      ∀ px py, 0 ≤ px → px < s.bufferWidth → 0 ≤ py → py < s.bufferHeight →
        load m (py * s.bufferWidth + px) =
          if (max 0 dstX ≤ px ∧ px < min s.bufferWidth (dstX + srcW)) ∧
             (max 0 dstY ≤ py ∧ py < min s.bufferHeight (dstY + srcH))
          then (load s.pixelBuffer (py * s.bufferWidth + px)).map (fun old =>
            rowBlend (min s.bufferWidth (dstX + srcW) - max 0 dstX) (px - max 0 dstX) old
              ((load src ((py - dstY) * srcW + (px - dstX))).getD 0) alpha)
          else load s.pixelBuffer (py * s.bufferWidth + px) := by
  obtain ⟨hw, hh, hw1, _, _, hlen⟩ := hwf
  obtain ⟨m, hm, hl, hI⟩ :=
    rows_inv s.bufferWidth s.bufferHeight s.pixelBuffer hlen
      (max 0 dstX) (min s.bufferWidth (dstX + srcW)) (max 0 dstY)
      (min s.bufferHeight (dstY + srcH)) (by omega) (by omega) (by omega) (by omega)
      (fun y px => blendRow src (y * s.bufferWidth + max 0 dstX)
        ((y - dstY) * srcW + (max 0 dstX - dstX))
        (min s.bufferWidth (dstX + srcW) - max 0 dstX) alpha px)
      (fun px py old =>
        rowBlend (min s.bufferWidth (dstX + srcW) - max 0 dstX) (px - max 0 dstX) old
          ((load src ((py - dstY) * srcW + (px - dstX))).getD 0) alpha)
      (fun r u hr0 hr1 hul hb0 hb1 => by
        obtain ⟨t, ht, htl, hg⟩ :=
          blendRow_spec u src (r * s.bufferWidth + max 0 dstX)
            ((r - dstY) * srcW + (max 0 dstX - dstX))
            (min s.bufferWidth (dstX + srcW) - max 0 dstX) alpha
            (fun hc => by
              have h1 := index_bounds srcW srcH (max 0 dstX - dstX) (r - dstY) (by omega)
                (by omega) (by omega) (by omega)
              have h2 := index_bounds srcW srcH (min s.bufferWidth (dstX + srcW) - 1 - dstX)
                (r - dstY) (by omega) (by omega) (by omega) (by omega)
              exact ⟨⟨hb0, by omega⟩, h1.1, by omega⟩)
        refine ⟨t, ht, htl, fun j => ?_⟩
        rw [hg]
        have e0 : r * s.bufferWidth + max 0 dstX +
            (min s.bufferWidth (dstX + srcW) - max 0 dstX) =
            r * s.bufferWidth + min s.bufferWidth (dstX + srcW) := by ring
        have e1 : j - (r * s.bufferWidth + max 0 dstX) = j - r * s.bufferWidth - max 0 dstX := by
          ring
        have e2 : (r - dstY) * srcW + (max 0 dstX - dstX) +
            (j - r * s.bufferWidth - max 0 dstX) =
            (r - dstY) * srcW + (j - r * s.bufferWidth - dstX) := by ring
        rw [e0]
        simp only [e1, e2])
  refine ⟨m, ?_, hl, hI⟩
  simp only [writeAlphaBitmap, if_neg ha0, if_neg ha1, fastMax_eq, fastMin_eq]
  rw [hm]
  rfl

theorem lanePixel_channels (old sv alpha : Nat) (ha : alpha ≤ 255) :
    channelsBetweenUpToOne (lanePixel old sv alpha) sv old := by
  obtain ⟨_, r1, r2, r3⟩ := lane_channel (sv % 256) (old % 256) alpha
    (Nat.mod_lt _ (by decide)) (Nat.mod_lt _ (by decide)) ha
  obtain ⟨_, g1, g2, g3⟩ := lane_channel (sv / 256 % 256) (old / 256 % 256) alpha
    (Nat.mod_lt _ (by decide)) (Nat.mod_lt _ (by decide)) ha
  obtain ⟨_, b1, b2, b3⟩ := lane_channel (sv / 65536 % 256) (old / 65536 % 256) alpha
    (Nat.mod_lt _ (by decide)) (Nat.mod_lt _ (by decide)) ha
  obtain ⟨_, a1, _, _⟩ := lane_channel (sv / 16777216 % 256) (old / 16777216 % 256) alpha
    (Nat.mod_lt _ (by decide)) (Nat.mod_lt _ (by decide)) ha
  unfold channelsBetweenUpToOne
  simp only [chanR_eq, chanG_eq, chanB_eq, lanePixel]
  generalize laneByte (old % 256) (sv % 256) alpha = x0 at *
  generalize laneByte (old / 256 % 256) (sv / 256 % 256) alpha = x1 at *
  generalize laneByte (old / 65536 % 256) (sv / 65536 % 256) alpha = x2 at *
  generalize laneByte (old / 16777216 % 256) (sv / 16777216 % 256) alpha = x3 at *
  have e0 : (x0 + 256 * x1 + 65536 * x2 + 16777216 * x3) % 256 = x0 := by omega
  have e1 : (x0 + 256 * x1 + 65536 * x2 + 16777216 * x3) / 256 % 256 = x1 := by omega
  have e2 : (x0 + 256 * x1 + 65536 * x2 + 16777216 * x3) / 65536 % 256 = x2 := by omega
  rw [e0, e1, e2]
  exact ⟨⟨r2, r3⟩, ⟨g2, g3⟩, ⟨b2, b3⟩⟩

theorem blendPixel_channels (old sv alpha : Nat) (ha : alpha ≤ 255) :
    channelsBetween (blendPixel old sv alpha) sv old := by
  obtain ⟨r0, r1, r2⟩ := scalar_channel (sv % 256) (old % 256) alpha
    (Nat.mod_lt _ (by decide)) (Nat.mod_lt _ (by decide)) ha
  obtain ⟨g0, g1, g2⟩ := scalar_channel (sv / 256 % 256) (old / 256 % 256) alpha
    (Nat.mod_lt _ (by decide)) (Nat.mod_lt _ (by decide)) ha
  obtain ⟨b0, b1, b2⟩ := scalar_channel (sv / 65536 % 256) (old / 65536 % 256) alpha
    (Nat.mod_lt _ (by decide)) (Nat.mod_lt _ (by decide)) ha
  have hR : ∀ p : Nat, p &&& 255 = p % 256 := chanR_eq
  have e : blendPixel old sv alpha =
      (sv % 256 * alpha + old % 256 * (255 - alpha)) / 255
      + 256 * ((sv / 256 % 256 * alpha + old / 256 % 256 * (255 - alpha)) / 255)
      + 65536 * ((sv / 65536 % 256 * alpha + old / 65536 % 256 * (255 - alpha)) / 255) := by
    have e8 : (2 : Nat) ^ 8 = 256 := by norm_num
    have e16 : (2 : Nat) ^ 16 = 65536 := by norm_num
    unfold blendPixel
    simp only [hR, Nat.shiftRight_eq_div_pow, Nat.mod_mod, e8, e16]
    rw [r0, g0, b0, pack_eq_add _ _ _ (by omega) (by omega)]
    omega
  unfold channelsBetween
  simp only [chanR_eq, chanG_eq, chanB_eq]
  rw [e]
  generalize (sv % 256 * alpha + old % 256 * (255 - alpha)) / 255 = x0 at *
  generalize (sv / 256 % 256 * alpha + old / 256 % 256 * (255 - alpha)) / 255 = x1 at *
  generalize (sv / 65536 % 256 * alpha + old / 65536 % 256 * (255 - alpha)) / 255 = x2 at *
  have hx0 : x0 < 256 := by omega
  have hx1 : x1 < 256 := by omega
  have hx2 : x2 < 256 := by omega
  have e0 : (x0 + 256 * x1 + 65536 * x2) % 256 = x0 := by omega
  have e1 : (x0 + 256 * x1 + 65536 * x2) / 256 % 256 = x1 := by omega
  have e2 : (x0 + 256 * x1 + 65536 * x2) / 65536 % 256 = x2 := by omega
  rw [e0, e1, e2]
  exact ⟨⟨r1, r2⟩, ⟨g1, g2⟩, ⟨b1, b2⟩⟩

/-- C8 as stated fails on the lane path: a white 4x1 source blended at opacity 128
onto a white 4x1 buffer is processed by one 4-pixel lane and leaves `0xFEFEFE` in
pixel `(0,0)`: every channel is 254, below both the source channel 255 and the
prior destination channel 255. -/
theorem C8_lane_blend_leaves_the_channel_range :
    ∃ t old sv new,
      writeAlphaBitmap { freshWindow 4 1 true with pixelBuffer := List.replicate 4 16777215 }
        (List.replicate 4 16777215) 4 1 0 0 128 = some t ∧
      load ({ freshWindow 4 1 true with pixelBuffer := List.replicate 4 16777215 } :
        Window).pixelBuffer (0 * 4 + 0) = some old ∧
      load (List.replicate 4 16777215) ((0 - 0) * 4 + (0 - 0)) = some sv ∧
      load t.pixelBuffer (0 * 4 + 0) = some new ∧
      (chanR old = 255 ∧ chanR sv = 255 ∧ chanR new = 254) ∧
      ¬ channelsBetween new sv old := by
  refine ⟨{ freshWindow 4 1 true with
      pixelBuffer := List.replicate 4 16711422,
      dirtyRect := ⟨0, 0, 4, 1⟩, hasDirty := true }, 16777215, 16777215, 16711422,
    by decide, by decide, by decide, by decide, by decide, ?_⟩
  unfold channelsBetween
  decide

/-- C8, amended. For every opacity strictly between 0 and 255, on a buffer
satisfying the framebuffer invariant and a source array of `srcW*srcH` pixels,
`writeAlphaBitmap` returns, and every buffer pixel inside the placed rectangle
holds a blend of the prior destination pixel and the source pixel
`(px-dstX, py-dstY)`: for the pixels of the scalar remainder of a row it is
`blendPixel` and each of its red, green and blue channels lies between (inclusive)
the source channel and the prior destination channel; for the pixels of the
4-pixel lanes (row offsets below `4 * (count / 4)`) it is the lane of
`blend4_sse2` and each channel is at most the larger of the two and at most one
below the smaller of the two. -/
theorem C8_blend_channels_between_up_to_lane_rounding (s : Window) (src : List Nat)
    (srcW srcH dstX dstY : Int) (alpha : Nat) (hwf : s.wf)
    (hsrc : (src.length : Int) = srcW * srcH) (ha : 0 < alpha ∧ alpha < 255) :
    ∃ t, writeAlphaBitmap s src srcW srcH dstX dstY alpha = some t ∧
      t.pixelBuffer.length = s.pixelBuffer.length ∧
      ∀ px py, 0 ≤ px → px < s.bufferWidth → 0 ≤ py → py < s.bufferHeight →
        (dstX ≤ px ∧ px < dstX + srcW) ∧ (dstY ≤ py ∧ py < dstY + srcH) →
        ∃ old sv new, load s.pixelBuffer (py * s.bufferWidth + px) = some old ∧
          load src ((py - dstY) * srcW + (px - dstX)) = some sv ∧
          load t.pixelBuffer (py * s.bufferWidth + px) = some new ∧
          (px - max 0 dstX < 4 * ((min s.bufferWidth (dstX + srcW) - max 0 dstX) / 4) →
            new = lanePixel old sv alpha ∧ channelsBetweenUpToOne new sv old) ∧
          (¬ px - max 0 dstX < 4 * ((min s.bufferWidth (dstX + srcW) - max 0 dstX) / 4) →
            new = blendPixel old sv alpha ∧ channelsBetween new sv old) := by
  obtain ⟨m, hm, hl, hI⟩ :=
    writeAlphaBitmap_blend_spec s src srcW srcH dstX dstY alpha hwf hsrc (by omega) (by omega)
  have hfr := markDirty_frame { s with pixelBuffer := m } dstX dstY srcW srcH
  refine ⟨_, hm, by rw [hfr.1]; exact hl, ?_⟩
  intro px py hx0 hx1 hy0 hy1 hin
  have hb := index_bounds s.bufferWidth s.bufferHeight px py hx0 hx1 hy0 hy1
  have hs := index_bounds srcW srcH (px - dstX) (py - dstY) (by omega) (by omega) (by omega)
    (by omega)
  obtain ⟨old, ho⟩ := load_of_lt s.pixelBuffer _ hb.1 (by have := hwf.2.2.2.2.2; omega)
  obtain ⟨sv, hv⟩ := load_of_lt src _ hs.1 (by omega)
  have h := hI px py hx0 hx1 hy0 hy1
  rw [if_pos (by omega), ho, hv] at h
  simp only [Option.map_some', Option.getD_some] at h
  rw [hfr.1]
  refine ⟨old, sv, _, ho, hv, h, ?_, ?_⟩
  · intro c
    have e : rowBlend (min s.bufferWidth (dstX + srcW) - max 0 dstX) (px - max 0 dstX) old sv
        alpha = lanePixel old sv alpha := by
      unfold rowBlend
      rw [if_pos c]
    rw [e]
    exact ⟨rfl, lanePixel_channels old sv alpha (by omega)⟩
  · intro c
    have e : rowBlend (min s.bufferWidth (dstX + srcW) - max 0 dstX) (px - max 0 dstX) old sv
        alpha = blendPixel old sv alpha := by
      unfold rowBlend
      rw [if_neg c]
    rw [e]
    exact ⟨rfl, blendPixel_channels old sv alpha (by omega)⟩

/-- C8, amended, for a 6x1 source at opacity 128 on a 6x1 buffer: one lane of four
pixels and a scalar remainder of two. -/
theorem C8_blend_channels_witness :
    ∃ t, writeAlphaBitmap (freshWindow 6 1 true) (List.replicate 6 16777215) 6 1 0 0 128
        = some t ∧
      t.pixelBuffer.length = (freshWindow 6 1 true).pixelBuffer.length ∧
      ∀ px py, 0 ≤ px → px < (freshWindow 6 1 true).bufferWidth → 0 ≤ py →
        py < (freshWindow 6 1 true).bufferHeight →
        (0 ≤ px ∧ px < 0 + 6) ∧ (0 ≤ py ∧ py < 0 + 1) →
        ∃ old sv new,
          load (freshWindow 6 1 true).pixelBuffer
            (py * (freshWindow 6 1 true).bufferWidth + px) = some old ∧
          load (List.replicate 6 16777215) ((py - 0) * 6 + (px - 0)) = some sv ∧
          load t.pixelBuffer (py * (freshWindow 6 1 true).bufferWidth + px) = some new ∧
          (px - max 0 0 < 4 * ((min (freshWindow 6 1 true).bufferWidth (0 + 6) - max 0 0) / 4) →
            new = lanePixel old sv 128 ∧ channelsBetweenUpToOne new sv old) ∧
          (¬ px - max 0 0 <
              4 * ((min (freshWindow 6 1 true).bufferWidth (0 + 6) - max 0 0) / 4) →
            new = blendPixel old sv 128 ∧ channelsBetween new sv old) :=
  C8_blend_channels_between_up_to_lane_rounding (freshWindow 6 1 true)
    (List.replicate 6 16777215) 6 1 0 0 128
    (freshWindow_wf 6 1 true (by decide) (by decide) (by decide)) (by decide) (by decide)

/-! ## C9 and C10: the `alpha == 255` path of `writeAlphaBitmap` -/

/-- Whenever the `alpha == 255` path returns, only the pixel array has changed: the
damage state is the one before the call. -/
theorem writeAlphaBitmap_alpha255_damage_unchanged (s t : Window) (src : List Nat)
    (srcW srcH dstX dstY : Int) (h : writeAlphaBitmap s src srcW srcH dstX dstY 255 = some t) :
    t = { s with pixelBuffer := t.pixelBuffer } := by
  have h255 : (255 : Nat) ≠ 0 := by decide
  simp only [writeAlphaBitmap, if_neg h255, if_true] at h
  obtain ⟨px, _, e⟩ := Option.map_eq_some'.1 h
  rw [← e]

/-- The `alpha == 255` path on a placement that overlaps the buffer rows but whose
clipped column range is reversed (`endX < startX`: the source lies entirely left or
right of the buffer): the first row copies `(size_t)(endX - startX) * 4` bytes,
which leaves the pixel array. -/
theorem writeAlphaBitmap_alpha255_disjoint_columns (s : Window) (src : List Nat)
    (srcW srcH dstX dstY : Int) (hwf : s.wf)
    (hrows : max 0 dstY < min s.bufferHeight (dstY + srcH))
    (hcols : min s.bufferWidth (dstX + srcW) < max 0 dstX)
    (hint : isInt (min s.bufferWidth (dstX + srcW) - max 0 dstX)) :
    writeAlphaBitmap s src srcW srcH dstX dstY 255 = none := by
  obtain ⟨hw, hh, _, _, hsz, hlen⟩ := hwf
  have h255 : (255 : Nat) ≠ 0 := by decide
  unfold isInt at hint
  simp only [writeAlphaBitmap, if_neg h255, if_true, fastMax_eq, fastMin_eq]
  obtain ⟨n, hn⟩ : ∃ n, (min s.bufferHeight (dstY + srcH) - max 0 dstY).toNat = n + 1 :=
    ⟨(min s.bufferHeight (dstY + srcH) - max 0 dstY).toNat - 1, by omega⟩
  rw [hn, forLoop, if_pos hrows]
  have hbig : (2 : Int) ^ 31 ≤
      ((toSizeT (min s.bufferWidth (dstX + srcW) - max 0 dstX) * 4 % 2 ^ 64 / 4 : Nat) : Int) := by
    unfold toSizeT
    omega
  have hnone : memcpy s.pixelBuffer (max 0 dstY * s.bufferWidth + max 0 dstX) src
      ((max 0 dstY - dstY) * srcW + (max 0 dstX - dstX))
      (toSizeT (min s.bufferWidth (dstX + srcW) - max 0 dstX) * 4 % 2 ^ 64) = none := by
    unfold memcpy
    have h0 : 0 ≤ max 0 dstY * s.bufferWidth := Int.mul_nonneg (by omega) hw
    rw [if_neg]
    intro hc
    omega
  rw [hnone]
  rfl

/-- C9 (evaluation of the code). A 2x2 source placed at `(6,0)` on a 4x4 buffer
overlaps the buffer rows but lies entirely to the right.  With `alpha = 255` the
first row calls `memcpy` with `(endX - startX) * sizeof(uint32_t)`, where
`endX - startX = -2` converts to `2^64 - 8` bytes: the copy leaves both arrays
(the model returns `none`).  With `alpha = 254` the same placement is a no-op. -/
theorem C9_fast_path_copies_with_negative_length :
    writeAlphaBitmap (freshWindow 4 4 true) [1, 2, 3, 4] 2 2 6 0 255 = none ∧
    toSizeT (fastMin 4 (6 + 2) - fastMax 0 6) * 4 % 2 ^ 64 = 2 ^ 64 - 8 ∧
    memcpy (freshWindow 4 4 true).pixelBuffer (0 * 4 + 6) [1, 2, 3, 4] (0 * 2 + (6 - 6))
      (2 ^ 64 - 8) = none ∧
    writeAlphaBitmap (freshWindow 4 4 true) [1, 2, 3, 4] 2 2 6 0 254
      = some (freshWindow 4 4 true) := by
  decide

/-- C10 (evaluation of the code). With tracking enabled and the damage state
empty, a 2x2 source blitted at `(1,1)` on a 4x4 buffer with `alpha = 255` changes
four pixels and returns with `hasDirty` still false: the fast path returns before
`markDirty`.  With `alpha = 254` the same call tracks `{1,1,3,3}`. -/
theorem C10_fast_path_reports_no_damage :
    (writeAlphaBitmap (freshWindow 4 4 true) [1, 2, 3, 4] 2 2 1 1 255).map
        (fun t => (t.pixelBuffer, t.hasDirty, t.dirtyRect))
      = some ([0, 0, 0, 0, 0, 1, 2, 0, 0, 3, 4, 0, 0, 0, 0, 0], false, (⟨0, 0, 0, 0⟩ : RECT)) ∧
    (writeAlphaBitmap (freshWindow 4 4 true) [1, 2, 3, 4] 2 2 1 1 254).map
        (fun t => (t.hasDirty, t.dirtyRect))
      = some (true, (⟨1, 1, 3, 3⟩ : RECT)) := by
  decide

/-! ## C12: degenerate inputs -/

/-- C15 (evaluation of the code). `writeEllipse(1, 1, 1, 1, Red)` on a 4x4 buffer:
at the first step `(x, y) = (0, 1)` the span is the single column 1, but the loop
test `(xx <= (bufferWidth-1 < xR)) ? bufferWidth-1 : xR` has the value `xR = 1` for
every `xx >= 1`, so the loop never ends; with 7 rounds of fuel it is still
running, and the 8th round writes index 16 of the 16-pixel array.
`writeEllipse(0, 0, 1, 1, Red)` tests `0 <= y < bufferHeight` for the offset
`y = 1` and then writes row `cy - y = -1`, index -4. -/
theorem C15_writeEllipse_leaves_the_span_and_the_buffer :
    writeEllipse 7 (freshWindow 4 4 true) 1 1 1 1 Red = Outcome.outOfFuel ∧
    writeEllipse 8 (freshWindow 4 4 true) 1 1 1 1 Red = Outcome.fault 16 ∧
    writeEllipse 1000 (freshWindow 4 4 true) 1 1 1 1 Red = Outcome.fault 16 ∧
    writeEllipse 1000 (freshWindow 4 4 true) 0 0 1 1 Red = Outcome.fault (-4) := by
  decide

/-! ## C17 and C18: `createBackBuffer` -/

/-- C17 (evaluation of the code). A tracked 20x20 buffer with the whole buffer
reported dirty is resized to 10x10: `createBackBuffer` leaves `hasDirty` true and
the rectangle `{0,0,20,20}`, which extends beyond the new buffer, and the next
`present` hands that rectangle to `StretchDIBits`. -/
theorem C17_resize_keeps_the_damage_state :
    (markDirty (freshWindow 20 20 true) 0 0 20 20).dirtyRect = ⟨0, 0, 20, 20⟩ ∧
    (createBackBuffer (markDirty (freshWindow 20 20 true) 0 0 20 20) 10 10
      (some (List.replicate 100 0))).bufferWidth = 10 ∧
    (createBackBuffer (markDirty (freshWindow 20 20 true) 0 0 20 20) 10 10
      (some (List.replicate 100 0))).bufferHeight = 10 ∧
    (createBackBuffer (markDirty (freshWindow 20 20 true) 0 0 20 20) 10 10
      (some (List.replicate 100 0))).hasDirty = true ∧
    (createBackBuffer (markDirty (freshWindow 20 20 true) 0 0 20 20) 10 10
      (some (List.replicate 100 0))).dirtyRect = ⟨0, 0, 20, 20⟩ ∧
    (present (createBackBuffer (markDirty (freshWindow 20 20 true) 0 0 20 20) 10 10
      (some (List.replicate 100 0)))).2 = some ⟨0, 0, 20, 20⟩ := by
  refine ⟨rfl, rfl, rfl, rfl, rfl, rfl⟩

/-- The method `createBackBuffer` never touches the damage state. -/
theorem createBackBuffer_sameDamage (s : Window) (width height : Int)
    (alloc : Option (List Nat)) : sameDamage s (createBackBuffer s width height alloc) := by
  unfold createBackBuffer sameDamage
  split <;> exact ⟨rfl, rfl, rfl⟩

/-- C18. Resize is idempotent: when a back buffer of the requested size exists
(`backBitmap` non-null), `createBackBuffer(w, h)` returns the state it was given,
whatever the allocator would return, so nothing is reallocated and the pixels, the
dimensions and the pending damage state are unchanged; and `createBackBuffer(w, h)`
twice in a row, the first allocation having succeeded, gives the same state as once. -/
theorem C18_createBackBuffer_is_idempotent (s : Window) :
    (s.backBitmap = true → ∀ alloc : Option (List Nat),
      createBackBuffer s s.bufferWidth s.bufferHeight alloc = s) ∧
    (∀ (w h : Int) (px : List Nat) (alloc2 : Option (List Nat)),
      createBackBuffer (createBackBuffer s w h (some px)) w h alloc2
        = createBackBuffer s w h (some px)) := by
  constructor
  · intro hb alloc
    simp [createBackBuffer, hb]
  · intro w h px alloc2
    by_cases g : w = s.bufferWidth ∧ h = s.bufferHeight ∧ s.backBitmap = true
    · have e : createBackBuffer s w h (some px) = s := by
        simp only [createBackBuffer, if_pos g]
      rw [e]
      simp only [createBackBuffer, if_pos g]
    · have e : createBackBuffer s w h (some px) =
          { s with pixelBuffer := px, backBitmap := true, bufferWidth := w, bufferHeight := h } := by
        simp only [createBackBuffer, if_neg g]
        rfl
      rw [e]
      simp [createBackBuffer]

theorem C18_createBackBuffer_witness :
    (∀ alloc : Option (List Nat),
      createBackBuffer (freshWindow 4 4 true) 4 4 alloc = freshWindow 4 4 true) ∧
    createBackBuffer (createBackBuffer (freshWindow 4 4 true) 2 3 (some (List.replicate 6 0)))
        2 3 none
      = createBackBuffer (freshWindow 4 4 true) 2 3 (some (List.replicate 6 0)) :=
  ⟨(C18_createBackBuffer_is_idempotent (freshWindow 4 4 true)).1 rfl,
   (C18_createBackBuffer_is_idempotent (freshWindow 4 4 true)).2 2 3 (List.replicate 6 0) none⟩

/-! ## The damage effect of the draw calls -/

theorem Draws.refl (s : Window) : Draws s s := ⟨s.pixelBuffer, Or.inl rfl⟩

theorem Draws.pixels (s : Window) (px : List Nat) : Draws s { s with pixelBuffer := px } :=
  ⟨px, Or.inl rfl⟩

theorem Draws.report (s : Window) (px : List Nat) (x y w h : Int) :
    Draws s (markDirty { s with pixelBuffer := px } x y w h) :=
  ⟨px, Or.inr ⟨x, y, w, h, rfl⟩⟩

theorem draws_of_map {s t : Window} {o : Option (List Nat)} {x y w h : Int}
    (e : o.map (fun px => markDirty { s with pixelBuffer := px } x y w h) = some t) :
    Draws s t := by
  obtain ⟨px, _, rfl⟩ := Option.map_eq_some'.1 e
  exact Draws.report s px x y w h

theorem writePoint_draws {s t : Window} {x y : Int} {c : color}
    (e : writePoint s x y c = some t) : Draws s t := by
  unfold writePoint at e
  split at e
  · cases e; exact Draws.refl s
  · exact draws_of_map e

theorem writeLine_draws {s t : Window} {fuel : Nat} {x1 y1 x2 y2 : Int} {c : color}
    (e : writeLine fuel s x1 y1 x2 y2 c = some t) : Draws s t := by
  unfold writeLine at e
  obtain ⟨st, _, rfl⟩ := Option.map_eq_some'.1 e
  dsimp only
  split
  · exact Draws.report s st.pixels _ _ _ _
  · exact Draws.pixels s st.pixels

theorem writeRect_draws {s t : Window} {x y w h : Int} {c : color}
    (e : writeRect s x y w h c = some t) : Draws s t := by
  unfold writeRect at e
  dsimp only at e
  split at e
  · cases e; exact Draws.refl s
  · exact draws_of_map e

theorem writePolygon_draws {F : Type} {ops : FloatOps F} {s t : Window} {pts : List POINT}
    {c : color} (e : writePolygon ops s pts c = some t) : Draws s t := by
  unfold writePolygon at e
  split at e
  · cases e; exact Draws.refl s
  · exact draws_of_map e

theorem writeChar_draws {font : List (List Nat)} {s t : Window} {x y : Int} {ch : Nat} {c : color}
    (e : writeChar font s x y ch c = some t) : Draws s t := by
  unfold writeChar at e
  split at e
  · cases e; exact Draws.refl s
  · exact draws_of_map e

theorem writeCircle_draws {draw : List Nat → Option (List Nat)} {s t : Window}
    {cx cy radius : Int} (e : writeCircle draw s cx cy radius = some t) : Draws s t :=
  draws_of_map e

theorem writeAlphaBitmap_draws {s t : Window} {src : List Nat} {srcW srcH dstX dstY : Int}
    {alpha : Nat} (e : writeAlphaBitmap s src srcW srcH dstX dstY alpha = some t) :
    Draws s t := by
  unfold writeAlphaBitmap at e
  dsimp only at e
  split at e
  · cases e; exact Draws.refl s
  · split at e
    · obtain ⟨px, _, rfl⟩ := Option.map_eq_some'.1 e
      exact Draws.pixels s px
    · exact draws_of_map e

theorem writeEllipse_draws {s t : Window} {fuel : Nat} {cx cy rx ry : Int} {c : color}
    (e : writeEllipse fuel s cx cy rx ry c = Outcome.done t) : Draws s t := by
  unfold writeEllipse at e
  dsimp only at e
  split at e
  · split at e
    · cases e
      exact Draws.report s _ _ _ _ _
    · cases e
    · cases e
  · cases e
  · cases e
theorem markDirty_of_allDirty (s : Window) (x y w h : Int) (hA : s.isAllDirty = true) :
    markDirty s x y w h = s := by
  simp [markDirty, hA]

theorem markDirty_of_untracked (s : Window) (x y w h : Int) (hT : s.useMarkDirty = false) :
    markDirty s x y w h = s := by
  unfold markDirty
  split
  · rfl
  · simp [hT]

theorem markDirty_rejects (s : Window) (x y w h : Int)
    (hr : (w ≤ 0 ∨ h ≤ 0) ∨ (x + w ≤ 0 ∨ y + h ≤ 0) ∨ (x ≥ s.bufferWidth ∨ y ≥ s.bufferHeight)) :
    markDirty s x y w h = s := by
  unfold markDirty
  split
  · rfl
  · split
    · rfl
    · split
      · rfl
      · rename_i hwh
        have g : x + w ≤ 0 ∨ y + h ≤ 0 ∨ x ≥ s.bufferWidth ∨ y ≥ s.bufferHeight := by omega
        simp only [if_pos g]

theorem draws_fields {s t : Window} (d : Draws s t) :
    t.bufferWidth = s.bufferWidth ∧ t.bufferHeight = s.bufferHeight ∧
      t.backBitmap = s.backBitmap ∧ t.isAllDirty = s.isAllDirty ∧
      t.useMarkDirty = s.useMarkDirty := by
  obtain ⟨px, rfl | ⟨x, y, w, h, rfl⟩⟩ := d
  · exact ⟨rfl, rfl, rfl, rfl, rfl⟩
  · have := markDirty_frame { s with pixelBuffer := px } x y w h
    exact ⟨this.2.1, this.2.2.1, this.2.2.2.1, this.2.2.2.2.1, this.2.2.2.2.2⟩

theorem draws_sameDamage_of_allDirty {s t : Window} (hA : s.isAllDirty = true) (d : Draws s t) :
    sameDamage s t := by
  obtain ⟨px, rfl | ⟨x, y, w, h, rfl⟩⟩ := d
  · exact ⟨rfl, rfl, rfl⟩
  · rw [markDirty_of_allDirty _ x y w h (show ({ s with pixelBuffer := px } : Window).isAllDirty
      = true from hA)]
    exact ⟨rfl, rfl, rfl⟩

theorem draws_sameDamage_of_untracked {s t : Window} (hT : s.useMarkDirty = false)
    (d : Draws s t) : sameDamage s t := by
  obtain ⟨px, rfl | ⟨x, y, w, h, rfl⟩⟩ := d
  · exact ⟨rfl, rfl, rfl⟩
  · rw [markDirty_of_untracked _ x y w h (show ({ s with pixelBuffer := px } : Window).useMarkDirty
      = false from hT)]
    exact ⟨rfl, rfl, rfl⟩

/-- A relation that is reflexive, transitive and holds along every `Draws` step
holds along `writeText`. -/
theorem writeText_rel (Q : Window → Window → Prop) (hrefl : ∀ s, Q s s)
    (htrans : ∀ s t u, Q s t → Q t u → Q s u) (hstep : ∀ s t, Draws s t → Q s t)
    (font : List (List Nat)) (c : color) (text : List Nat) :
    ∀ (s t : Window) (x y : Int), writeText font s x y text c = some t → Q s t := by
  induction text with
  | nil =>
    intro s t x y e
    simp only [writeText] at e
    cases e
    exact hrefl s
  | cons ch rest ih =>
    intro s t x y e
    simp only [writeText] at e
    obtain ⟨u, hu, ht⟩ := Option.bind_eq_some.1 e
    exact htrans s u t (hstep s u (writeChar_draws hu)) (ih u t (x + 8) y ht)

/-- A relation that is reflexive, transitive and holds along every `Draws` step
holds along every draw call. -/
theorem drawCall_rel (Q : Window → Window → Prop) (hrefl : ∀ s, Q s s)
    (htrans : ∀ s t u, Q s t → Q t u → Q s u) (hstep : ∀ s t, Draws s t → Q s t)
    {s t : Window} (d : DrawCall s t) : Q s t := by
  cases d with
  | writePoint x y c e => exact hstep s t (writePoint_draws e)
  | writeLine fuel x1 y1 x2 y2 c e => exact hstep s t (writeLine_draws e)
  | writeSquare x y scale c e => exact hstep s t (writeRect_draws e)
  | writeRect x y w h c e => exact hstep s t (writeRect_draws e)
  | writePolygon ops pts c e => exact hstep s t (writePolygon_draws e)
  | writeCircle draw cx cy radius e => exact hstep s t (writeCircle_draws e)
  | writeEllipse fuel cx cy rx ry c e => exact hstep s t (writeEllipse_draws e)
  | writeChar font x y ch c e => exact hstep s t (writeChar_draws e)
  | writeText font x y text c e => exact writeText_rel Q hrefl htrans hstep font c text s t x y e
  | writeAlphaBitmap src srcW srcH dstX dstY alpha e =>
    exact hstep s t (writeAlphaBitmap_draws e)

theorem drawCall_sameDamage_of_allDirty {s t : Window} (hA : s.isAllDirty = true)
    (d : DrawCall s t) : sameDamage s t :=
  (drawCall_rel (fun s t => s.isAllDirty = true → sameDamage s t)
    (fun _ _ => ⟨rfl, rfl, rfl⟩)
    (fun s t u h1 h2 hs => by
      have a := h1 hs
      have b := h2 (by rw [a.2.2]; exact hs)
      exact ⟨b.1.trans a.1, b.2.1.trans a.2.1, b.2.2.trans a.2.2⟩)
    (fun s t d hs => draws_sameDamage_of_allDirty hs d) d) hA

theorem drawCall_sameDamage_of_untracked {s t : Window} (hT : s.useMarkDirty = false)
    (d : DrawCall s t) : sameDamage s t :=
  (drawCall_rel (fun s t => s.useMarkDirty = false → sameDamage s t ∧ t.useMarkDirty = false)
    (fun _ hs => ⟨⟨rfl, rfl, rfl⟩, hs⟩)
    (fun s t u h1 h2 hs => by
      have a := h1 hs
      have b := h2 a.2
      exact ⟨⟨b.1.1.trans a.1.1, b.1.2.1.trans a.1.2.1, b.1.2.2.trans a.1.2.2⟩, b.2⟩)
    (fun s t d hs =>
      ⟨draws_sameDamage_of_untracked hs d, by rw [(draws_fields d).2.2.2.2]; exact hs⟩) d hT).1

/-! ## C19: reports while the damage state is full -/

/-- C19. While `isAllDirty` is true every report is ignored: `markDirty(x,y,w,h)`
returns the state it was given for all `x, y, w, h`, and every draw call other than
`writeBackground` (`writePoint`, `writeLine`, `writeSquare`, `writeRect`,
`writePolygon`, `writeCircle`, `writeEllipse`, `writeChar`, `writeText`,
`writeAlphaBitmap`) that returns leaves `dirtyRect`, `hasDirty` and `isAllDirty` as
they were, so the state stays full until `present` resets it. -/
theorem C19_reports_are_ignored_while_full (s : Window) (hA : s.isAllDirty = true) :
    (∀ x y w h : Int, markDirty s x y w h = s) ∧
    (∀ t : Window, DrawCall s t → sameDamage s t ∧ t.isAllDirty = true) := by
  refine ⟨fun x y w h => markDirty_of_allDirty s x y w h hA, fun t d => ?_⟩
  have h := drawCall_sameDamage_of_allDirty hA d
  exact ⟨h, by rw [h.2.2]; exact hA⟩

/-- C19 at the state a tracked 4x4 buffer is in after `writeBackground`. -/
theorem C19_reports_ignored_witness :
    (∀ x y w h : Int,
      markDirty { freshWindow 4 4 true with
        dirtyRect := ⟨0, 0, 4, 4⟩, hasDirty := true, isAllDirty := true } x y w h
      = { freshWindow 4 4 true with
        dirtyRect := ⟨0, 0, 4, 4⟩, hasDirty := true, isAllDirty := true }) ∧
    (∀ t : Window,
      DrawCall { freshWindow 4 4 true with
        dirtyRect := ⟨0, 0, 4, 4⟩, hasDirty := true, isAllDirty := true } t →
      sameDamage { freshWindow 4 4 true with
        dirtyRect := ⟨0, 0, 4, 4⟩, hasDirty := true, isAllDirty := true } t ∧
      t.isAllDirty = true) :=
  C19_reports_are_ignored_while_full
    { freshWindow 4 4 true with dirtyRect := ⟨0, 0, 4, 4⟩, hasDirty := true, isAllDirty := true }
    rfl

/-! ## C20: tracking disabled -/

/-- With tracking disabled, `markDirty` and every draw call other than
`writeBackground` leave the damage state unchanged, and `present` copies the whole
buffer and leaves the state unchanged. -/
theorem untracked_reports_are_no_ops (s : Window) (hT : s.useMarkDirty = false) :
    (∀ x y w h : Int, markDirty s x y w h = s) ∧
    (∀ t : Window, DrawCall s t → sameDamage s t) ∧
    present s = (s, some ⟨0, 0, s.bufferWidth, s.bufferHeight⟩) :=
  ⟨fun x y w h => markDirty_of_untracked s x y w h hT,
    fun _ d => drawCall_sameDamage_of_untracked hT d, by simp [present, hT]⟩

/-- C20 (evaluation of the code). In the initial state of a 4x4 buffer (tracking
disabled, `isAllDirty` false) `writeBackground(Red)` returns a state with
`isAllDirty` true: the assignment `isAllDirty = true` is outside the
`useMarkDirty` gate that `markDirty` applies, so the damage state changes while
tracking is disabled. -/
theorem C20_writeBackground_sets_the_full_flag_untracked :
    (freshWindow 4 4 false).useMarkDirty = false ∧
    (freshWindow 4 4 false).isAllDirty = false ∧
    ∃ t, writeBackground (freshWindow 4 4 false) Red = some t ∧ t.isAllDirty = true ∧
      t.hasDirty = false ∧ ¬ sameDamage (freshWindow 4 4 false) t := by
  refine ⟨rfl, rfl, { freshWindow 4 4 false with
      pixelBuffer := List.replicate 16 (packColor Red), isAllDirty := true },
    by decide, rfl, rfl, ?_⟩
  intro h
  exact absurd h.2.2 (by decide)

/-! ## C16: the tracked rectangle stays inside the buffer -/

theorem markDirty_clamped (s : Window) (x y w h : Int) (hW : 0 < s.bufferWidth)
    (hH : 0 < s.bufferHeight) (hI : s.hasDirty = true → dirtyRectClamped s)
    (hD : (markDirty s x y w h).hasDirty = true) : dirtyRectClamped (markDirty s x y w h) := by
  by_cases r : ((w ≤ 0 ∨ h ≤ 0) ∨ (x + w ≤ 0 ∨ y + h ≤ 0) ∨
      (x ≥ s.bufferWidth ∨ y ≥ s.bufferHeight)) ∨ s.isAllDirty = true ∨ s.useMarkDirty = false
  · have e : markDirty s x y w h = s := by
      rcases r with r | r | r
      · exact markDirty_rejects s x y w h r
      · exact markDirty_of_allDirty s x y w h r
      · exact markDirty_of_untracked s x y w h r
    rw [e] at hD ⊢
    exact hI hD
  · have hA : s.isAllDirty = false := by
      cases h1 : s.isAllDirty
      · rfl
      · exact absurd (Or.inr (Or.inl h1)) r
    have hT : s.useMarkDirty = true := by
      cases h1 : s.useMarkDirty
      · exact absurd (Or.inr (Or.inr h1)) r
      · rfl
    have c1 : ¬ (w ≤ 0 ∨ h ≤ 0) := by omega
    have c2 : ¬ (x + w ≤ 0 ∨ y + h ≤ 0 ∨ x ≥ s.bufferWidth ∨ y ≥ s.bufferHeight) := by omega
    cases hd : s.hasDirty
    · simp only [markDirty, hA, hT, hd, c1, c2, dirtyRectClamped, Bool.false_eq_true, if_false,
        Bool.not_true, Bool.not_false, if_true]
      refine ⟨⟨?_, ?_, ?_⟩, ?_, ?_, ?_⟩ <;> split_ifs <;> omega
    · obtain ⟨⟨l0, l1, l2⟩, t0, t1, t2⟩ := hI hd
      simp only [markDirty, hA, hT, hd, c1, c2, dirtyRectClamped, Bool.false_eq_true, if_false,
        Bool.not_true, Bool.not_false, if_true]
      refine ⟨⟨?_, ?_, ?_⟩, ?_, ?_, ?_⟩ <;> split_ifs <;> omega

theorem draws_clamped {s t : Window} (d : Draws s t) (hW : 0 < s.bufferWidth)
    (hH : 0 < s.bufferHeight) (hI : s.hasDirty = true → dirtyRectClamped s)
    (hD : t.hasDirty = true) : dirtyRectClamped t := by
  obtain ⟨px, rfl | ⟨x, y, w, h, rfl⟩⟩ := d
  · exact hI hD
  · exact markDirty_clamped { s with pixelBuffer := px } x y w h hW hH hI hD

theorem drawCall_clamped {s t : Window} (d : DrawCall s t) :
    (t.bufferWidth = s.bufferWidth ∧ t.bufferHeight = s.bufferHeight) ∧
      (0 < s.bufferWidth → 0 < s.bufferHeight → (s.hasDirty = true → dirtyRectClamped s) →
        t.hasDirty = true → dirtyRectClamped t) :=
  drawCall_rel
    (fun s t => (t.bufferWidth = s.bufferWidth ∧ t.bufferHeight = s.bufferHeight) ∧
      (0 < s.bufferWidth → 0 < s.bufferHeight → (s.hasDirty = true → dirtyRectClamped s) →
        t.hasDirty = true → dirtyRectClamped t))
    (fun _ => ⟨⟨rfl, rfl⟩, fun _ _ hI hD => hI hD⟩)
    (fun s t u h1 h2 =>
      ⟨⟨h2.1.1.trans h1.1.1, h2.1.2.trans h1.1.2⟩, fun hW hH hI hD =>
        h2.2 (by rw [h1.1.1]; exact hW) (by rw [h1.1.2]; exact hH) (h1.2 hW hH hI) hD⟩)
    (fun s t d =>
      ⟨⟨(draws_fields d).1, (draws_fields d).2.1⟩, fun hW hH hI hD =>
        draws_clamped d hW hH hI hD⟩) d

theorem reachable_clamped (W H : Int) (hW : 0 < W) (hH : 0 < H) (s : Window)
    (hr : Reachable W H s) :
    (s.bufferWidth = W ∧ s.bufferHeight = H) ∧ (s.hasDirty = true → dirtyRectClamped s) := by
  induction hr with
  | init px bitmap => exact ⟨⟨rfl, rfl⟩, fun h => Bool.noConfusion h⟩
  | setMarkDirty set _ ih => exact ⟨ih.1, fun h => ih.2 h⟩
  | @markDirty s x y w h _ ih =>
    have hfr := markDirty_frame s x y w h
    exact ⟨⟨hfr.2.1.trans ih.1.1, hfr.2.2.1.trans ih.1.2⟩, fun hD =>
      markDirty_clamped s x y w h (by rw [ih.1.1]; exact hW) (by rw [ih.1.2]; exact hH) ih.2 hD⟩
  | @present s _ ih =>
    unfold present
    split
    · split
      · exact ih
      · exact ⟨ih.1, fun h => absurd h (by simp)⟩
    · exact ih
  | @writeBackground s t c _ e ih =>
    unfold writeBackground at e
    obtain ⟨px, _, rfl⟩ := Option.map_eq_some'.1 e
    have hfr := markDirty_frame { s with pixelBuffer := px } 0 0 s.bufferWidth s.bufferHeight
    exact ⟨⟨hfr.2.1.trans ih.1.1, hfr.2.2.1.trans ih.1.2⟩, fun hD =>
      markDirty_clamped { s with pixelBuffer := px } 0 0 s.bufferWidth s.bufferHeight
        (by rw [ih.1.1]; exact hW) (by rw [ih.1.2]; exact hH) ih.2 hD⟩
  | @draw s t _ d ih =>
    have h := drawCall_clamped d
    exact ⟨⟨h.1.1.trans ih.1.1, h.1.2.trans ih.1.2⟩, fun hD =>
      h.2 (by rw [ih.1.1]; exact hW) (by rw [ih.1.2]; exact hH) ih.2 hD⟩

/-- C16. For fixed buffer dimensions `W > 0`, `H > 0`, in every state reachable
from the initial state by draw calls, `markDirty` reports, `setMarkDirty` toggles
and `present` calls, the dimensions are `W x H` and, whenever `hasDirty` is true,
the tracked rectangle satisfies `0 <= left < right <= W` and
`0 <= top < bottom <= H`; and a report with `w <= 0` or `h <= 0` or lying entirely
off the buffer returns the state it was given. -/
theorem C16_dirty_rect_is_always_clamped (W H : Int) (hW : 0 < W) (hH : 0 < H) (s : Window)
    (hr : Reachable W H s) :
    (s.hasDirty = true →
      (0 ≤ s.dirtyRect.left ∧ s.dirtyRect.left < s.dirtyRect.right ∧ s.dirtyRect.right ≤ W) ∧
      (0 ≤ s.dirtyRect.top ∧ s.dirtyRect.top < s.dirtyRect.bottom ∧ s.dirtyRect.bottom ≤ H)) ∧
    (∀ x y w h : Int,
      (w ≤ 0 ∨ h ≤ 0) ∨ (x + w ≤ 0 ∨ y + h ≤ 0) ∨ (x ≥ W ∨ y ≥ H) →
      markDirty s x y w h = s) := by
  obtain ⟨⟨eW, eH⟩, hI⟩ := reachable_clamped W H hW hH s hr
  constructor
  · intro hD
    have := hI hD
    unfold dirtyRectClamped at this
    rw [eW, eH] at this
    exact this
  · intro x y w h hrej
    exact markDirty_rejects s x y w h (by rw [eW, eH]; exact hrej)

/-- C16 at the state reached on a 4x4 buffer by `setMarkDirty(true)` and
`markDirty(-1, 2, 3, 9)`. -/
theorem C16_dirty_rect_clamped_witness :
    ((markDirty (setMarkDirty ⟨List.replicate 16 0, 4, 4, true, ⟨0, 0, 0, 0⟩, false, false,
        false⟩ true) (-1) 2 3 9).hasDirty = true →
      (0 ≤ (markDirty (setMarkDirty ⟨List.replicate 16 0, 4, 4, true, ⟨0, 0, 0, 0⟩, false,
          false, false⟩ true) (-1) 2 3 9).dirtyRect.left ∧
        (markDirty (setMarkDirty ⟨List.replicate 16 0, 4, 4, true, ⟨0, 0, 0, 0⟩, false,
          false, false⟩ true) (-1) 2 3 9).dirtyRect.left <
        (markDirty (setMarkDirty ⟨List.replicate 16 0, 4, 4, true, ⟨0, 0, 0, 0⟩, false,
          false, false⟩ true) (-1) 2 3 9).dirtyRect.right ∧
        (markDirty (setMarkDirty ⟨List.replicate 16 0, 4, 4, true, ⟨0, 0, 0, 0⟩, false,
          false, false⟩ true) (-1) 2 3 9).dirtyRect.right ≤ 4) ∧
      (0 ≤ (markDirty (setMarkDirty ⟨List.replicate 16 0, 4, 4, true, ⟨0, 0, 0, 0⟩, false,
          false, false⟩ true) (-1) 2 3 9).dirtyRect.top ∧
        (markDirty (setMarkDirty ⟨List.replicate 16 0, 4, 4, true, ⟨0, 0, 0, 0⟩, false,
          false, false⟩ true) (-1) 2 3 9).dirtyRect.top <
        (markDirty (setMarkDirty ⟨List.replicate 16 0, 4, 4, true, ⟨0, 0, 0, 0⟩, false,
          false, false⟩ true) (-1) 2 3 9).dirtyRect.bottom ∧
        (markDirty (setMarkDirty ⟨List.replicate 16 0, 4, 4, true, ⟨0, 0, 0, 0⟩, false,
          false, false⟩ true) (-1) 2 3 9).dirtyRect.bottom ≤ 4)) ∧
    (∀ x y w h : Int,
      (w ≤ 0 ∨ h ≤ 0) ∨ (x + w ≤ 0 ∨ y + h ≤ 0) ∨ (x ≥ 4 ∨ y ≥ 4) →
      markDirty (markDirty (setMarkDirty ⟨List.replicate 16 0, 4, 4, true, ⟨0, 0, 0, 0⟩, false,
          false, false⟩ true) (-1) 2 3 9) x y w h
        = markDirty (setMarkDirty ⟨List.replicate 16 0, 4, 4, true, ⟨0, 0, 0, 0⟩, false,
          false, false⟩ true) (-1) 2 3 9) :=
  C16_dirty_rect_is_always_clamped 4 4 (by decide) (by decide) _
    (Reachable.markDirty (-1) 2 3 9
      (Reachable.setMarkDirty true (Reachable.init (List.replicate 16 0) true)))

/-! ## Painted pixel sets -/

theorem index_inj (W px py x y : Int) (hp0 : 0 ≤ px) (hp1 : px < W) (hx0 : 0 ≤ x) (hx1 : x < W) :
    py * W + px = y * W + x ↔ (px = x ∧ py = y) := by
  have key := row_index_iff W y py px x (x + 1) hp0 hp1 hx0 (by omega)
  constructor
  · intro e
    have := key.1 (by omega)
    omega
  · rintro ⟨rfl, rfl⟩
    rfl

theorem painted_refl (W H : Int) (m : List Nat) (v : Nat) :
    Painted W H m m (fun _ _ => False) v :=
  ⟨rfl, fun _ _ _ _ _ _ => ⟨fun h => h.elim, fun _ => rfl⟩⟩

theorem Painted.congr {W H : Int} {m t : List Nat} {P Q : Int → Int → Prop} {v : Nat}
    (h : Painted W H m t P v)
    (hPQ : ∀ px py, 0 ≤ px → px < W → 0 ≤ py → py < H → (P px py ↔ Q px py)) :
    Painted W H m t Q v :=
  ⟨h.1, fun px py a b c d =>
    ⟨fun q => (h.2 px py a b c d).1 ((hPQ px py a b c d).2 q),
     fun nq => (h.2 px py a b c d).2 (fun p => nq ((hPQ px py a b c d).1 p))⟩⟩

theorem Painted.store {W H : Int} {m t : List Nat} {P : Int → Int → Prop} {v : Nat}
    (h : Painted W H m t P v) (hlen : (m.length : Int) = W * H) (x y : Int)
    (hx0 : 0 ≤ x) (hx1 : x < W) (hy0 : 0 ≤ y) (hy1 : y < H) :
    ∃ u, store t (y * W + x) v = some u ∧
      Painted W H m u (fun px py => P px py ∨ (px = x ∧ py = y)) v := by
  have hb := index_bounds W H x y hx0 hx1 hy0 hy1
  obtain ⟨u, hu, hul, hg⟩ := store_spec t (y * W + x) v hb.1 (by rw [h.1]; omega)
  refine ⟨u, hu, by rw [hul, h.1], fun px py a b c d => ?_⟩
  rw [hg]
  have hi := index_inj W px py x y a b hx0 hx1
  by_cases e : py * W + px = y * W + x
  · rw [if_pos e]
    exact ⟨fun _ => rfl, fun n => absurd (Or.inr (hi.1 e)) n⟩
  · rw [if_neg e]
    constructor
    · rintro (p | q)
      · exact (h.2 px py a b c d).1 p
      · exact absurd (hi.2 q) e
    · intro n
      exact (h.2 px py a b c d).2 (fun p => n (Or.inl p))

/-! ## The glyph loops of `writeChar` -/

theorem and_one_shiftLeft_ne_zero (bits k : Nat) :
    bits &&& (1 <<< k) ≠ 0 ↔ bits.testBit k = true := by
  rw [Nat.one_shiftLeft]
  constructor
  · intro h
    obtain ⟨i, hi⟩ := Nat.ne_zero_implies_bit_true h
    rw [Nat.testBit_and, Nat.testBit_two_pow] at hi
    simp only [Bool.and_eq_true, decide_eq_true_eq] at hi
    rw [hi.2]
    exact hi.1
  · intro h e
    have : (bits &&& 2 ^ k).testBit k = true := by
      rw [Nat.testBit_and, Nat.testBit_two_pow_self, h]
      rfl
    rw [e, Nat.zero_testBit] at this
    exact Bool.noConfusion this

theorem unsigned_lt_iff (x n : Int) (hx : isInt x) (h0 : 0 ≤ n) (h1 : n < 2 ^ 31) :
    toUnsigned x < toUnsigned n ↔ (0 ≤ x ∧ x < n) := by
  unfold isInt at hx
  unfold toUnsigned
  omega

theorem glyphRow_of_fontOk (font : List (List Nat)) (ch row : Nat) (hf : fontOk font)
    (hch : ch ≤ 127) (hrow : row < 8) : ∃ bits, glyphRow font ch row = some bits := by
  obtain ⟨h128, h8⟩ := hf
  have hlt : ch < font.length := by omega
  have hg := h8 font[ch] (List.getElem_mem hlt)
  have hlt2 : row < font[ch].length := by omega
  exact ⟨font[ch][row] % 256, by
    simp [glyphRow, List.getElem?_eq_getElem hlt, List.getElem?_eq_getElem hlt2]⟩

/-- The column loop of `writeChar` on glyph row `r` with row byte `bits`. -/
theorem writeChar_row_spec (s : Window) (hwf : s.wf) (x y r : Int) (bits v : Nat)
    (hx : isInt x ∧ isInt (x + 7)) (hy : isInt (y + r)) (m u : List Nat)
    (hlen : (m.length : Int) = s.bufferWidth * s.bufferHeight) (P : Int → Int → Prop)
    (hP : Painted s.bufferWidth s.bufferHeight m u P v) :
    ∃ w, forLoop
        (fun col m =>
          if bits &&& (1 <<< col.toNat) ≠ 0 then
            if toUnsigned (x + col) < toUnsigned s.bufferWidth ∧
                toUnsigned (y + r) < toUnsigned s.bufferHeight then
              store m ((y + r) * s.bufferWidth + (x + col)) v
            else some m
          else some m)
        8 8 0 u = some w ∧
      Painted s.bufferWidth s.bufferHeight m w
        (fun px py => P px py ∨
          (py = y + r ∧ (0 ≤ px - x ∧ px - x < 8) ∧ bits.testBit (px - x).toNat = true)) v := by
  obtain ⟨hw, hh, hw1, hh1, _, _⟩ := hwf
  obtain ⟨w, hw', _, hI⟩ :=
    forLoop_inv
      (fun col m =>
        if bits &&& (1 <<< col.toNat) ≠ 0 then
          if toUnsigned (x + col) < toUnsigned s.bufferWidth ∧
              toUnsigned (y + r) < toUnsigned s.bufferHeight then
            store m ((y + r) * s.bufferWidth + (x + col)) v
          else some m
        else some m)
      8
      (fun k w => 0 ≤ k ∧ Painted s.bufferWidth s.bufferHeight m w
        (fun px py => P px py ∨
          (py = y + r ∧ (0 ≤ px - x ∧ px - x < k) ∧ bits.testBit (px - x).toNat = true)) v)
      (fun k w hk ⟨hk0, hI⟩ => by
        have hxk : isInt (x + k) := by
          unfold isInt at hx ⊢
          omega
        have ux := unsigned_lt_iff (x + k) s.bufferWidth hxk hw hw1
        have uy := unsigned_lt_iff (y + r) s.bufferHeight hy hh hh1
        have hbit := and_one_shiftLeft_ne_zero bits k.toNat
        by_cases cb : bits &&& (1 <<< k.toNat) ≠ 0
        · by_cases cg : toUnsigned (x + k) < toUnsigned s.bufferWidth ∧
              toUnsigned (y + r) < toUnsigned s.bufferHeight
          · have hin := ux.1 cg.1
            have hin2 := uy.1 cg.2
            obtain ⟨w2, hw2, hp2⟩ := hI.store hlen (x + k) (y + r) hin.1 hin.2 hin2.1 hin2.2
            refine ⟨w2, by simp only [if_pos cb, if_pos cg, hw2], by omega, hp2.congr ?_⟩
            intro px py _ _ _ _
            constructor
            · rintro ((p | ⟨e, a, t⟩) | ⟨e1, e2⟩)
              · exact Or.inl p
              · exact Or.inr ⟨e, ⟨a.1, by omega⟩, t⟩
              · refine Or.inr ⟨e2, ⟨by omega, by omega⟩, ?_⟩
                have : (px - x).toNat = k.toNat := by omega
                rw [this]
                exact hbit.1 cb
            · rintro (p | ⟨e, a, t⟩)
              · exact Or.inl (Or.inl p)
              · by_cases ek : px - x = k
                · exact Or.inr ⟨by omega, e⟩
                · exact Or.inl (Or.inr ⟨e, ⟨a.1, by omega⟩, t⟩)
          · refine ⟨w, by simp only [if_pos cb, if_neg cg], by omega, hI.congr ?_⟩
            intro px py a1 a2 b1 b2
            constructor
            · rintro (p | ⟨e, a, t⟩)
              · exact Or.inl p
              · exact Or.inr ⟨e, ⟨a.1, by omega⟩, t⟩
            · rintro (p | ⟨e, a, t⟩)
              · exact Or.inl p
              · by_cases ek : px - x = k
                · exfalso
                  apply cg
                  exact ⟨ux.2 ⟨by omega, by omega⟩, uy.2 ⟨by omega, by omega⟩⟩
                · exact Or.inr ⟨e, ⟨a.1, by omega⟩, t⟩
        · refine ⟨w, by simp only [if_neg cb], by omega, hI.congr ?_⟩
          intro px py _ _ _ _
          constructor
          · rintro (p | ⟨e, a, t⟩)
            · exact Or.inl p
            · exact Or.inr ⟨e, ⟨a.1, by omega⟩, t⟩
          · rintro (p | ⟨e, a, t⟩)
            · exact Or.inl p
            · by_cases ek : px - x = k
              · exfalso
                have : (px - x).toNat = k.toNat := by omega
                rw [this] at t
                exact cb (hbit.2 t)
              · exact Or.inr ⟨e, ⟨a.1, by omega⟩, t⟩)
      8 0 u (by omega)
      ⟨le_refl 0, hP.congr (fun px py _ _ _ _ =>
        ⟨fun p => Or.inl p, fun q => q.elim id (fun ⟨_, a, _⟩ => by omega)⟩)⟩
  exact ⟨w, hw', hI⟩

theorem writeChar_spec (font : List (List Nat)) (s : Window) (x y : Int) (ch : Nat) (c : color)
    (hwf : s.wf) (hf : fontOk font) (hch : ch ≤ 127) (hx : isInt x ∧ isInt (x + 7))
    (hy : isInt y ∧ isInt (y + 7)) :
    ∃ m, writeChar font s x y ch c = some (markDirty { s with pixelBuffer := m } x y 8 8) ∧
      Painted s.bufferWidth s.bufferHeight s.pixelBuffer m (glyphCovers font ch x y)
        (packColor c) := by
  have hlen := hwf.2.2.2.2.2
  obtain ⟨m, hm, _, hI⟩ :=
    forLoop_inv
      (fun row buf =>
        (glyphRow font ch row.toNat).bind fun bits =>
          forLoop
            (fun col m =>
              if bits &&& (1 <<< col.toNat) ≠ 0 then
                if toUnsigned (x + col) < toUnsigned s.bufferWidth ∧
                    toUnsigned (y + row) < toUnsigned s.bufferHeight then
                  store m ((y + row) * s.bufferWidth + (x + col)) (packColor c)
                else some m
              else some m)
            8 8 0 buf)
      8
      (fun r w => 0 ≤ r ∧ Painted s.bufferWidth s.bufferHeight s.pixelBuffer w
        (fun px py => (0 ≤ px - x ∧ px - x < 8) ∧ (0 ≤ py - y ∧ py - y < r) ∧
          ∃ bits, glyphRow font ch (py - y).toNat = some bits ∧
            bits.testBit (px - x).toNat = true) (packColor c))
      (fun r w hr ⟨hr0, hI⟩ => by
        obtain ⟨bits, hb⟩ := glyphRow_of_fontOk font ch r.toNat hf hch (by omega)
        have hyr : isInt (y + r) := by
          unfold isInt at hy ⊢
          omega
        obtain ⟨w2, hw2, hp2⟩ :=
          writeChar_row_spec s hwf x y r bits (packColor c) hx hyr s.pixelBuffer w hlen _ hI
        refine ⟨w2, by simp only [hb, Option.some_bind, hw2], by omega, hp2.congr ?_⟩
        intro px py _ _ _ _
        constructor
        · rintro (⟨a, b, t⟩ | ⟨e, a, t⟩)
          · exact ⟨a, ⟨b.1, by omega⟩, t⟩
          · refine ⟨a, ⟨by omega, by omega⟩, bits, ?_, t⟩
            have : (py - y).toNat = r.toNat := by omega
            rw [this]
            exact hb
        · rintro ⟨a, b, bits2, hb2, t⟩
          by_cases er : py - y = r
          · right
            have : (py - y).toNat = r.toNat := by omega
            rw [this, hb] at hb2
            cases hb2
            exact ⟨by omega, a, t⟩
          · left
            exact ⟨a, ⟨b.1, by omega⟩, bits2, hb2, t⟩)
      8 0 s.pixelBuffer (by omega)
      ⟨le_refl 0, (painted_refl _ _ _ _).congr (fun px py _ _ _ _ =>
        ⟨fun p => p.elim, fun ⟨_, b, _⟩ => by omega⟩)⟩
  refine ⟨m, ?_, hI⟩
  have hc : ¬ ch > 127 := by omega
  simp only [writeChar, if_neg hc]
  rw [hm]
  rfl

/-! ## C13: `writeChar` -/

/-- C13. For a glyph table of 128 entries of 8 row bytes, a character code
`ch <= 127`, a buffer satisfying the framebuffer invariant and a cell whose
coordinates `x .. x+7`, `y .. y+7` are `int` values: `writeChar` returns; a buffer
pixel `(px, py)` holds the packed color when it is `(x+col, y+row)` with
`0 <= row, col < 8` and bit `col` of row byte `row` of glyph `ch` set, and keeps its
previous value otherwise; and with tracking enabled from the empty damage state the
tracked rectangle is the cell `{x, y, x+8, y+8}` clamped to the buffer when the cell
meets the buffer, and nothing is tracked when it does not. -/
theorem C13_writeChar_draws_the_glyph_cell (font : List (List Nat)) (s : Window) (x y : Int)
    (ch : Nat) (c : color) (hwf : s.wf) (hf : fontOk font) (hch : ch ≤ 127)
    (hx : isInt x ∧ isInt (x + 7)) (hy : isInt y ∧ isInt (y + 7)) :
    ∃ t, writeChar font s x y ch c = some t ∧
      t.pixelBuffer.length = s.pixelBuffer.length ∧
      (∀ px py, 0 ≤ px → px < s.bufferWidth → 0 ≤ py → py < s.bufferHeight →
        (glyphCovers font ch x y px py →
          load t.pixelBuffer (py * s.bufferWidth + px) = some (packColor c)) ∧
        (¬ glyphCovers font ch x y px py →
          load t.pixelBuffer (py * s.bufferWidth + px) =
            load s.pixelBuffer (py * s.bufferWidth + px))) ∧
      (s.useMarkDirty = true → s.hasDirty = false → s.isAllDirty = false →
        ((x < s.bufferWidth ∧ y < s.bufferHeight) ∧ (0 < x + 8 ∧ 0 < y + 8) →
          t.hasDirty = true ∧
          t.dirtyRect = clampToBuffer s.bufferWidth s.bufferHeight ⟨x, y, x + 8, y + 8⟩) ∧
        (¬ ((x < s.bufferWidth ∧ y < s.bufferHeight) ∧ (0 < x + 8 ∧ 0 < y + 8)) →
          sameDamage s t)) := by
  obtain ⟨m, hm, hp⟩ := writeChar_spec font s x y ch c hwf hf hch hx hy
  have hfr := markDirty_frame { s with pixelBuffer := m } x y 8 8
  refine ⟨_, hm, by rw [hfr.1]; exact hp.1, ?_, ?_⟩
  · intro px py a b c' d
    rw [hfr.1]
    exact hp.2 px py a b c' d
  · intro hT hE hA
    constructor
    · intro hhit
      have e := markDirty_first { s with pixelBuffer := m } ⟨x, y, 8, 8⟩ hT hE hA
        (by simp only [Report.hits]; omega)
      simp only at e
      rw [e]
      exact ⟨rfl, rfl⟩
    · intro hmiss
      rw [markDirty_rejects { s with pixelBuffer := m } x y 8 8 (by
        show ((8 : Int) ≤ 0 ∨ (8 : Int) ≤ 0) ∨ (x + 8 ≤ 0 ∨ y + 8 ≤ 0) ∨
          (x ≥ s.bufferWidth ∨ y ≥ s.bufferHeight)
        omega)]
      exact ⟨rfl, rfl, rfl⟩

/-- C13 for the character code 65 drawn at `(-3, 2)` on a tracked 4x4 buffer, with a
table whose glyphs all have the rows `18 3C 66 7E 66 66 66 00`. -/
theorem C13_writeChar_witness :
    ∃ t, writeChar (List.replicate 128 [24, 60, 102, 126, 102, 102, 102, 0])
        (freshWindow 4 4 true) (-3) 2 65 Red = some t ∧
      t.pixelBuffer.length = (freshWindow 4 4 true).pixelBuffer.length ∧
      (∀ px py, 0 ≤ px → px < (freshWindow 4 4 true).bufferWidth → 0 ≤ py →
        py < (freshWindow 4 4 true).bufferHeight →
        (glyphCovers (List.replicate 128 [24, 60, 102, 126, 102, 102, 102, 0]) 65 (-3) 2 px py →
          load t.pixelBuffer (py * (freshWindow 4 4 true).bufferWidth + px)
            = some (packColor Red)) ∧
        (¬ glyphCovers (List.replicate 128 [24, 60, 102, 126, 102, 102, 102, 0]) 65 (-3) 2 px py →
          load t.pixelBuffer (py * (freshWindow 4 4 true).bufferWidth + px) =
            load (freshWindow 4 4 true).pixelBuffer
              (py * (freshWindow 4 4 true).bufferWidth + px))) ∧
      ((freshWindow 4 4 true).useMarkDirty = true → (freshWindow 4 4 true).hasDirty = false →
        (freshWindow 4 4 true).isAllDirty = false →
        (((-3 : Int) < (freshWindow 4 4 true).bufferWidth ∧
            (2 : Int) < (freshWindow 4 4 true).bufferHeight) ∧
            ((0 : Int) < -3 + 8 ∧ (0 : Int) < 2 + 8) →
          t.hasDirty = true ∧
          t.dirtyRect = clampToBuffer (freshWindow 4 4 true).bufferWidth
            (freshWindow 4 4 true).bufferHeight ⟨-3, 2, -3 + 8, 2 + 8⟩) ∧
        (¬ (((-3 : Int) < (freshWindow 4 4 true).bufferWidth ∧
            (2 : Int) < (freshWindow 4 4 true).bufferHeight) ∧
            ((0 : Int) < -3 + 8 ∧ (0 : Int) < 2 + 8)) →
          sameDamage (freshWindow 4 4 true) t)) :=
  C13_writeChar_draws_the_glyph_cell (List.replicate 128 [24, 60, 102, 126, 102, 102, 102, 0])
    (freshWindow 4 4 true) (-3) 2 65 Red
    (freshWindow_wf 4 4 true (by decide) (by decide) (by decide))
    ⟨List.length_replicate _ _, fun g hg => by rw [List.eq_of_mem_replicate hg]; rfl⟩
    (by decide) ⟨by unfold isInt; decide, by unfold isInt; decide⟩
    ⟨by unfold isInt; decide, by unfold isInt; decide⟩

/-! ## The scanline fill of `writePolygon` -/

theorem fillSpan_spec {W H : Int} {m u : List Nat} {P : Int → Int → Prop} {v : Nat}
    (hP : Painted W H m u P v) (hlen : (m.length : Int) = W * H) (y xL xR : Int)
    (hy0 : 0 ≤ y) (hy1 : y < H) (hL : 0 ≤ xL) (hR : xR < W) :
    ∃ w, fillSpan W y xL xR v u = some w ∧
      Painted W H m w (fun px py => P px py ∨ (py = y ∧ xL ≤ px ∧ px ≤ xR)) v := by
  obtain ⟨w, hw, _, hI⟩ :=
    forLoop_inv (fun x m => store m (y * W + x) v) (xR + 1)
      (fun k w => xL ≤ k ∧
        Painted W H m w (fun px py => P px py ∨ (py = y ∧ xL ≤ px ∧ px < k)) v)
      (fun k w hk ⟨hk0, hI⟩ => by
        obtain ⟨w2, hw2, hp2⟩ := hI.store hlen k y (by omega) (by omega) hy0 hy1
        refine ⟨w2, hw2, by omega, hp2.congr ?_⟩
        intro px py _ _ _ _
        constructor
        · rintro ((p | ⟨e, a, b⟩) | ⟨e1, e2⟩)
          · exact Or.inl p
          · exact Or.inr ⟨e, a, by omega⟩
          · exact Or.inr ⟨e2, by omega, by omega⟩
        · rintro (p | ⟨e, a, b⟩)
          · exact Or.inl (Or.inl p)
          · by_cases ek : px = k
            · exact Or.inr ⟨ek, e⟩
            · exact Or.inl (Or.inr ⟨e, a, by omega⟩))
      (xR + 1 - xL).toNat xL u (by omega)
      ⟨le_refl _, hP.congr (fun px py _ _ _ _ =>
        ⟨fun p => Or.inl p, fun q => q.elim id (fun ⟨_, a, b⟩ => by omega)⟩)⟩
  refine ⟨w, hw, hI.congr ?_⟩
  intro px py _ _ _ _
  constructor
  · rintro (p | ⟨e, a, b⟩)
    · exact Or.inl p
    · exact Or.inr ⟨e, a, by omega⟩
  · rintro (p | ⟨e, a, b⟩)
    · exact Or.inl p
    · exact Or.inr ⟨e, a, by omega⟩

theorem fillPairs_spec {W H : Int} {m : List Nat} {v : Nat} (hlen : (m.length : Int) = W * H)
    (y : Int) :
    ∀ (n : Nat) (xs : List Int), xs.length ≤ n → ∀ (u : List Nat) (P : Int → Int → Prop),
      Painted W H m u P v →
      ∃ w, fillPairs W H y v xs u = some w ∧
        Painted W H m w (fun px py => P px py ∨ (py = y ∧ inSpans W xs px)) v := by
  intro n
  induction n with
  | zero =>
    intro xs hn u P hP
    have : xs = [] := List.length_eq_zero.1 (by omega)
    subst this
    exact ⟨u, rfl, hP.congr (fun px py _ _ _ _ =>
      ⟨fun p => Or.inl p, fun q => q.elim id (fun ⟨_, a⟩ => a.elim)⟩)⟩
  | succ n ih =>
    intro xs hn u P hP
    match xs, hn with
    | [], _ =>
      exact ⟨u, rfl, hP.congr (fun px py _ _ _ _ =>
        ⟨fun p => Or.inl p, fun q => q.elim id (fun ⟨_, a⟩ => a.elim)⟩)⟩
    | [a], _ =>
      exact ⟨u, rfl, hP.congr (fun px py _ _ _ _ =>
        ⟨fun p => Or.inl p, fun q => q.elim id (fun ⟨_, a⟩ => a.elim)⟩)⟩
    | a :: b :: rest, hn =>
      have hrest : rest.length ≤ n := by
        simp only [List.length_cons] at hn
        omega
      by_cases g : y ≥ 0 ∧ y < H
      · obtain ⟨w1, hw1, hp1⟩ := fillSpan_spec hP hlen y (fastMax 0 a) (fastMin (W - 1) b)
          g.1 g.2 (by rw [fastMax_eq]; omega) (by rw [fastMin_eq]; omega)
        obtain ⟨w2, hw2, hp2⟩ := ih rest hrest w1 _ hp1
        refine ⟨w2, by simp only [fillPairs, if_pos g, hw1, Option.some_bind, hw2], hp2.congr ?_⟩
        intro px py _ _ _ _
        rw [fastMax_eq, fastMin_eq]
        constructor
        · rintro ((p | ⟨e, q⟩) | ⟨e, q⟩)
          · exact Or.inl p
          · exact Or.inr ⟨e, Or.inl q⟩
          · exact Or.inr ⟨e, Or.inr q⟩
        · rintro (p | ⟨e, q | q⟩)
          · exact Or.inl (Or.inl p)
          · exact Or.inl (Or.inr ⟨e, q⟩)
          · exact Or.inr ⟨e, q⟩
      · obtain ⟨w2, hw2, hp2⟩ := ih rest hrest u _ hP
        refine ⟨w2, by simp only [fillPairs, if_neg g, Option.some_bind, hw2], hp2.congr ?_⟩
        intro px py _ _ c d
        constructor
        · rintro (p | ⟨e, q⟩)
          · exact Or.inl p
          · exact Or.inr ⟨e, Or.inr q⟩
        · rintro (p | ⟨e, q⟩)
          · exact Or.inl p
          · exact absurd (show y ≥ 0 ∧ y < H by omega) g

theorem writePolygon_spec {F : Type} (ops : FloatOps F) (s : Window) (pts : List POINT)
    (c : color) (hwf : s.wf) (h3 : 3 ≤ pts.length) :
    ∃ m x0 y0 w0 h0,
      writePolygon ops s pts c = some (markDirty { s with pixelBuffer := m } x0 y0 w0 h0) ∧
      Painted s.bufferWidth s.bufferHeight s.pixelBuffer m
        (polygonCovers ops pts s.bufferWidth) (packColor c) := by
  have hlen := hwf.2.2.2.2.2
  obtain ⟨m, hm, _, hI⟩ :=
    forLoop_inv
      (fun y px => fillPairs s.bufferWidth s.bufferHeight y (packColor c)
        (scanIntersections ops (buildEdges ops pts) y) px)
      (polygonYMax ops pts)
      (fun k w => polygonYMin ops pts ≤ k ∧
        Painted s.bufferWidth s.bufferHeight s.pixelBuffer w
          (fun px py => (polygonYMin ops pts ≤ py ∧ py < k) ∧
            inSpans s.bufferWidth (scanIntersections ops (buildEdges ops pts) py) px)
          (packColor c))
      (fun k w hk ⟨hk0, hI⟩ => by
        obtain ⟨w2, hw2, hp2⟩ := fillPairs_spec hlen k _ _ (le_refl _) w _ hI
        refine ⟨w2, hw2, by omega, hp2.congr ?_⟩
        intro px py _ _ _ _
        constructor
        · rintro (⟨a, q⟩ | ⟨e, q⟩)
          · exact ⟨⟨a.1, by omega⟩, q⟩
          · subst e
            exact ⟨⟨hk0, by omega⟩, q⟩
        · rintro ⟨a, q⟩
          by_cases e : py = k
          · subst e
            exact Or.inr ⟨rfl, q⟩
          · exact Or.inl ⟨⟨a.1, by omega⟩, q⟩)
      (polygonYMax ops pts - polygonYMin ops pts).toNat (polygonYMin ops pts) s.pixelBuffer
      (by omega)
      ⟨le_refl _, (painted_refl _ _ _ _).congr (fun px py _ _ _ _ =>
        ⟨fun p => p.elim, fun ⟨a, _⟩ => by omega⟩)⟩
  have hc : ¬ pts.length < 3 := by omega
  have hp : Painted s.bufferWidth s.bufferHeight s.pixelBuffer m
      (polygonCovers ops pts s.bufferWidth) (packColor c) := by
    refine hI.congr ?_
    intro px py _ _ _ _
    unfold polygonCovers
    constructor
    · rintro ⟨a, q⟩
      exact ⟨⟨a.1, by omega⟩, q⟩
    · rintro ⟨a, q⟩
      exact ⟨⟨a.1, by omega⟩, q⟩
  refine ⟨m, ?_⟩
  simp only [writePolygon, if_neg hc]
  unfold polygonYMax polygonYMin at hm
  rw [hm]
  exact ⟨_, _, _, _, rfl, hp⟩

/-! ## C11: the pixel count of the triangle -/

theorem triangle_scan (py : Int) (h0 : 0 ≤ py) (h1 : py < 10) :
    scanIntersections exactOps (buildEdges exactOps triangle) py
      = [py / 2, 10 - (py + 1) / 2] := by
  interval_cases py <;> decide

theorem triangle_covers (W px py : Int) (hx0 : 0 ≤ px) (hx1 : px < W) :
    polygonCovers exactOps triangle W px py ↔ triangleSpan px py := by
  have e0 : polygonYMin exactOps triangle = 0 := by decide
  have e1 : polygonYMax exactOps triangle = 10 := by decide
  unfold polygonCovers triangleSpan
  rw [e0, e1]
  constructor
  · rintro ⟨a, q⟩
    rw [triangle_scan py a.1 a.2] at q
    simp only [inSpans, or_false] at q
    exact ⟨a, by omega, by omega⟩
  · rintro ⟨a, q⟩
    refine ⟨a, ?_⟩
    rw [triangle_scan py a.1 a.2]
    simp only [inSpans, or_false]
    omega

/-- C11 (counterexample): on a fresh 11x10 buffer the triangle `(0,0)`, `(10,0)`,
`(5,10)` sets 65 pixels, which is not within 11 of the ideal area 50. -/
theorem C11_triangle_sets_65_pixels :
    ∃ t, writePolygon exactOps (freshWindow 11 10 true) triangle Red = some t ∧
      t.pixelBuffer.count (packColor Red) = 65 ∧
      ¬ (t.pixelBuffer.count (packColor Red) ≤ 50 + 11) := by
  obtain ⟨t, ht, hc⟩ := Option.map_eq_some'.1
    (by decide : (writePolygon exactOps (freshWindow 11 10 true) triangle Red).map
      (fun t => t.pixelBuffer.count (packColor Red)) = some 65)
  exact ⟨t, ht, hc, by omega⟩

/-- C11 (amended): `writePolygon` on the triangle `(0,0)`, `(10,0)`, `(5,10)` sets
exactly the pixels of the inclusive spans `py / 2 <= px <= 10 - (py + 1) / 2` on the
rows `0 <= py < 10` that lie in the buffer, and leaves every other pixel as it was;
these spans hold 65 pixels, 15 more than the ideal area 50. -/
theorem C11_triangle_fills_inclusive_spans (s : Window) (c : color) (hwf : s.wf) :
    ∃ t, writePolygon exactOps s triangle c = some t ∧
      Painted s.bufferWidth s.bufferHeight s.pixelBuffer t.pixelBuffer triangleSpan
        (packColor c) ∧
      triangleSpanCount = 65 := by
  obtain ⟨m, x0, y0, w0, h0, ht, hp⟩ := writePolygon_spec exactOps s triangle c hwf (by decide)
  refine ⟨_, ht, ?_, by decide⟩
  rw [(markDirty_frame _ x0 y0 w0 h0).1]
  exact hp.congr (fun px py a b _ _ => triangle_covers _ px py a b)

theorem C11_triangle_spans_witness :
    (freshWindow 11 10 true).wf ∧
    ∃ t, writePolygon exactOps (freshWindow 11 10 true) triangle Red = some t ∧
      Painted (freshWindow 11 10 true).bufferWidth (freshWindow 11 10 true).bufferHeight
        (freshWindow 11 10 true).pixelBuffer t.pixelBuffer triangleSpan (packColor Red) ∧
      triangleSpanCount = 65 :=
  ⟨freshWindow_wf 11 10 true (by decide) (by decide) (by decide),
   C11_triangle_fills_inclusive_spans (freshWindow 11 10 true) Red
    (freshWindow_wf 11 10 true (by decide) (by decide) (by decide))⟩

/-! ## Termination of the loop of `writeLine` -/

theorem bresenham_step (dx DY a b : Int) (hdx : 0 ≤ dx) (hDY : 0 ≤ DY) (ha0 : 0 ≤ a)
    (ha : a ≤ dx) (hb0 : 0 ≤ b) (hb : b ≤ DY) (hne : a < dx ∨ b < DY) :
    (2 * (dx * (b + 1) - DY * (a + 1)) ≥ -DY → a < dx) ∧
    (2 * (dx * (b + 1) - DY * (a + 1)) ≤ dx → b < DY) ∧
    (2 * (dx * (b + 1) - DY * (a + 1)) ≥ -DY ∨ 2 * (dx * (b + 1) - DY * (a + 1)) ≤ dx) := by
  refine ⟨fun h => ?_, fun h => ?_, ?_⟩
  · by_contra hc
    have e : a = dx := by omega
    subst e
    have hb1 : b < DY := by omega
    nlinarith [mul_nonneg ha0 (show 0 ≤ DY - 1 - b by omega)]
  · by_contra hc
    have e : b = DY := by omega
    subst e
    have ha1 : a < dx := by omega
    nlinarith [mul_nonneg hb0 (show 0 ≤ dx - 1 - a by omega)]
  · by_contra hc
    push_neg at hc
    omega

theorem lineLoop_total (W H x1 y1 x2 y2 dx DY sx sy : Int) (packed : Nat)
    (hW : 0 ≤ W) (hW1 : W < 2 ^ 31) (hH : 0 ≤ H) (hH1 : H < 2 ^ 31)
    (hx1 : isInt x1) (hx2 : isInt x2) (hy1 : isInt y1) (hy2 : isInt y2)
    (hsx : (x1 < x2 ∧ sx = 1 ∧ dx = x2 - x1) ∨ (x2 ≤ x1 ∧ sx = -1 ∧ dx = x1 - x2))
    (hsy : (y1 < y2 ∧ sy = 1 ∧ DY = y2 - y1) ∨ (y2 ≤ y1 ∧ sy = -1 ∧ DY = y1 - y2)) :
    ∀ (fuel : Nat) (st : LineState) (a b : Int),
      0 ≤ a → a ≤ dx → 0 ≤ b → b ≤ DY →
      st.x1 = x1 + sx * a → st.y1 = y1 + sy * b →
      st.err = dx * (b + 1) - DY * (a + 1) →
      (st.pixels.length : Int) = W * H →
      (dx - a) + (DY - b) < fuel →
      ∃ out, lineLoop W H x2 y2 dx (-DY) sx sy packed fuel st = some out ∧
        (out.pixels.length : Int) = W * H := by
  have hdx : 0 ≤ dx := by omega
  have hDY : 0 ≤ DY := by omega
  intro fuel
  induction fuel with
  | zero =>
    intro st a b ha0 ha hb0 hb _ _ _ _ hm
    exact absurd hm (by simp only [Nat.cast_zero]; omega)
  | succ n ih =>
    intro st a b ha0 ha hb0 hb ex ey eerr hlen hm
    have ix : isInt st.x1 := by
      unfold isInt at *
      rcases hsx with ⟨_, e, _⟩ | ⟨_, e, _⟩ <;> subst e <;> omega
    have iy : isInt st.y1 := by
      unfold isInt at *
      rcases hsy with ⟨_, e, _⟩ | ⟨_, e, _⟩ <;> subst e <;> omega
    have hst : ∃ px, (if toUnsigned st.x1 < toUnsigned W ∧ toUnsigned st.y1 < toUnsigned H
        then store st.pixels (st.y1 * W + st.x1) packed else some st.pixels) = some px ∧
        (px.length : Int) = W * H := by
      by_cases g : toUnsigned st.x1 < toUnsigned W ∧ toUnsigned st.y1 < toUnsigned H
      · have gx := (unsigned_lt_iff st.x1 W ix hW hW1).1 g.1
        have gy := (unsigned_lt_iff st.y1 H iy hH hH1).1 g.2
        have hb := index_bounds W H st.x1 st.y1 gx.1 gx.2 gy.1 gy.2
        obtain ⟨u, hu, hul, _⟩ := store_spec st.pixels (st.y1 * W + st.x1) packed hb.1
          (by omega)
        exact ⟨u, by rw [if_pos g, hu], by rw [hul, hlen]⟩
      · exact ⟨st.pixels, by rw [if_neg g], hlen⟩
    obtain ⟨px, hpx, hpl⟩ := hst
    rw [lineLoop, hpx, Option.some_bind]
    by_cases hexit : st.x1 = x2 ∧ st.y1 = y2
    · exact ⟨_, by rw [if_pos hexit], hpl⟩
    · rw [if_neg hexit]
      have hne : a < dx ∨ b < DY := by
        by_contra hc
        apply hexit
        have e1 : a = dx := by omega
        have e2 : b = DY := by omega
        subst e1 e2
        constructor
        · rcases hsx with ⟨_, e, _⟩ | ⟨_, e, _⟩ <;> subst e <;> omega
        · rcases hsy with ⟨_, e, _⟩ | ⟨_, e, _⟩ <;> subst e <;> omega
      obtain ⟨s1, s2, s3⟩ := bresenham_step dx DY a b hdx hDY ha0 ha hb0 hb hne
      rw [← eerr] at s1 s2 s3
      by_cases cx : 2 * st.err ≥ -DY
      · by_cases cy : 2 * st.err ≤ dx
        · simp only [if_pos cx, if_pos cy]
          exact ih _ (a + 1) (b + 1) (by omega) (by have := s1 cx; omega) (by omega)
            (by have := s2 cy; omega)
            (by show st.x1 + sx = x1 + sx * (a + 1); rw [ex]; ring)
            (by show st.y1 + sy = y1 + sy * (b + 1); rw [ey]; ring)
            (by show st.err + -DY + dx = _; rw [eerr]; ring)
            hpl (by push_cast at hm ⊢; omega)
        · simp only [if_pos cx, if_neg cy]
          exact ih _ (a + 1) b (by omega) (by have := s1 cx; omega) hb0 hb
            (by show st.x1 + sx = x1 + sx * (a + 1); rw [ex]; ring)
            ey
            (by show st.err + -DY = _; rw [eerr]; ring)
            hpl (by push_cast at hm ⊢; omega)
      · have cy : 2 * st.err ≤ dx := s3.resolve_left cx
        simp only [if_neg cx, if_pos cy]
        exact ih _ a (b + 1) ha0 ha (by omega) (by have := s2 cy; omega)
          ex
          (by show st.y1 + sy = y1 + sy * (b + 1); rw [ey]; ring)
          (by show st.err + dx = _; rw [eerr]; ring)
          hpl (by push_cast at hm ⊢; omega)

theorem writeLine_total (s : Window) (x1 y1 x2 y2 : Int) (c : color) (hwf : s.wf)
    (hx1 : isInt x1) (hy1 : isInt y1) (hx2 : isInt x2) (hy2 : isInt y2) :
    ∃ t, writeLine (|x2 - x1| + |y2 - y1| + 1).toNat s x1 y1 x2 y2 c = some t ∧
      (t.pixelBuffer.length : Int) = s.bufferWidth * s.bufferHeight := by
  obtain ⟨hw, hh, hw1, hh1, _, hlen⟩ := hwf
  have hsx : (x1 < x2 ∧ (if x1 < x2 then (1 : Int) else -1) = 1 ∧ |x2 - x1| = x2 - x1) ∨
      (x2 ≤ x1 ∧ (if x1 < x2 then (1 : Int) else -1) = -1 ∧ |x2 - x1| = x1 - x2) := by
    by_cases h : x1 < x2
    · exact Or.inl ⟨h, if_pos h, abs_of_nonneg (by omega)⟩
    · exact Or.inr ⟨by omega, if_neg h, by rw [abs_of_nonpos (by omega)]; ring⟩
  have hsy : (y1 < y2 ∧ (if y1 < y2 then (1 : Int) else -1) = 1 ∧ |y2 - y1| = y2 - y1) ∨
      (y2 ≤ y1 ∧ (if y1 < y2 then (1 : Int) else -1) = -1 ∧ |y2 - y1| = y1 - y2) := by
    by_cases h : y1 < y2
    · exact Or.inl ⟨h, if_pos h, abs_of_nonneg (by omega)⟩
    · exact Or.inr ⟨by omega, if_neg h, by rw [abs_of_nonpos (by omega)]; ring⟩
  have hd0 : 0 ≤ |x2 - x1| := abs_nonneg _
  have hd1 : 0 ≤ |y2 - y1| := abs_nonneg _
  obtain ⟨out, hout, hol⟩ := lineLoop_total s.bufferWidth s.bufferHeight x1 y1 x2 y2
    |x2 - x1| |y2 - y1| (if x1 < x2 then 1 else -1) (if y1 < y2 then 1 else -1) (packColor c)
    hw hw1 hh hh1 hx1 hx2 hy1 hy2 hsx hsy (|x2 - x1| + |y2 - y1| + 1).toNat
    ⟨x1, y1, |x2 - x1| + -|y2 - y1|, s.pixelBuffer⟩ 0 0 (le_refl _) hd0 (le_refl _) hd1
    (by simp) (by simp) (by show |x2 - x1| + -|y2 - y1| = _; ring) hlen
    (by rw [Int.toNat_of_nonneg (by omega)]; omega)
  refine ⟨_, by simp only [writeLine, hout, Option.map_some']; rfl, ?_⟩
  by_cases hu : s.useMarkDirty = true
  · simp only [hu, if_true]
    rw [(markDirty_frame _ _ _ _ _).1]
    exact hol
  · simp only [hu]
    exact hol

/-! ## C14: every access of the guarded primitives is inside the pixel array -/

/-- C14. On a buffer satisfying the framebuffer invariant, `writePoint`, `writeLine`,
`writeRect`, `writePolygon` (for every float semantics) and `writeChar` return a
state for all `int` arguments: in the checked memory model an access outside the
`bufferWidth * bufferHeight` pixels of the array makes the call fault with `none`,
so every pixel access of these primitives is at an index inside the array, also for
coordinates that are negative or far outside the buffer; the array keeps its
length.  The loop of `writeLine` exits within `|x2 - x1| + |y2 - y1| + 1` rounds. -/
theorem C14_guarded_primitives_stay_inside_the_buffer (s : Window) (hwf : s.wf) :
    (∀ (x y : Int) (c : color), isInt x → isInt y →
      ∃ t, writePoint s x y c = some t ∧
        (t.pixelBuffer.length : Int) = s.bufferWidth * s.bufferHeight) ∧
    (∀ (x1 y1 x2 y2 : Int) (c : color), isInt x1 → isInt y1 → isInt x2 → isInt y2 →
      ∃ t, writeLine (|x2 - x1| + |y2 - y1| + 1).toNat s x1 y1 x2 y2 c = some t ∧
        (t.pixelBuffer.length : Int) = s.bufferWidth * s.bufferHeight) ∧
    (∀ (x y w h : Int) (c : color),
      ∃ t, writeRect s x y w h c = some t ∧
        (t.pixelBuffer.length : Int) = s.bufferWidth * s.bufferHeight) ∧
    (∀ (F : Type) (ops : FloatOps F) (pts : List POINT) (c : color),
      ∃ t, writePolygon ops s pts c = some t ∧
        (t.pixelBuffer.length : Int) = s.bufferWidth * s.bufferHeight) ∧
    (∀ (font : List (List Nat)) (x y : Int) (ch : Nat) (c : color), fontOk font →
      isInt x ∧ isInt (x + 7) → isInt y ∧ isInt (y + 7) →
      ∃ t, writeChar font s x y ch c = some t ∧
        (t.pixelBuffer.length : Int) = s.bufferWidth * s.bufferHeight) := by
  have hlen := hwf.2.2.2.2.2
  refine ⟨?_, ?_, ?_, ?_, ?_⟩
  · intro x y c hx hy
    obtain ⟨hw, hh, hw1, hh1, _, _⟩ := hwf
    by_cases g : toUnsigned x ≥ toUnsigned s.bufferWidth ∨
        toUnsigned y ≥ toUnsigned s.bufferHeight
    · exact ⟨s, by simp only [writePoint, if_pos g], hlen⟩
    · have gx : 0 ≤ x ∧ x < s.bufferWidth := by
        by_contra hc
        exact g (Or.inl ((unsigned_ge_iff x s.bufferWidth hx hw hw1).2 hc))
      have gy : 0 ≤ y ∧ y < s.bufferHeight := by
        by_contra hc
        exact g (Or.inr ((unsigned_ge_iff y s.bufferHeight hy hh hh1).2 hc))
      have hb := index_bounds s.bufferWidth s.bufferHeight x y gx.1 gx.2 gy.1 gy.2
      obtain ⟨u, hu, hul, _⟩ := store_spec s.pixelBuffer (y * s.bufferWidth + x) (packColor c)
        hb.1 (by omega)
      refine ⟨markDirty { s with pixelBuffer := u } x y 1 1,
        by simp only [writePoint, if_neg g, hu, Option.map_some'], ?_⟩
      rw [(markDirty_frame _ _ _ _ _).1]
      show (u.length : Int) = _
      rw [hul, hlen]
  · intro x1 y1 x2 y2 c hx1 hy1 hx2 hy2
    exact writeLine_total s x1 y1 x2 y2 c hwf hx1 hy1 hx2 hy2
  · intro x y w h c
    obtain ⟨t, ht, hl, _⟩ := writeRect_spec s x y w h c hwf
    exact ⟨t, ht, by rw [hl, hlen]⟩
  · intro F ops pts c
    by_cases h3 : pts.length < 3
    · exact ⟨s, by simp only [writePolygon, if_pos h3], hlen⟩
    · obtain ⟨m, x0, y0, w0, h0, ht, hp⟩ := writePolygon_spec ops s pts c hwf (by omega)
      refine ⟨_, ht, ?_⟩
      rw [(markDirty_frame _ _ _ _ _).1]
      show (m.length : Int) = _
      rw [hp.1, hlen]
  · intro font x y ch c hf hx hy
    by_cases hch : ch > 127
    · exact ⟨s, by simp only [writeChar, if_pos hch], hlen⟩
    · obtain ⟨m, ht, hp⟩ := writeChar_spec font s x y ch c hwf hf (by omega) hx hy
      refine ⟨_, ht, ?_⟩
      rw [(markDirty_frame _ _ _ _ _).1]
      show (m.length : Int) = _
      rw [hp.1, hlen]

theorem C14_guarded_primitives_witness :
    (freshWindow 4 4 true).wf ∧
    (∃ t, writePoint (freshWindow 4 4 true) (-1) 70000 Red = some t ∧
      (t.pixelBuffer.length : Int) =
        (freshWindow 4 4 true).bufferWidth * (freshWindow 4 4 true).bufferHeight) ∧
    (∃ t, writeLine (|(9 : Int) - (-3)| + |(-2 : Int) - 6| + 1).toNat (freshWindow 4 4 true)
        (-3) 6 9 (-2) Red = some t ∧
      (t.pixelBuffer.length : Int) =
        (freshWindow 4 4 true).bufferWidth * (freshWindow 4 4 true).bufferHeight) ∧
    (∃ t, writeRect (freshWindow 4 4 true) (-5) 2 100 7 Red = some t ∧
      (t.pixelBuffer.length : Int) =
        (freshWindow 4 4 true).bufferWidth * (freshWindow 4 4 true).bufferHeight) ∧
    (∃ t, writePolygon exactOps (freshWindow 4 4 true) triangle Red = some t ∧
      (t.pixelBuffer.length : Int) =
        (freshWindow 4 4 true).bufferWidth * (freshWindow 4 4 true).bufferHeight) ∧
    (∃ t, writeChar (List.replicate 128 [24, 60, 102, 126, 102, 102, 102, 0])
        (freshWindow 4 4 true) (-3) 2 65 Red = some t ∧
      (t.pixelBuffer.length : Int) =
        (freshWindow 4 4 true).bufferWidth * (freshWindow 4 4 true).bufferHeight) :=
  ⟨freshWindow_wf 4 4 true (by decide) (by decide) (by decide),
   (C14_guarded_primitives_stay_inside_the_buffer (freshWindow 4 4 true)
      (freshWindow_wf 4 4 true (by decide) (by decide) (by decide))).1 (-1) 70000 Red
      (by unfold isInt; decide) (by unfold isInt; decide),
   (C14_guarded_primitives_stay_inside_the_buffer (freshWindow 4 4 true)
      (freshWindow_wf 4 4 true (by decide) (by decide) (by decide))).2.1 (-3) 6 9 (-2) Red
      (by unfold isInt; decide) (by unfold isInt; decide) (by unfold isInt; decide)
      (by unfold isInt; decide),
   (C14_guarded_primitives_stay_inside_the_buffer (freshWindow 4 4 true)
      (freshWindow_wf 4 4 true (by decide) (by decide) (by decide))).2.2.1 (-5) 2 100 7 Red,
   (C14_guarded_primitives_stay_inside_the_buffer (freshWindow 4 4 true)
      (freshWindow_wf 4 4 true (by decide) (by decide) (by decide))).2.2.2.1 Frac exactOps
      triangle Red,
   (C14_guarded_primitives_stay_inside_the_buffer (freshWindow 4 4 true)
      (freshWindow_wf 4 4 true (by decide) (by decide) (by decide))).2.2.2.2
      (List.replicate 128 [24, 60, 102, 126, 102, 102, 102, 0]) (-3) 2 65 Red
      ⟨List.length_replicate _ _, fun g hg => by rw [List.eq_of_mem_replicate hg]; rfl⟩
      ⟨by unfold isInt; decide, by unfold isInt; decide⟩
      ⟨by unfold isInt; decide, by unfold isInt; decide⟩⟩

/-! ## C21: the rectangle tracked by `writeRect` -/

theorem writeRect_report (s t : Window) (x y w h : Int) (c : color)
    (hne : max 0 x < min s.bufferWidth (x + w) ∧ max 0 y < min s.bufferHeight (y + h))
    (ht : writeRect s x y w h c = some t) :
    t = markDirty { s with pixelBuffer := t.pixelBuffer } x y w h := by
  have g : ¬ (fastMax 0 x ≥ fastMin s.bufferWidth (x + w) ∨
      fastMax 0 y ≥ fastMin s.bufferHeight (y + h)) := by
    rw [fastMax_eq, fastMin_eq, fastMax_eq, fastMin_eq]
    omega
  simp only [writeRect, if_neg g] at ht
  obtain ⟨m, _, e⟩ := Option.map_eq_some'.1 ht
  rw [← e, (markDirty_frame _ _ _ _ _).1]

/-- C21 (counterexample). With tracking enabled and the damage state empty,
`writeRect(2, 2, 5, 5, Red)` on a 4x4 buffer, whose intersection with the buffer is
the four pixels `[2,4) x [2,4)`, tracks the rectangle `{2,2,4,4}`, not the requested
rectangle `{2,2,7,7}`. -/
theorem C21_writeRect_tracks_the_clipped_rectangle :
    (freshWindow 4 4 true).useMarkDirty = true ∧ (freshWindow 4 4 true).hasDirty = false ∧
    (freshWindow 4 4 true).isAllDirty = false ∧
    ∃ t, writeRect (freshWindow 4 4 true) 2 2 5 5 Red = some t ∧ t.hasDirty = true ∧
      t.dirtyRect = ⟨2, 2, 4, 4⟩ ∧ t.dirtyRect ≠ ⟨2, 2, 2 + 5, 2 + 5⟩ := by
  obtain ⟨t, ht, hc⟩ := Option.map_eq_some'.1
    (by decide : (writeRect (freshWindow 4 4 true) 2 2 5 5 Red).map
      (fun t => (t.hasDirty, t.dirtyRect)) = some (true, ⟨2, 2, 4, 4⟩))
  have h1 : t.hasDirty = true := congrArg Prod.fst hc
  have h2 : t.dirtyRect = ⟨2, 2, 4, 4⟩ := congrArg Prod.snd hc
  exact ⟨rfl, rfl, rfl, t, ht, h1, h2, by rw [h2]; decide⟩

/-- C21 (amended). With tracking enabled and the damage state empty, after
`writeRect(x,y,w,h,c)` whose intersection with the buffer is non-empty the report is
the requested rectangle and the tracked dirty rectangle is the requested rectangle
clamped to the buffer, `{max(0,x), max(0,y), min(width,x+w), min(height,y+h)}`, which
is the clipped rectangle; it is the requested rectangle `{x, y, x+w, y+h}` when
that lies inside the buffer. -/
theorem C21_writeRect_tracks_the_clamped_request (s : Window) (x y w h : Int) (c : color)
    (hwf : s.wf) (hT : s.useMarkDirty = true) (hE : s.hasDirty = false)
    (hA : s.isAllDirty = false)
    (hne : max 0 x < min s.bufferWidth (x + w) ∧ max 0 y < min s.bufferHeight (y + h)) :
    ∃ t, writeRect s x y w h c = some t ∧
      t = markDirty { s with pixelBuffer := t.pixelBuffer } x y w h ∧
      t.hasDirty = true ∧
      t.dirtyRect = clampToBuffer s.bufferWidth s.bufferHeight ⟨x, y, x + w, y + h⟩ ∧
      t.dirtyRect =
        ⟨max 0 x, max 0 y, min s.bufferWidth (x + w), min s.bufferHeight (y + h)⟩ ∧
      (0 ≤ x ∧ 0 ≤ y ∧ x + w ≤ s.bufferWidth ∧ y + h ≤ s.bufferHeight →
        t.dirtyRect = ⟨x, y, x + w, y + h⟩) := by
  obtain ⟨t, ht, _⟩ := writeRect_spec s x y w h c hwf
  have e := writeRect_report s t x y w h c hne ht
  have hr : (⟨x, y, w, h⟩ : Report).hits s.bufferWidth s.bufferHeight := by
    unfold Report.hits
    simp only
    omega
  have hm := markDirty_first { s with pixelBuffer := t.pixelBuffer } ⟨x, y, w, h⟩ hT hE hA hr
  simp only at hm
  have hd : t.dirtyRect = clampToBuffer s.bufferWidth s.bufferHeight ⟨x, y, x + w, y + h⟩ := by
    rw [e, hm]
    rfl
  have hh : t.hasDirty = true := by
    rw [e, hm]
    rfl
  refine ⟨t, ht, e, hh, hd, hd, fun hin => ?_⟩
  rw [hd]
  unfold clampToBuffer
  simp only
  congr 1 <;> omega

theorem C21_writeRect_clamped_witness :
    (freshWindow 4 4 true).wf ∧
    ∃ t, writeRect (freshWindow 4 4 true) 2 (-1) 5 3 Red = some t ∧
      t = markDirty { freshWindow 4 4 true with pixelBuffer := t.pixelBuffer } 2 (-1) 5 3 ∧
      t.hasDirty = true ∧
      t.dirtyRect = clampToBuffer (freshWindow 4 4 true).bufferWidth
        (freshWindow 4 4 true).bufferHeight ⟨2, -1, 2 + 5, -1 + 3⟩ ∧
      t.dirtyRect =
        ⟨max 0 2, max 0 (-1), min (freshWindow 4 4 true).bufferWidth (2 + 5),
          min (freshWindow 4 4 true).bufferHeight (-1 + 3)⟩ ∧
      ((0 : Int) ≤ 2 ∧ (0 : Int) ≤ -1 ∧ (2 : Int) + 5 ≤ (freshWindow 4 4 true).bufferWidth ∧
          (-1 : Int) + 3 ≤ (freshWindow 4 4 true).bufferHeight →
        t.dirtyRect = ⟨2, -1, 2 + 5, -1 + 3⟩) :=
  ⟨freshWindow_wf 4 4 true (by decide) (by decide) (by decide),
   C21_writeRect_tracks_the_clamped_request (freshWindow 4 4 true) 2 (-1) 5 3 Red
    (freshWindow_wf 4 4 true (by decide) (by decide) (by decide)) rfl rfl rfl (by decide)⟩

/-! ## C23: the lane blend against the scalar blend -/

/-- C23 (counterexample). White blended onto white at opacity 128:
`blendPixel` (division by 255) gives `0xFFFFFF`, each lane of `blend4_sse2` (shift
right by 8) gives `0xFEFEFE`, and a row of five pixels blended by `writeAlphaBitmap`
holds `0xFEFEFE` in its four lane-processed pixels and `0xFFFFFF` in its remainder
pixel.  The two also differ in the top byte, which `blend4_sse2` blends and
`blendPixel` clears: for `0xFF000000` on `0xFF000000` the lane value is `0xFE000000`
and the scalar value is 0. -/
theorem C23_lane_and_scalar_blend_differ :
    blendPixel 16777215 16777215 128 = 16777215 ∧
    lane32 (blend4_sse2
        (bytesOf 16777215 ++ bytesOf 16777215 ++ bytesOf 16777215 ++ bytesOf 16777215)
        (bytesOf 16777215 ++ bytesOf 16777215 ++ bytesOf 16777215 ++ bytesOf 16777215)
        (_mm_set1_epi16 128)) 0 = 16711422 ∧
    (writeAlphaBitmap { freshWindow 5 1 true with pixelBuffer := List.replicate 5 16777215 }
        (List.replicate 5 16777215) 5 1 0 0 128).map (fun t => t.pixelBuffer)
      = some [16711422, 16711422, 16711422, 16711422, 16777215] ∧
    blendPixel 4278190080 4278190080 128 = 0 ∧
    lane32 (blend4_sse2
        (bytesOf 4278190080 ++ bytesOf 4278190080 ++ bytesOf 4278190080 ++ bytesOf 4278190080)
        (bytesOf 4278190080 ++ bytesOf 4278190080 ++ bytesOf 4278190080 ++ bytesOf 4278190080)
        (_mm_set1_epi16 128)) 0 = 4261412864 := by
  refine ⟨by decide, by decide, by decide, by decide, by decide⟩

theorem lane_scalar_gap (s d alpha : Nat) (hs : s < 256) (hd : d < 256) (ha : alpha ≤ 255) :
    laneByte d s alpha ≤ (s * alpha + d * (255 - alpha)) / 255 ∧
    (s * alpha + d * (255 - alpha)) / 255 ≤ laneByte d s alpha + 1 := by
  obtain ⟨e, _, _, _⟩ := lane_channel s d alpha hs hd ha
  have hb := convex_bounds s d alpha (255 - alpha) (by omega)
  rw [e]
  generalize s * alpha + d * (255 - alpha) = x at hb ⊢
  have hM : max s d ≤ 255 := by omega
  omega

theorem lanePixel_chan (old sv alpha : Nat) (ha : alpha ≤ 255) :
    chanR (lanePixel old sv alpha) = laneByte (old % 256) (sv % 256) alpha ∧
    chanG (lanePixel old sv alpha) = laneByte (old / 256 % 256) (sv / 256 % 256) alpha ∧
    chanB (lanePixel old sv alpha) = laneByte (old / 65536 % 256) (sv / 65536 % 256) alpha := by
  obtain ⟨_, r1, _, _⟩ := lane_channel (sv % 256) (old % 256) alpha
    (Nat.mod_lt _ (by decide)) (Nat.mod_lt _ (by decide)) ha
  obtain ⟨_, g1, _, _⟩ := lane_channel (sv / 256 % 256) (old / 256 % 256) alpha
    (Nat.mod_lt _ (by decide)) (Nat.mod_lt _ (by decide)) ha
  obtain ⟨_, b1, _, _⟩ := lane_channel (sv / 65536 % 256) (old / 65536 % 256) alpha
    (Nat.mod_lt _ (by decide)) (Nat.mod_lt _ (by decide)) ha
  simp only [chanR_eq, chanG_eq, chanB_eq, lanePixel]
  generalize laneByte (old % 256) (sv % 256) alpha = x0 at *
  generalize laneByte (old / 256 % 256) (sv / 256 % 256) alpha = x1 at *
  generalize laneByte (old / 65536 % 256) (sv / 65536 % 256) alpha = x2 at *
  generalize laneByte (old / 16777216 % 256) (sv / 16777216 % 256) alpha = x3 at *
  refine ⟨by omega, by omega, by omega⟩

theorem blendPixel_chan (old sv alpha : Nat) (ha : alpha ≤ 255) :
    chanR (blendPixel old sv alpha) = (sv % 256 * alpha + old % 256 * (255 - alpha)) / 255 ∧
    chanG (blendPixel old sv alpha)
      = (sv / 256 % 256 * alpha + old / 256 % 256 * (255 - alpha)) / 255 ∧
    chanB (blendPixel old sv alpha)
      = (sv / 65536 % 256 * alpha + old / 65536 % 256 * (255 - alpha)) / 255 ∧
    blendPixel old sv alpha < 2 ^ 24 := by
  obtain ⟨r0, r1, r2⟩ := scalar_channel (sv % 256) (old % 256) alpha
    (Nat.mod_lt _ (by decide)) (Nat.mod_lt _ (by decide)) ha
  obtain ⟨g0, g1, g2⟩ := scalar_channel (sv / 256 % 256) (old / 256 % 256) alpha
    (Nat.mod_lt _ (by decide)) (Nat.mod_lt _ (by decide)) ha
  obtain ⟨b0, b1, b2⟩ := scalar_channel (sv / 65536 % 256) (old / 65536 % 256) alpha
    (Nat.mod_lt _ (by decide)) (Nat.mod_lt _ (by decide)) ha
  have hR : ∀ p : Nat, p &&& 255 = p % 256 := chanR_eq
  have e : blendPixel old sv alpha =
      (sv % 256 * alpha + old % 256 * (255 - alpha)) / 255
      + 256 * ((sv / 256 % 256 * alpha + old / 256 % 256 * (255 - alpha)) / 255)
      + 65536 * ((sv / 65536 % 256 * alpha + old / 65536 % 256 * (255 - alpha)) / 255) := by
    have e8 : (2 : Nat) ^ 8 = 256 := by norm_num
    have e16 : (2 : Nat) ^ 16 = 65536 := by norm_num
    unfold blendPixel
    simp only [hR, Nat.shiftRight_eq_div_pow, Nat.mod_mod, e8, e16]
    rw [r0, g0, b0, pack_eq_add _ _ _ (by omega) (by omega)]
    omega
  simp only [chanR_eq, chanG_eq, chanB_eq]
  rw [e]
  generalize (sv % 256 * alpha + old % 256 * (255 - alpha)) / 255 = x0 at *
  generalize (sv / 256 % 256 * alpha + old / 256 % 256 * (255 - alpha)) / 255 = x1 at *
  generalize (sv / 65536 % 256 * alpha + old / 65536 % 256 * (255 - alpha)) / 255 = x2 at *
  have hx0 : x0 < 256 := by omega
  have hx1 : x1 < 256 := by omega
  have hx2 : x2 < 256 := by omega
  refine ⟨by omega, by omega, by omega, by omega⟩

theorem lanePixel_agrees_up_to_one (old sv alpha : Nat) (ha : alpha ≤ 255) :
    agreeUpToOne (lanePixel old sv alpha) (blendPixel old sv alpha) := by
  obtain ⟨l0, l1, l2⟩ := lanePixel_chan old sv alpha ha
  obtain ⟨s0, s1, s2, _⟩ := blendPixel_chan old sv alpha ha
  unfold agreeUpToOne
  rw [l0, l1, l2, s0, s1, s2]
  exact ⟨lane_scalar_gap _ _ alpha (Nat.mod_lt _ (by decide)) (Nat.mod_lt _ (by decide)) ha,
    lane_scalar_gap _ _ alpha (Nat.mod_lt _ (by decide)) (Nat.mod_lt _ (by decide)) ha,
    lane_scalar_gap _ _ alpha (Nat.mod_lt _ (by decide)) (Nat.mod_lt _ (by decide)) ha⟩

/-- C23 (amended). For every four destination pixels, four source pixels and every
`alpha` of a `uint8_t`, each of the red, green and blue channels of each 32-bit
pixel produced by `blend4_sse2` (16-bit multiply-accumulate, logical right shift by
8, pack with saturation) is equal to or one less than the same channel of
`blendPixel(dst, src, alpha)` applied to the same pixel: the lane computes
`(s*alpha + d*(255-alpha)) / 256` and `blendPixel` computes
`(s*alpha + d*(255-alpha)) / 255`. -/
theorem C23_lane_blend_is_scalar_blend_up_to_one (d0 d1 d2 d3 s0 s1 s2 s3 alpha : Nat)
    (ha : alpha ≤ 255) :
    agreeUpToOne
      (lane32 (blend4_sse2 (bytesOf d0 ++ bytesOf d1 ++ bytesOf d2 ++ bytesOf d3)
        (bytesOf s0 ++ bytesOf s1 ++ bytesOf s2 ++ bytesOf s3) (_mm_set1_epi16 alpha)) 0)
      (blendPixel d0 s0 alpha) ∧
    agreeUpToOne
      (lane32 (blend4_sse2 (bytesOf d0 ++ bytesOf d1 ++ bytesOf d2 ++ bytesOf d3)
        (bytesOf s0 ++ bytesOf s1 ++ bytesOf s2 ++ bytesOf s3) (_mm_set1_epi16 alpha)) 1)
      (blendPixel d1 s1 alpha) ∧
    agreeUpToOne
      (lane32 (blend4_sse2 (bytesOf d0 ++ bytesOf d1 ++ bytesOf d2 ++ bytesOf d3)
        (bytesOf s0 ++ bytesOf s1 ++ bytesOf s2 ++ bytesOf s3) (_mm_set1_epi16 alpha)) 2)
      (blendPixel d2 s2 alpha) ∧
    agreeUpToOne
      (lane32 (blend4_sse2 (bytesOf d0 ++ bytesOf d1 ++ bytesOf d2 ++ bytesOf d3)
        (bytesOf s0 ++ bytesOf s1 ++ bytesOf s2 ++ bytesOf s3) (_mm_set1_epi16 alpha)) 3)
      (blendPixel d3 s3 alpha) := by
  obtain ⟨e0, e1, e2, e3⟩ := blend4_lanes d0 d1 d2 d3 s0 s1 s2 s3 alpha
  rw [e0, e1, e2, e3]
  exact ⟨lanePixel_agrees_up_to_one d0 s0 alpha ha, lanePixel_agrees_up_to_one d1 s1 alpha ha,
    lanePixel_agrees_up_to_one d2 s2 alpha ha, lanePixel_agrees_up_to_one d3 s3 alpha ha⟩

theorem C23_lane_blend_witness :
    agreeUpToOne
      (lane32 (blend4_sse2
        (bytesOf 16777215 ++ bytesOf 255 ++ bytesOf 65280 ++ bytesOf 1193046)
        (bytesOf 16777215 ++ bytesOf 1193046 ++ bytesOf 8421504 ++ bytesOf 16711680)
        (_mm_set1_epi16 128)) 0)
      (blendPixel 16777215 16777215 128) ∧
    agreeUpToOne
      (lane32 (blend4_sse2
        (bytesOf 16777215 ++ bytesOf 255 ++ bytesOf 65280 ++ bytesOf 1193046)
        (bytesOf 16777215 ++ bytesOf 1193046 ++ bytesOf 8421504 ++ bytesOf 16711680)
        (_mm_set1_epi16 128)) 1)
      (blendPixel 255 1193046 128) ∧
    agreeUpToOne
      (lane32 (blend4_sse2
        (bytesOf 16777215 ++ bytesOf 255 ++ bytesOf 65280 ++ bytesOf 1193046)
        (bytesOf 16777215 ++ bytesOf 1193046 ++ bytesOf 8421504 ++ bytesOf 16711680)
        (_mm_set1_epi16 128)) 2)
      (blendPixel 65280 8421504 128) ∧
    agreeUpToOne
      (lane32 (blend4_sse2
        (bytesOf 16777215 ++ bytesOf 255 ++ bytesOf 65280 ++ bytesOf 1193046)
        (bytesOf 16777215 ++ bytesOf 1193046 ++ bytesOf 8421504 ++ bytesOf 16711680)
        (_mm_set1_epi16 128)) 3)
      (blendPixel 1193046 16711680 128) :=
  C23_lane_blend_is_scalar_blend_up_to_one 16777215 255 65280 1193046 16777215 1193046 8421504
    16711680 128 (by decide)

/-! ## C25: the full flag without tracked damage -/

/-- C25 (evaluation of the code). From the initial state of a 4x4 buffer (tracking
disabled, nothing dirty) the calls `writeBackground(Red)` and `setMarkDirty(true)`
reach a state in which tracking is enabled, `isAllDirty` is true and `hasDirty` is
false; there `present` copies nothing and returns the same state, and every
`markDirty` report returns the same state. -/
theorem C25_full_flag_without_tracked_damage :
    ∃ s, Reachable 4 4 s ∧
      s.useMarkDirty = true ∧ s.isAllDirty = true ∧ s.hasDirty = false ∧
      present s = (s, none) ∧ (present s).1.isAllDirty = true ∧
      ∀ x y w h : Int, markDirty s x y w h = s := by
  refine ⟨setMarkDirty ⟨List.replicate 16 (packColor Red), 4, 4, true, ⟨0, 0, 0, 0⟩, false,
      true, false⟩ true, ?_, rfl, rfl, rfl, rfl, rfl,
    fun x y w h => markDirty_of_allDirty _ x y w h rfl⟩
  exact Reachable.setMarkDirty true
    (Reachable.writeBackground Red (Reachable.init (List.replicate 16 0) true) (by decide))

/-! ## Damage soundness -/

theorem writePolygon_report {F : Type} (ops : FloatOps F) (s : Window) (pts : List POINT)
    (c : color) (hwf : s.wf) (h3 : 3 ≤ pts.length) :
    ∃ m, writePolygon ops s pts c = some (markDirty { s with pixelBuffer := m }
        (vertexMinX pts) (vertexMinY pts) (vertexMaxX pts - vertexMinX pts + 1)
        (vertexMaxY pts - vertexMinY pts + 1)) ∧
      Painted s.bufferWidth s.bufferHeight s.pixelBuffer m
        (polygonCovers ops pts s.bufferWidth) (packColor c) := by
  obtain ⟨m, x0, y0, w0, h0, ht, hp⟩ := writePolygon_spec ops s pts c hwf h3
  have hc : ¬ pts.length < 3 := by omega
  have e : ∃ o : Option (List Nat), writePolygon ops s pts c =
      o.map (fun px => markDirty { s with pixelBuffer := px }
        (vertexMinX pts) (vertexMinY pts) (vertexMaxX pts - vertexMinX pts + 1)
        (vertexMaxY pts - vertexMinY pts + 1)) :=
    ⟨_, by simp only [writePolygon, if_neg hc]; rfl⟩
  obtain ⟨o, ho⟩ := e
  rw [ho] at ht
  obtain ⟨m2, hm2, et⟩ := Option.map_eq_some'.1 ht
  have em : m2 = m := by
    have := congrArg Window.pixelBuffer et
    rw [(markDirty_frame _ _ _ _ _).1, (markDirty_frame _ _ _ _ _).1] at this
    exact this
  subst em
  exact ⟨m2, by rw [ho, hm2]; rfl, hp⟩

theorem triangle_scan_binary32 (py : Int) (h0 : 0 ≤ py) (h1 : py < 10) :
    scanIntersections binary32Ops (buildEdges binary32Ops triangle) py
      = scanIntersections exactOps (buildEdges exactOps triangle) py := by
  interval_cases py <;> decide

theorem triangle_covers_binary32 (W px py : Int) :
    polygonCovers binary32Ops triangle W px py ↔ polygonCovers exactOps triangle W px py := by
  have e0 : polygonYMin binary32Ops triangle = 0 := by decide
  have e1 : polygonYMax binary32Ops triangle = 10 := by decide
  have f0 : polygonYMin exactOps triangle = 0 := by decide
  have f1 : polygonYMax exactOps triangle = 10 := by decide
  unfold polygonCovers
  rw [e0, e1, f0, f1]
  constructor
  · rintro ⟨a, q⟩
    rw [triangle_scan_binary32 py a.1 a.2] at q
    exact ⟨a, q⟩
  · rintro ⟨a, q⟩
    rw [← triangle_scan_binary32 py a.1 a.2] at q
    exact ⟨a, q⟩

/-- On the triangle `(0,0)`, `(10,0)`, `(5,10)` the binary32 run of `writePolygon`
paints the pixels that the exact run paints, on every buffer. -/
theorem triangle_binary32_paints_the_exact_spans (s : Window) (c : color) (hwf : s.wf) :
    ∃ t, writePolygon binary32Ops s triangle c = some t ∧
      Painted s.bufferWidth s.bufferHeight s.pixelBuffer t.pixelBuffer
        (polygonCovers exactOps triangle s.bufferWidth) (packColor c) := by
  obtain ⟨m, ht, hp⟩ := writePolygon_report binary32Ops s triangle c hwf (by decide)
  refine ⟨_, ht, ?_⟩
  rw [(markDirty_frame _ _ _ _ _).1]
  exact hp.congr (fun px py _ _ _ _ => triangle_covers_binary32 _ px py)

/-! ## C22: damage soundness of the primitives that report their arguments -/

theorem steppedPath_single (x1 y1 x2 y2 : Int) :
    SteppedPath x1 y1 x2 y2 0 x2 y2 [(x2, y2)] := by
  refine ⟨rfl, rfl, rfl, List.chain'_singleton _, fun p hp => ?_⟩
  rw [List.mem_singleton] at hp
  subst hp
  simp only
  omega

theorem steppedPath_cons {x1 y1 x2 y2 : Int} {n : Nat} {x y u v : Int}
    {rest : List (Int × Int)} (h : SteppedPath x1 y1 x2 y2 n u v rest)
    (hu : unitStep (x, y) (u, v))
    (hb : (min x1 x2 ≤ x ∧ x ≤ max x1 x2) ∧ (min y1 y2 ≤ y ∧ y ≤ max y1 y2)) :
    SteppedPath x1 y1 x2 y2 (n + 1) x y ((x, y) :: rest) := by
  obtain ⟨hl, hh, hg, hc, hm⟩ := h
  match rest, hl, hh, hg, hc, hm with
  | q :: tl, hl, hh, hg, hc, hm =>
    have eq : q = (u, v) := by
      simp only [List.head?_cons, Option.some.injEq] at hh
      exact hh
    subst eq
    refine ⟨by simp only [List.length_cons] at hl ⊢; omega, rfl,
      by rw [List.getLast?_cons_cons]; exact hg, List.chain'_cons.2 ⟨hu, hc⟩, fun p hp => ?_⟩
    rcases List.mem_cons.1 hp with e | hp
    · subst e
      exact hb
    · exact hm p hp

theorem fuel_cons {α : Type} (f g : Nat → Option (List α)) (a : α) (rest : List α) (r : Nat)
    (h0 : f 0 = none) (hs : ∀ n, f (n + 1) = (g n).map fun l => a :: l)
    (hg : ∀ fuel, (fuel ≤ r → g fuel = none) ∧ (r < fuel → g fuel = some rest)) :
    ∀ fuel, (fuel ≤ r + 1 → f fuel = none) ∧ (r + 1 < fuel → f fuel = some (a :: rest)) := by
  intro fuel
  cases fuel with
  | zero => exact ⟨fun _ => h0, fun h => absurd h (by omega)⟩
  | succ n =>
    rw [hs]
    exact ⟨fun h => by rw [(hg n).1 (by omega)]; rfl, fun h => by rw [(hg n).2 (by omega)]; rfl⟩

theorem unitStep_add (x y u v : Int) (hu : u = 1 ∨ u = -1 ∨ u = 0)
    (hv : v = 1 ∨ v = -1 ∨ v = 0) : unitStep (x, y) (x + u, y + v) := by
  unfold unitStep
  simp only [add_sub_cancel_left]
  rcases hu with rfl | rfl | rfl <;> rcases hv with rfl | rfl | rfl <;> simp

theorem linePositions_spec (x1 y1 x2 y2 dx DY sx sy : Int)
    (hsx : (x1 < x2 ∧ sx = 1 ∧ dx = x2 - x1) ∨ (x2 ≤ x1 ∧ sx = -1 ∧ dx = x1 - x2))
    (hsy : (y1 < y2 ∧ sy = 1 ∧ DY = y2 - y1) ∨ (y2 ≤ y1 ∧ sy = -1 ∧ DY = y1 - y2)) :
    ∀ (r : Nat) (x y err a b : Int),
      0 ≤ a → a ≤ dx → 0 ≤ b → b ≤ DY →
      x = x1 + sx * a → y = y1 + sy * b →
      err = dx * (b + 1) - DY * (a + 1) →
      ((DY ≤ dx ∧ 2 * err ≥ -DY ∧ (r : Int) = dx - a) ∨
        (dx < DY ∧ 2 * err ≤ dx ∧ (r : Int) = DY - b)) →
      ∃ path, SteppedPath x1 y1 x2 y2 r x y path ∧
        ∀ fuel,
          (fuel ≤ r → linePositions x2 y2 dx (-DY) sx sy fuel x y err = none) ∧
          (r < fuel → linePositions x2 y2 dx (-DY) sx sy fuel x y err = some path) := by
  have hdx : 0 ≤ dx := by omega
  have hDY : 0 ≤ DY := by omega
  have hux : sx = 1 ∨ sx = -1 ∨ sx = 0 := by omega
  have huy : sy = 1 ∨ sy = -1 ∨ sy = 0 := by omega
  intro r
  induction r with
  | zero =>
    intro x y err a b ha0 ha hb0 hb ex ey eerr hmaj
    have hexit : x = x2 ∧ y = y2 := by
      by_contra hne
      have hne2 : a < dx ∨ b < DY := by
        by_contra hc
        apply hne
        have e1 : a = dx := by omega
        have e2 : b = DY := by omega
        subst e1 e2
        constructor
        · rcases hsx with ⟨_, e, _⟩ | ⟨_, e, _⟩ <;> subst e <;> omega
        · rcases hsy with ⟨_, e, _⟩ | ⟨_, e, _⟩ <;> subst e <;> omega
      obtain ⟨s1, s2, _⟩ := bresenham_step dx DY a b hdx hDY ha0 ha hb0 hb hne2
      rw [← eerr] at s1 s2
      rcases hmaj with ⟨_, h2, h3⟩ | ⟨_, h2, h3⟩
      · have := s1 h2
        simp only [Nat.cast_zero] at h3
        omega
      · have := s2 h2
        simp only [Nat.cast_zero] at h3
        omega
    obtain ⟨e1, e2⟩ := hexit
    subst e1 e2
    refine ⟨[(x, y)], steppedPath_single x1 y1 x y, fun fuel => ⟨fun h => ?_, fun h => ?_⟩⟩
    · have : fuel = 0 := by omega
      subst this
      rfl
    · obtain ⟨n, rfl⟩ : ∃ n, fuel = n + 1 := ⟨fuel - 1, by omega⟩
      simp only [linePositions, and_self, if_true]
  | succ r ih =>
    intro x y err a b ha0 ha hb0 hb ex ey eerr hmaj
    have hr : ((r + 1 : Nat) : Int) = (r : Int) + 1 := by push_cast; rfl
    rw [hr] at hmaj
    have hne2 : a < dx ∨ b < DY := by omega
    have hexit : ¬ (x = x2 ∧ y = y2) := by
      rintro ⟨e1, e2⟩
      rcases hmaj with ⟨_, _, h3⟩ | ⟨_, _, h3⟩
      · rcases hsx with ⟨_, e, _⟩ | ⟨_, e, _⟩ <;> subst e <;> omega
      · rcases hsy with ⟨_, e, _⟩ | ⟨_, e, _⟩ <;> subst e <;> omega
    obtain ⟨s1, s2, s3⟩ := bresenham_step dx DY a b hdx hDY ha0 ha hb0 hb hne2
    rw [← eerr] at s1 s2 s3
    have hbox : (min x1 x2 ≤ x ∧ x ≤ max x1 x2) ∧ (min y1 y2 ≤ y ∧ y ≤ max y1 y2) := by
      constructor
      · rcases hsx with ⟨_, e, _⟩ | ⟨_, e, _⟩ <;> subst e <;> omega
      · rcases hsy with ⟨_, e, _⟩ | ⟨_, e, _⟩ <;> subst e <;> omega
    by_cases cx : 2 * err ≥ -DY
    · by_cases cy : 2 * err ≤ dx
      · obtain ⟨rest, hrest, hf⟩ := ih (x + sx) (y + sy) (err + -DY + dx) (a + 1) (b + 1)
          (by omega) (by have := s1 cx; omega) (by omega) (by have := s2 cy; omega)
          (by rw [ex]; ring) (by rw [ey]; ring) (by rw [eerr]; ring)
          (by
            rcases hmaj with ⟨h1, h2, h3⟩ | ⟨h1, h2, h3⟩
            · exact Or.inl ⟨h1, by omega, by omega⟩
            · exact Or.inr ⟨h1, by omega, by omega⟩)
        exact ⟨(x, y) :: rest, steppedPath_cons hrest (unitStep_add x y sx sy hux huy) hbox,
          fuel_cons _ _ _ _ _ rfl
            (fun n => by simp only [linePositions, if_neg hexit, if_pos cx, if_pos cy]) hf⟩
      · obtain ⟨rest, hrest, hf⟩ := ih (x + sx) y (err + -DY) (a + 1) b
          (by omega) (by have := s1 cx; omega) hb0 hb
          (by rw [ex]; ring) ey (by rw [eerr]; ring)
          (by
            rcases hmaj with ⟨h1, h2, h3⟩ | ⟨h1, h2, h3⟩
            · exact Or.inl ⟨h1, by omega, by omega⟩
            · exact absurd h2 cy)
        have hu : unitStep (x, y) (x + sx, y) := by
          have := unitStep_add x y sx 0 hux (Or.inr (Or.inr rfl))
          rw [add_zero] at this
          exact this
        exact ⟨(x, y) :: rest, steppedPath_cons hrest hu hbox,
          fuel_cons _ _ _ _ _ rfl
            (fun n => by simp only [linePositions, if_neg hexit, if_pos cx, if_neg cy]) hf⟩
    · have cy : 2 * err ≤ dx := s3.resolve_left cx
      obtain ⟨rest, hrest, hf⟩ := ih x (y + sy) (err + dx) a (b + 1)
        ha0 ha (by omega) (by have := s2 cy; omega)
        ex (by rw [ey]; ring) (by rw [eerr]; ring)
        (by
          rcases hmaj with ⟨h1, h2, h3⟩ | ⟨h1, h2, h3⟩
          · exact absurd h2 cx
          · exact Or.inr ⟨h1, by omega, by omega⟩)
      have hu : unitStep (x, y) (x, y + sy) := by
        have := unitStep_add x y 0 sy (Or.inr (Or.inr rfl)) huy
        rw [add_zero] at this
        exact this
      exact ⟨(x, y) :: rest, steppedPath_cons hrest hu hbox,
        fuel_cons _ _ _ _ _ rfl
          (fun n => by simp only [linePositions, if_neg hexit, if_neg cx, if_pos cy]) hf⟩

/-! ## The Bresenham loop of `writeLine` in exact integers -/

theorem linePositions_head_mem (x2 y2 dx dy sx sy : Int) (fuel : Nat) (x y err : Int)
    (path : List (Int × Int))
    (h : linePositions x2 y2 dx dy sx sy fuel x y err = some path) : (x, y) ∈ path := by
  cases fuel with
  | zero => exact absurd h (by simp [linePositions])
  | succ n =>
    by_cases hexit : x = x2 ∧ y = y2
    · simp only [linePositions, if_pos hexit, Option.some.injEq] at h
      rw [← h]
      exact List.mem_singleton_self _
    · simp only [linePositions, if_neg hexit] at h
      obtain ⟨rest, _, e⟩ := Option.map_eq_some'.1 h
      rw [← e]
      exact List.mem_cons_self _ _

theorem lineLoop_paints (W H x2 y2 dx dy sx sy : Int) (packed : Nat) (m : List Nat)
    (hW : 0 ≤ W) (hW1 : W < 2 ^ 31) (hH : 0 ≤ H) (hH1 : H < 2 ^ 31)
    (hlen : (m.length : Int) = W * H) :
    ∀ (fuel : Nat) (st : LineState) (path : List (Int × Int)) (P : Int → Int → Prop),
      linePositions x2 y2 dx dy sx sy fuel st.x1 st.y1 st.err = some path →
      (∀ p ∈ path, isInt p.1 ∧ isInt p.2) →
      Painted W H m st.pixels P packed →
      ∃ out, lineLoop W H x2 y2 dx dy sx sy packed fuel st = some out ∧
        Painted W H m out.pixels (fun px py => P px py ∨ (px, py) ∈ path) packed := by
  intro fuel
  induction fuel with
  | zero =>
    intro st path P h
    exact absurd h (by simp [linePositions])
  | succ n ih =>
    intro st path P hpos hint hp
    have ii := hint _ (linePositions_head_mem _ _ _ _ _ _ _ _ _ _ _ hpos)
    have hstore : ∃ u, (if toUnsigned st.x1 < toUnsigned W ∧ toUnsigned st.y1 < toUnsigned H
        then store st.pixels (st.y1 * W + st.x1) packed else some st.pixels) = some u ∧
        Painted W H m u (fun px py => P px py ∨ (px = st.x1 ∧ py = st.y1)) packed := by
      by_cases g : toUnsigned st.x1 < toUnsigned W ∧ toUnsigned st.y1 < toUnsigned H
      · have gx := (unsigned_lt_iff st.x1 W ii.1 hW hW1).1 g.1
        have gy := (unsigned_lt_iff st.y1 H ii.2 hH hH1).1 g.2
        obtain ⟨u, hu, hpu⟩ := hp.store hlen st.x1 st.y1 gx.1 gx.2 gy.1 gy.2
        exact ⟨u, by rw [if_pos g, hu], hpu⟩
      · refine ⟨st.pixels, by rw [if_neg g], hp.congr ?_⟩
        intro px py a b c d
        constructor
        · exact Or.inl
        · rintro (h | ⟨e1, e2⟩)
          · exact h
          · exfalso
            apply g
            rw [← e1, ← e2]
            exact ⟨(unsigned_lt_iff px W (by rw [e1]; exact ii.1) hW hW1).2 ⟨a, b⟩,
              (unsigned_lt_iff py H (by rw [e2]; exact ii.2) hH hH1).2 ⟨c, d⟩⟩
    obtain ⟨u, hu, hpu⟩ := hstore
    by_cases hexit : st.x1 = x2 ∧ st.y1 = y2
    · simp only [linePositions, if_pos hexit, Option.some.injEq] at hpos
      subst hpos
      refine ⟨{ st with pixels := u }, by rw [lineLoop, hu, Option.some_bind, if_pos hexit],
        hpu.congr ?_⟩
      intro px py _ _ _ _
      simp only [List.mem_singleton, Prod.mk.injEq]
    · simp only [linePositions, if_neg hexit] at hpos
      obtain ⟨rest, hrest, e⟩ := Option.map_eq_some'.1 hpos
      subst e
      obtain ⟨out, hout, hpo⟩ := ih ⟨_, _, _, u⟩ rest _ hrest
        (fun p hp => hint p (List.mem_cons_of_mem _ hp)) hpu
      refine ⟨out, by simp only [lineLoop, hu, Option.some_bind, if_neg hexit]; exact hout,
        hpo.congr ?_⟩
      intro px py _ _ _ _
      simp only [List.mem_cons, Prod.mk.injEq]
      constructor
      · rintro ((h | h) | h)
        · exact Or.inl h
        · exact Or.inr (Or.inl h)
        · exact Or.inr (Or.inr h)
      · rintro (h | h | h)
        · exact Or.inl (Or.inl h)
        · exact Or.inl (Or.inr h)
        · exact Or.inr h

theorem lineLoop_none_of_positions (W H x2 y2 dx dy sx sy : Int) (packed : Nat) :
    ∀ (fuel : Nat) (st : LineState),
      linePositions x2 y2 dx dy sx sy fuel st.x1 st.y1 st.err = none →
      lineLoop W H x2 y2 dx dy sx sy packed fuel st = none := by
  intro fuel
  induction fuel with
  | zero => intro st _; rfl
  | succ n ih =>
    intro st h
    by_cases hexit : st.x1 = x2 ∧ st.y1 = y2
    · simp only [linePositions, if_pos hexit] at h
      exact absurd h (by simp)
    · simp only [linePositions, if_neg hexit, Option.map_eq_none'] at h
      rw [lineLoop]
      generalize (if toUnsigned st.x1 < toUnsigned W ∧ toUnsigned st.y1 < toUnsigned H
        then store st.pixels (st.y1 * W + st.x1) packed else some st.pixels) = o
      cases o with
      | none => rfl
      | some u =>
        simp only [Option.some_bind, if_neg hexit]
        exact ih ⟨_, _, _, u⟩ h

/-- In exact integer arithmetic, with `n = max(|x2-x1|, |y2-y1|)`: there is a stepped
path of `n` steps from `(x1,y1)` to `(x2,y2)` such that the loop of `writeLine` has not
reached its `break` within `n` rounds, and within `n + 1` rounds it visits exactly the
positions of the path, `writeLine` returns, and the buffer pixels on the path hold the
packed color while every other pixel keeps its previous value. -/
theorem writeLine_exact_path (s : Window) (x1 y1 x2 y2 : Int) (c : color)
    (hwf : s.wf) (hx1 : isInt x1) (hy1 : isInt y1) (hx2 : isInt x2) (hy2 : isInt y2) :
    ∃ path : List (Int × Int),
      SteppedPath x1 y1 x2 y2 (max |x2 - x1| |y2 - y1|).toNat x1 y1 path ∧
      (∀ fuel, fuel ≤ (max |x2 - x1| |y2 - y1|).toNat →
        linePath fuel x1 y1 x2 y2 = none ∧ writeLine fuel s x1 y1 x2 y2 c = none) ∧
      (∀ fuel, (max |x2 - x1| |y2 - y1|).toNat < fuel →
        linePath fuel x1 y1 x2 y2 = some path ∧
        ∃ t, writeLine fuel s x1 y1 x2 y2 c = some t ∧
          Painted s.bufferWidth s.bufferHeight s.pixelBuffer t.pixelBuffer
            (fun px py => (px, py) ∈ path) (packColor c)) := by
  obtain ⟨hw, hh, hw1, hh1, _, hlen⟩ := hwf
  have hsx : (x1 < x2 ∧ (if x1 < x2 then (1 : Int) else -1) = 1 ∧ |x2 - x1| = x2 - x1) ∨
      (x2 ≤ x1 ∧ (if x1 < x2 then (1 : Int) else -1) = -1 ∧ |x2 - x1| = x1 - x2) := by
    by_cases h : x1 < x2
    · exact Or.inl ⟨h, if_pos h, abs_of_nonneg (by omega)⟩
    · exact Or.inr ⟨by omega, if_neg h, by rw [abs_of_nonpos (by omega)]; ring⟩
  have hsy : (y1 < y2 ∧ (if y1 < y2 then (1 : Int) else -1) = 1 ∧ |y2 - y1| = y2 - y1) ∨
      (y2 ≤ y1 ∧ (if y1 < y2 then (1 : Int) else -1) = -1 ∧ |y2 - y1| = y1 - y2) := by
    by_cases h : y1 < y2
    · exact Or.inl ⟨h, if_pos h, abs_of_nonneg (by omega)⟩
    · exact Or.inr ⟨by omega, if_neg h, by rw [abs_of_nonpos (by omega)]; ring⟩
  have hd0 : 0 ≤ |x2 - x1| := abs_nonneg _
  have hd1 : 0 ≤ |y2 - y1| := abs_nonneg _
  obtain ⟨path, hpath, hf⟩ := linePositions_spec x1 y1 x2 y2 |x2 - x1| |y2 - y1|
    (if x1 < x2 then 1 else -1) (if y1 < y2 then 1 else -1) hsx hsy
    (max |x2 - x1| |y2 - y1|).toNat x1 y1 (|x2 - x1| + -|y2 - y1|) 0 0
    (le_refl _) hd0 (le_refl _) hd1 (by simp) (by simp) (by ring)
    (by
      rw [Int.toNat_of_nonneg (by omega)]
      by_cases hm : |y2 - y1| ≤ |x2 - x1|
      · exact Or.inl ⟨hm, by omega, by omega⟩
      · exact Or.inr ⟨by omega, by omega, by omega⟩)
  have hint : ∀ p ∈ path, isInt p.1 ∧ isInt p.2 := by
    intro p hp
    have := hpath.2.2.2.2 p hp
    unfold isInt at *
    omega
  refine ⟨path, hpath, fun fuel hfu => ⟨(hf fuel).1 hfu, ?_⟩, fun fuel hfu =>
    ⟨(hf fuel).2 hfu, ?_⟩⟩
  · have hn := lineLoop_none_of_positions s.bufferWidth s.bufferHeight x2 y2 |x2 - x1|
      (-|y2 - y1|) (if x1 < x2 then 1 else -1) (if y1 < y2 then 1 else -1) (packColor c) fuel
      ⟨x1, y1, |x2 - x1| + -|y2 - y1|, s.pixelBuffer⟩ ((hf fuel).1 hfu)
    simp only [writeLine, hn, Option.map_none']
  · obtain ⟨out, hout, hp⟩ := lineLoop_paints s.bufferWidth s.bufferHeight x2 y2 |x2 - x1|
      (-|y2 - y1|) (if x1 < x2 then 1 else -1) (if y1 < y2 then 1 else -1) (packColor c)
      s.pixelBuffer hw hw1 hh hh1 hlen fuel
      ⟨x1, y1, |x2 - x1| + -|y2 - y1|, s.pixelBuffer⟩ path (fun _ _ => False)
      ((hf fuel).2 hfu) hint (painted_refl _ _ _ _)
    have hp2 : Painted s.bufferWidth s.bufferHeight s.pixelBuffer out.pixels
        (fun px py => (px, py) ∈ path) (packColor c) :=
      hp.congr (fun px py _ _ _ _ => ⟨fun h => h.elim False.elim id, Or.inr⟩)
    refine ⟨_, by simp only [writeLine, hout, Option.map_some']; rfl, ?_⟩
    by_cases hu : s.useMarkDirty = true
    · simp only [hu, if_true]
      rw [(markDirty_frame _ _ _ _ _).1]
      exact hp2
    · simp only [hu]
      exact hp2

/-! ## The loop of `writeLine` in 32-bit arithmetic -/

theorem wrapInt_eq (v : Int) (h : isInt v) : wrapInt v = v := by
  unfold isInt at h
  unfold wrapInt
  omega

/-- One round of the loop under the invariant, when `3*dx` and `3*DY` are below
`2^31`: the 32-bit values of `2*err`, of the updated error term and of the stepped
coordinates are the exact ones, and the invariant holds at the next round. -/
theorem line_round (x1 y1 x2 y2 dx DY sx sy x y err : Int)
    (hsx : (x1 < x2 ∧ sx = 1 ∧ dx = x2 - x1) ∨ (x2 ≤ x1 ∧ sx = -1 ∧ dx = x1 - x2))
    (hsy : (y1 < y2 ∧ sy = 1 ∧ DY = y2 - y1) ∨ (y2 ≤ y1 ∧ sy = -1 ∧ DY = y1 - y2))
    (hx1 : isInt x1) (hx2 : isInt x2) (hy1 : isInt y1) (hy2 : isInt y2)
    (hB : 3 * dx < 2 ^ 31 ∧ 3 * DY < 2 ^ 31)
    (hI : LineInv x1 y1 dx DY sx sy x y err) (hexit : ¬ (x = x2 ∧ y = y2)) :
    wrapInt (2 * err) = 2 * err ∧
    (2 * err ≥ -DY → 2 * err ≤ dx →
      wrapInt (err + -DY) = err + -DY ∧ wrapInt (x + sx) = x + sx ∧
      wrapInt (err + -DY + dx) = err + -DY + dx ∧ wrapInt (y + sy) = y + sy ∧
      LineInv x1 y1 dx DY sx sy (x + sx) (y + sy) (err + -DY + dx)) ∧
    (2 * err ≥ -DY → ¬ 2 * err ≤ dx →
      wrapInt (err + -DY) = err + -DY ∧ wrapInt (x + sx) = x + sx ∧
      LineInv x1 y1 dx DY sx sy (x + sx) y (err + -DY)) ∧
    (¬ 2 * err ≥ -DY →
      2 * err ≤ dx ∧ wrapInt (err + dx) = err + dx ∧ wrapInt (y + sy) = y + sy ∧
      LineInv x1 y1 dx DY sx sy x (y + sy) (err + dx)) := by
  obtain ⟨a, b, ⟨ha0, ha⟩, ⟨hb0, hb⟩, ex, ey, eerr, hmaj⟩ := hI
  have hdx : 0 ≤ dx := by omega
  have hDY : 0 ≤ DY := by omega
  have hne : a < dx ∨ b < DY := by
    by_contra hc
    apply hexit
    have e1 : a = dx := by omega
    have e2 : b = DY := by omega
    subst e1 e2
    constructor
    · rcases hsx with ⟨_, e, _⟩ | ⟨_, e, _⟩ <;> subst e <;> omega
    · rcases hsy with ⟨_, e, _⟩ | ⟨_, e, _⟩ <;> subst e <;> omega
  obtain ⟨s1, s2, s3⟩ := bresenham_step dx DY a b hdx hDY ha0 ha hb0 hb hne
  rw [← eerr] at s1 s2 s3
  have hxs : 2 * err ≥ -DY → isInt (x + sx) := by
    intro h
    have := s1 h
    unfold isInt at *
    rcases hsx with ⟨_, e, _⟩ | ⟨_, e, _⟩ <;> subst e <;> omega
  have hys : 2 * err ≤ dx → isInt (y + sy) := by
    intro h
    have := s2 h
    unfold isInt at *
    rcases hsy with ⟨_, e, _⟩ | ⟨_, e, _⟩ <;> subst e <;> omega
  refine ⟨wrapInt_eq _ (by unfold isInt; omega), fun cx cy => ?_, fun cx cy => ?_, fun cx => ?_⟩
  · refine ⟨wrapInt_eq _ (by unfold isInt; omega), wrapInt_eq _ (hxs cx),
      wrapInt_eq _ (by unfold isInt; omega), wrapInt_eq _ (hys cy),
      a + 1, b + 1, ⟨by omega, by have := s1 cx; omega⟩, ⟨by omega, by have := s2 cy; omega⟩,
      by rw [ex]; ring, by rw [ey]; ring, by rw [eerr]; ring, ?_⟩
    rcases hmaj with ⟨h1, h2, h3⟩ | ⟨h1, h2, h3⟩
    · exact Or.inl ⟨h1, by omega, by omega⟩
    · exact Or.inr ⟨h1, by omega, by omega⟩
  · refine ⟨wrapInt_eq _ (by unfold isInt; omega), wrapInt_eq _ (hxs cx),
      a + 1, b, ⟨by omega, by have := s1 cx; omega⟩, ⟨hb0, hb⟩,
      by rw [ex]; ring, ey, by rw [eerr]; ring, ?_⟩
    rcases hmaj with ⟨h1, h2, h3⟩ | ⟨h1, h2, h3⟩
    · exact Or.inl ⟨h1, by omega, by omega⟩
    · exact absurd h2 cy
  · have cy : 2 * err ≤ dx := s3.resolve_left cx
    refine ⟨cy, wrapInt_eq _ (by unfold isInt; omega), wrapInt_eq _ (hys cy),
      a, b + 1, ⟨ha0, ha⟩, ⟨by omega, by have := s2 cy; omega⟩,
      ex, by rw [ey]; ring, by rw [eerr]; ring, ?_⟩
    rcases hmaj with ⟨h1, h2, h3⟩ | ⟨h1, h2, h3⟩
    · exact absurd h2 cx
    · exact Or.inr ⟨h1, by omega, by omega⟩

theorem lineLoop32_eq (W H x1 y1 x2 y2 dx DY sx sy : Int) (packed : Nat)
    (hsx : (x1 < x2 ∧ sx = 1 ∧ dx = x2 - x1) ∨ (x2 ≤ x1 ∧ sx = -1 ∧ dx = x1 - x2))
    (hsy : (y1 < y2 ∧ sy = 1 ∧ DY = y2 - y1) ∨ (y2 ≤ y1 ∧ sy = -1 ∧ DY = y1 - y2))
    (hx1 : isInt x1) (hx2 : isInt x2) (hy1 : isInt y1) (hy2 : isInt y2)
    (hB : 3 * dx < 2 ^ 31 ∧ 3 * DY < 2 ^ 31) :
    ∀ (fuel : Nat) (st : LineState), LineInv x1 y1 dx DY sx sy st.x1 st.y1 st.err →
      lineLoop32 W H x2 y2 dx (-DY) sx sy packed fuel st
        = lineLoop W H x2 y2 dx (-DY) sx sy packed fuel st := by
  intro fuel
  induction fuel with
  | zero => intro st _; rfl
  | succ n ih =>
    intro st hI
    rw [lineLoop32, lineLoop]
    congr 1
    funext px
    by_cases hexit : st.x1 = x2 ∧ st.y1 = y2
    · rw [if_pos hexit, if_pos hexit]
    · rw [if_neg hexit, if_neg hexit]
      obtain ⟨w0, c1, c2, c3⟩ := line_round x1 y1 x2 y2 dx DY sx sy st.x1 st.y1 st.err hsx hsy
        hx1 hx2 hy1 hy2 hB hI hexit
      simp only [w0]
      by_cases cx : 2 * st.err ≥ -DY
      · by_cases cy : 2 * st.err ≤ dx
        · obtain ⟨w1, w2, w3, w4, hI2⟩ := c1 cx cy
          simp only [if_pos cx, if_pos cy, w1, w2, w3, w4]
          exact ih ⟨_, _, _, px⟩ hI2
        · obtain ⟨w1, w2, hI2⟩ := c2 cx cy
          simp only [if_pos cx, if_neg cy, w1, w2]
          exact ih ⟨_, _, _, px⟩ hI2
      · obtain ⟨cy, w1, w2, hI2⟩ := c3 cx
        simp only [if_neg cx, if_pos cy, w1, w2]
        exact ih ⟨_, _, _, px⟩ hI2

theorem linePositions32_eq (x1 y1 x2 y2 dx DY sx sy : Int)
    (hsx : (x1 < x2 ∧ sx = 1 ∧ dx = x2 - x1) ∨ (x2 ≤ x1 ∧ sx = -1 ∧ dx = x1 - x2))
    (hsy : (y1 < y2 ∧ sy = 1 ∧ DY = y2 - y1) ∨ (y2 ≤ y1 ∧ sy = -1 ∧ DY = y1 - y2))
    (hx1 : isInt x1) (hx2 : isInt x2) (hy1 : isInt y1) (hy2 : isInt y2)
    (hB : 3 * dx < 2 ^ 31 ∧ 3 * DY < 2 ^ 31) :
    ∀ (fuel : Nat) (x y err : Int), LineInv x1 y1 dx DY sx sy x y err →
      linePositions32 x2 y2 dx (-DY) sx sy fuel x y err
        = linePositions x2 y2 dx (-DY) sx sy fuel x y err := by
  intro fuel
  induction fuel with
  | zero => intro x y err _; rfl
  | succ n ih =>
    intro x y err hI
    rw [linePositions32, linePositions]
    by_cases hexit : x = x2 ∧ y = y2
    · rw [if_pos hexit, if_pos hexit]
    · rw [if_neg hexit, if_neg hexit]
      obtain ⟨w0, c1, c2, c3⟩ := line_round x1 y1 x2 y2 dx DY sx sy x y err hsx hsy
        hx1 hx2 hy1 hy2 hB hI hexit
      simp only [w0]
      by_cases cx : 2 * err ≥ -DY
      · by_cases cy : 2 * err ≤ dx
        · obtain ⟨w1, w2, w3, w4, hI2⟩ := c1 cx cy
          simp only [if_pos cx, if_pos cy, w1, w2, w3, w4]
          rw [ih _ _ _ hI2]
        · obtain ⟨w1, w2, hI2⟩ := c2 cx cy
          simp only [if_pos cx, if_neg cy, w1, w2]
          rw [ih _ _ _ hI2]
      · obtain ⟨cy, w1, w2, hI2⟩ := c3 cx
        simp only [if_neg cx, if_pos cy, w1, w2]
        rw [ih _ _ _ hI2]

theorem writeLine32_eq (fuel : Nat) (s : Window) (x1 y1 x2 y2 : Int) (c : color)
    (hx1 : isInt x1) (hy1 : isInt y1) (hx2 : isInt x2) (hy2 : isInt y2)
    (hB : 3 * max |x2 - x1| |y2 - y1| < 2 ^ 31) :
    writeLine32 fuel s x1 y1 x2 y2 c = writeLine fuel s x1 y1 x2 y2 c ∧
    linePath32 fuel x1 y1 x2 y2 = linePath fuel x1 y1 x2 y2 := by
  have hsx : (x1 < x2 ∧ (if x1 < x2 then (1 : Int) else -1) = 1 ∧ |x2 - x1| = x2 - x1) ∨
      (x2 ≤ x1 ∧ (if x1 < x2 then (1 : Int) else -1) = -1 ∧ |x2 - x1| = x1 - x2) := by
    by_cases h : x1 < x2
    · exact Or.inl ⟨h, if_pos h, abs_of_nonneg (by omega)⟩
    · exact Or.inr ⟨by omega, if_neg h, by rw [abs_of_nonpos (by omega)]; ring⟩
  have hsy : (y1 < y2 ∧ (if y1 < y2 then (1 : Int) else -1) = 1 ∧ |y2 - y1| = y2 - y1) ∨
      (y2 ≤ y1 ∧ (if y1 < y2 then (1 : Int) else -1) = -1 ∧ |y2 - y1| = y1 - y2) := by
    by_cases h : y1 < y2
    · exact Or.inl ⟨h, if_pos h, abs_of_nonneg (by omega)⟩
    · exact Or.inr ⟨by omega, if_neg h, by rw [abs_of_nonpos (by omega)]; ring⟩
  have hd0 : 0 ≤ |x2 - x1| := abs_nonneg _
  have hd1 : 0 ≤ |y2 - y1| := abs_nonneg _
  have hB2 : 3 * |x2 - x1| < 2 ^ 31 ∧ 3 * |y2 - y1| < 2 ^ 31 := by omega
  have e1 : wrapInt (x2 - x1) = x2 - x1 := wrapInt_eq _ (by unfold isInt; omega)
  have e2 : wrapInt |x2 - x1| = |x2 - x1| := wrapInt_eq _ (by unfold isInt; omega)
  have e3 : wrapInt (y2 - y1) = y2 - y1 := wrapInt_eq _ (by unfold isInt; omega)
  have e4 : wrapInt |y2 - y1| = |y2 - y1| := wrapInt_eq _ (by unfold isInt; omega)
  have e5 : wrapInt (-|y2 - y1|) = -|y2 - y1| := wrapInt_eq _ (by unfold isInt; omega)
  have e6 : wrapInt (|x2 - x1| + -|y2 - y1|) = |x2 - x1| + -|y2 - y1| :=
    wrapInt_eq _ (by unfold isInt; omega)
  have hI : LineInv x1 y1 |x2 - x1| |y2 - y1| (if x1 < x2 then 1 else -1)
      (if y1 < y2 then 1 else -1) x1 y1 (|x2 - x1| + -|y2 - y1|) := by
    refine ⟨0, 0, ⟨le_refl _, hd0⟩, ⟨le_refl _, hd1⟩, by simp, by simp, by ring, ?_⟩
    by_cases hm : |y2 - y1| ≤ |x2 - x1|
    · exact Or.inl ⟨hm, by omega, by omega⟩
    · exact Or.inr ⟨by omega, by omega, by omega⟩
  constructor
  · simp only [writeLine32, writeLine, e1, e2, e3, e4, e5, e6]
    rw [lineLoop32_eq s.bufferWidth s.bufferHeight x1 y1 x2 y2 |x2 - x1| |y2 - y1| _ _
      (packColor c) hsx hsy hx1 hx2 hy1 hy2 hB2 fuel ⟨x1, y1, _, s.pixelBuffer⟩ hI]
    cases hl : lineLoop s.bufferWidth s.bufferHeight x2 y2 |x2 - x1| (-|y2 - y1|)
        (if x1 < x2 then 1 else -1) (if y1 < y2 then 1 else -1) (packColor c) fuel
        ⟨x1, y1, |x2 - x1| + -|y2 - y1|, s.pixelBuffer⟩ with
    | none => rfl
    | some st =>
      obtain ⟨ex, ey⟩ := lineLoop_exit _ _ _ _ _ _ _ _ _ _ _ _ hl
      have w1 : wrapInt (wrapInt (0 : Int) + 1) = 0 + 1 := by decide
      simp only [Option.map_some', ex, ey, fastMin_eq, fastMax_eq, min_self, max_self,
        sub_self, w1]
  · simp only [linePath32, linePath, e1, e2, e3, e4, e5, e6]
    exact linePositions32_eq x1 y1 x2 y2 |x2 - x1| |y2 - y1| _ _ hsx hsy hx1 hx2 hy1 hy2 hB2
      fuel x1 y1 _ hI

theorem lineLoop32_stays_below (W H x2 dx dy sx : Int) (packed : Nat) :
    ∀ (fuel : Nat) (st : LineState), st.y1 ≤ -1 → -2 ^ 31 + (fuel : Int) ≤ st.y1 →
      lineLoop32 W H x2 0 dx dy sx (-1) packed fuel st = none := by
  intro fuel
  induction fuel with
  | zero => intro st _ _; rfl
  | succ n ih =>
    intro st h1 h2
    have h3 : -2 ^ 31 + (n : Int) + 1 ≤ st.y1 := by
      have hc : ((n + 1 : Nat) : Int) = (n : Int) + 1 := by push_cast; rfl
      rw [hc] at h2
      omega
    have hw : wrapInt (st.y1 + -1) = st.y1 + -1 := wrapInt_eq _ (by unfold isInt; omega)
    have hexit : ¬ (st.x1 = x2 ∧ st.y1 = 0) := by omega
    rw [lineLoop32]
    generalize (if toUnsigned st.x1 < toUnsigned W ∧ toUnsigned st.y1 < toUnsigned H
      then store st.pixels (st.y1 * W + st.x1) packed else some st.pixels) = o
    cases o with
    | none => rfl
    | some px =>
      simp only [Option.some_bind, if_neg hexit]
      apply ih
      · show (if _ then _ else _ : Int × Int).2 ≤ -1
        split
        · show wrapInt (st.y1 + -1) ≤ -1
          rw [hw]
          omega
        · exact h1
      · show -2 ^ 31 + (n : Int) ≤ (if _ then _ else _ : Int × Int).2
        split
        · show -2 ^ 31 + (n : Int) ≤ wrapInt (st.y1 + -1)
          rw [hw]
          omega
        · show -2 ^ 31 + (n : Int) ≤ st.y1
          omega

theorem linePositions32_stays_below (x2 dx dy sx : Int) :
    ∀ (fuel : Nat) (x y err : Int), y ≤ -1 → -2 ^ 31 + (fuel : Int) ≤ y →
      linePositions32 x2 0 dx dy sx (-1) fuel x y err = none := by
  intro fuel
  induction fuel with
  | zero => intro x y err _ _; rfl
  | succ n ih =>
    intro x y err h1 h2
    have h3 : -2 ^ 31 + (n : Int) + 1 ≤ y := by
      have hc : ((n + 1 : Nat) : Int) = (n : Int) + 1 := by push_cast; rfl
      rw [hc] at h2
      omega
    have hw : wrapInt (y + -1) = y + -1 := wrapInt_eq _ (by unfold isInt; omega)
    have hexit : ¬ (x = x2 ∧ y = 0) := by omega
    simp only [linePositions32, if_neg hexit, Option.map_eq_none']
    apply ih
    · show (if _ then _ else _ : Int × Int).2 ≤ -1
      split
      · show wrapInt (y + -1) ≤ -1
        rw [hw]
        omega
      · exact h1
    · show -2 ^ 31 + (n : Int) ≤ (if _ then _ else _ : Int × Int).2
      split
      · show -2 ^ 31 + (n : Int) ≤ wrapInt (y + -1)
        rw [hw]
        omega
      · show -2 ^ 31 + (n : Int) ≤ y
        omega

/-- The first round of `writeLine32(0, 0, 2^30, 0)`: `e2 = 2*err` is `2^31`, which
is `-2^31` as a 32-bit `int`, so the round steps `y` to `-1` and not `x`; from then on
`y1` stays negative for `2^31 - 1` further rounds and the `break` is not reached. -/
theorem lineLoop32_overflow (W H D : Int) (packed : Nat) (n : Nat) (m : List Nat)
    (hD : D = 2 ^ 30) (hn : (n : Int) ≤ 2 ^ 31 - 1) :
    lineLoop32 W H D 0 D 0 1 (-1) packed (n + 1) ⟨0, 0, D, m⟩ = none := by
  have h1 : wrapInt (2 * D) = -2 ^ 31 := by subst hD; decide
  have hc1 : ¬ (wrapInt (2 * D) ≥ 0) := by rw [h1]; decide
  have hc2 : wrapInt (2 * D) ≤ D := by rw [h1]; omega
  have hexit : ¬ ((0 : Int) = D ∧ (0 : Int) = 0) := by omega
  have hy : wrapInt ((0 : Int) + -1) = -1 := by decide
  rw [lineLoop32]
  generalize (if toUnsigned (0 : Int) < toUnsigned W ∧ toUnsigned (0 : Int) < toUnsigned H
    then store m ((0 : Int) * W + 0) packed else some m) = o
  cases o with
  | none => rfl
  | some px =>
    rw [Option.some_bind, if_neg hexit]
    simp only [if_neg hc1, if_pos hc2, hy]
    exact lineLoop32_stays_below W H D D 0 1 packed n ⟨0, -1, _, px⟩ (le_refl _)
      (by show _ ≤ (-1 : Int); omega)

theorem linePositions32_overflow (D : Int) (n : Nat) (hD : D = 2 ^ 30)
    (hn : (n : Int) ≤ 2 ^ 31 - 1) :
    linePositions32 D 0 D 0 1 (-1) (n + 1) 0 0 D = none := by
  have h1 : wrapInt (2 * D) = -2 ^ 31 := by subst hD; decide
  have hc1 : ¬ (wrapInt (2 * D) ≥ 0) := by rw [h1]; decide
  have hc2 : wrapInt (2 * D) ≤ D := by rw [h1]; omega
  have hexit : ¬ ((0 : Int) = D ∧ (0 : Int) = 0) := by omega
  have hy : wrapInt ((0 : Int) + -1) = -1 := by decide
  rw [linePositions32, if_neg hexit]
  simp only [if_neg hc1, if_pos hc2, hy, Option.map_eq_none']
  exact linePositions32_stays_below D D 0 1 n 0 (-1) _ (le_refl _) (by omega)

/-! ## C24: the Bresenham loop of `writeLine` -/

/-- C24 (counterexample). `writeLine(0, 0, 2^30, 0)`: the end points and their
differences are `int` values, `max(|x2-x1|, |y2-y1|) = 2^30`, but `2*err = 2^31` is
not: as a 32-bit value it is `-2^31`, the first round steps `y` to `-1`, outside the
bounding box of the end points, and after `2^30 + 1` rounds the loop has not reached
its `break`, on the path and in `writeLine` on a 4x4 buffer. -/
theorem C24_writeLine_overflow_misses_the_break :
    (isInt 0 ∧ isInt (2 ^ 30) ∧ isInt (2 ^ 30 - 0)) ∧
    (max |(2 ^ 30 : Int) - 0| |(0 : Int) - 0|).toNat = 2 ^ 30 ∧
    wrapInt (2 * 2 ^ 30) = -2 ^ 31 ∧
    linePath32 (2 ^ 30 + 1) 0 0 (2 ^ 30) 0 = none ∧
    writeLine32 (2 ^ 30 + 1) (freshWindow 4 4 true) 0 0 (2 ^ 30) 0 Red = none := by
  have a1 : wrapInt |wrapInt ((2 : Int) ^ 30 - 0)| = 2 ^ 30 := by decide
  have a2 : wrapInt (-wrapInt |wrapInt ((0 : Int) - 0)|) = 0 := by decide
  have a3 : wrapInt ((2 : Int) ^ 30 + 0) = 2 ^ 30 := by decide
  have a4 : (if (0 : Int) < 2 ^ 30 then (1 : Int) else -1) = 1 := by decide
  have a5 : (if (0 : Int) < 0 then (1 : Int) else -1) = -1 := by decide
  refine ⟨⟨by unfold isInt; decide, by unfold isInt; decide, by unfold isInt; decide⟩,
    by decide, by decide, ?_, ?_⟩
  · simp only [linePath32, a1, a2, a3, a4, a5]
    exact linePositions32_overflow (2 ^ 30) (2 ^ 30) rfl (by norm_num)
  · simp only [writeLine32, a1, a2, a3, a4, a5]
    rw [lineLoop32_overflow _ _ (2 ^ 30) _ (2 ^ 30) _ rfl (by norm_num)]
    rfl

/-- C24 (amended). For end points with `int` coordinates on a buffer satisfying the
framebuffer invariant, with `n = max(|x2-x1|, |y2-y1|)` and `3 * n < 2^31` (so that
neither the differences nor `err` and `2*err` leave the 32-bit range): there is a list
`path` of `n + 1` positions that starts at `(x1,y1)`, ends at `(x2,y2)`, moves by at
most one pixel in each axis per step and stays inside the bounding box of the two
end points, such that the loop of `writeLine`, in 32-bit arithmetic, has not reached
its `break` within `n` rounds, and within `n + 1` rounds (and any larger fuel) it
visits exactly the positions of `path` and `writeLine` returns; afterwards the
buffer pixels at the positions of `path` hold the packed color and every other pixel
keeps its previous value. -/
theorem C24_writeLine_steps_the_bresenham_path (s : Window) (x1 y1 x2 y2 : Int) (c : color)
    (hwf : s.wf) (hx1 : isInt x1) (hy1 : isInt y1) (hx2 : isInt x2) (hy2 : isInt y2)
    (hB : 3 * max |x2 - x1| |y2 - y1| < 2 ^ 31) :
    ∃ path : List (Int × Int),
      SteppedPath x1 y1 x2 y2 (max |x2 - x1| |y2 - y1|).toNat x1 y1 path ∧
      (∀ fuel, fuel ≤ (max |x2 - x1| |y2 - y1|).toNat →
        linePath32 fuel x1 y1 x2 y2 = none ∧ writeLine32 fuel s x1 y1 x2 y2 c = none) ∧
      (∀ fuel, (max |x2 - x1| |y2 - y1|).toNat < fuel →
        linePath32 fuel x1 y1 x2 y2 = some path ∧
        ∃ t, writeLine32 fuel s x1 y1 x2 y2 c = some t ∧
          Painted s.bufferWidth s.bufferHeight s.pixelBuffer t.pixelBuffer
            (fun px py => (px, py) ∈ path) (packColor c)) := by
  obtain ⟨path, hp, h1, h2⟩ := writeLine_exact_path s x1 y1 x2 y2 c hwf hx1 hy1 hx2 hy2
  refine ⟨path, hp, fun fuel hf => ?_, fun fuel hf => ?_⟩
  · obtain ⟨e1, e2⟩ := writeLine32_eq fuel s x1 y1 x2 y2 c hx1 hy1 hx2 hy2 hB
    rw [e1, e2]
    exact h1 fuel hf
  · obtain ⟨e1, e2⟩ := writeLine32_eq fuel s x1 y1 x2 y2 c hx1 hy1 hx2 hy2 hB
    rw [e1, e2]
    exact h2 fuel hf

theorem C24_writeLine_path_witness :
    (freshWindow 4 4 true).wf ∧ 3 * max |(5 : Int) - (-1)| |(3 : Int) - 0| < 2 ^ 31 ∧
    ∃ path : List (Int × Int),
      SteppedPath (-1) 0 5 3 (max |(5 : Int) - (-1)| |(3 : Int) - 0|).toNat (-1) 0 path ∧
      (∀ fuel, fuel ≤ (max |(5 : Int) - (-1)| |(3 : Int) - 0|).toNat →
        linePath32 fuel (-1) 0 5 3 = none ∧
        writeLine32 fuel (freshWindow 4 4 true) (-1) 0 5 3 Red = none) ∧
      (∀ fuel, (max |(5 : Int) - (-1)| |(3 : Int) - 0|).toNat < fuel →
        linePath32 fuel (-1) 0 5 3 = some path ∧
        ∃ t, writeLine32 fuel (freshWindow 4 4 true) (-1) 0 5 3 Red = some t ∧
          Painted (freshWindow 4 4 true).bufferWidth (freshWindow 4 4 true).bufferHeight
            (freshWindow 4 4 true).pixelBuffer t.pixelBuffer
            (fun px py => (px, py) ∈ path) (packColor Red)) :=
  ⟨freshWindow_wf 4 4 true (by decide) (by decide) (by decide), by decide,
   C24_writeLine_steps_the_bresenham_path (freshWindow 4 4 true) (-1) 0 5 3 Red
    (freshWindow_wf 4 4 true (by decide) (by decide) (by decide))
    (by unfold isInt; decide) (by unfold isInt; decide) (by unfold isInt; decide)
    (by unfold isInt; decide) (by decide)⟩

end Simple2d
